import Mathlib

/-!
Verification of the branch/thread graph engine of the AIdeator ideation
session, shallowly embedded from `src/graphs/ideation_graph.py`.

Python values are modelled by the inductive type `Val`; Python dicts by
association lists `Obj` (first binding wins, mirroring unique-key dicts;
all dicts built by the embedded code have unique keys).  Code paths that can
raise a Python exception (`TypeError`, `AttributeError`, `KeyError`, ...)
are modelled with `Option`: `none` means the corresponding Python call
raises.  String manipulation is implemented over `List Char` so that all
definitions evaluate by kernel reduction on concrete inputs.
-/

set_option linter.unnecessarySeqFocus false
set_option maxHeartbeats 1000000

namespace Ideation

/-- A Python value: the payloads flowing through the ideation engine are
JSON-like records made of strings, ints, bools, `None`, lists and dicts. -/
inductive Val where
  | vStr : String → Val
  | vInt : Int → Val
  | vBool : Bool → Val
  | vNone : Val
  | vList : List Val → Val
  | vDict : List (String × Val) → Val
deriving Repr

namespace Val

/-- Boolean equality on `Val`, mirroring Python `==` on JSON-like values. -/
def beq : Val → Val → Bool
  | vStr a, vStr b => a == b
  | vInt a, vInt b => a == b
  | vBool a, vBool b => a == b
  | vNone, vNone => true
  | vList a, vList b => beqList a b
  | vDict a, vDict b => beqDict a b
  | _, _ => false
where
  beqList : List Val → List Val → Bool
    | [], [] => true
    | x :: xs, y :: ys => beq x y && beqList xs ys
    | _, _ => false
  beqDict : List (String × Val) → List (String × Val) → Bool
    | [], [] => true
    | (k, x) :: xs, (k', y) :: ys => k == k' && beq x y && beqDict xs ys
    | _, _ => false

theorem beqList_iff (l m : List Val)
    (h : ∀ x ∈ l, ∀ y, beq x y = true ↔ x = y) :
    beq.beqList l m = true ↔ l = m := by
  induction l generalizing m with
  | nil => cases m <;> simp [beq.beqList]
  | cons x xs ih =>
      cases m with
      | nil => simp [beq.beqList]
      | cons y ys =>
          simp only [beq.beqList, Bool.and_eq_true, List.cons.injEq]
          rw [h x (by simp), ih ys (fun z hz => h z (by simp [hz]))]

theorem beqDict_iff (l m : List (String × Val))
    (h : ∀ p ∈ l, ∀ y, beq p.2 y = true ↔ p.2 = y) :
    beq.beqDict l m = true ↔ l = m := by
  induction l generalizing m with
  | nil => cases m <;> simp [beq.beqDict]
  | cons p ps ih =>
      cases m with
      | nil => simp [beq.beqDict]
      | cons q qs =>
          obtain ⟨k, v⟩ := p
          obtain ⟨k', v'⟩ := q
          simp only [beq.beqDict, Bool.and_eq_true, List.cons.injEq, Prod.mk.injEq,
            beq_iff_eq]
          rw [h (k, v) (by simp), ih qs (fun z hz => h z (by simp [hz]))]

theorem beq_iff (a b : Val) : beq a b = true ↔ a = b := by
  have H : ∀ n (a : Val), sizeOf a ≤ n → ∀ b : Val, (beq a b = true ↔ a = b) := by
    intro n
    induction n with
    | zero => intro a h; cases a <;> simp at h
    | succ n ih =>
        intro a h b
        cases a with
        | vStr s => cases b <;> simp [beq]
        | vInt i => cases b <;> simp [beq]
        | vBool x => cases b <;> simp [beq]
        | vNone => cases b <;> simp [beq]
        | vList l =>
            cases b <;> simp only [beq, reduceCtorEq, false_iff, vList.injEq] <;>
              try exact fun h' => by cases h'
            · rename_i m
              rw [beqList_iff l m ?_]
              intro x hx y
              apply ih
              have := List.sizeOf_lt_of_mem hx
              simp at h ⊢
              omega
        | vDict d =>
            cases b <;> simp only [beq, reduceCtorEq, false_iff, vDict.injEq] <;>
              try exact fun h' => by cases h'
            · rename_i m
              rw [beqDict_iff d m ?_]
              intro p hp y
              apply ih
              have := List.sizeOf_lt_of_mem hp
              obtain ⟨k, v⟩ := p
              simp [Prod.mk.sizeOf_spec] at h this ⊢
              omega
  exact H (sizeOf a) a le_rfl b

instance : DecidableEq Val := fun a b =>
  decidable_of_iff _ (beq_iff a b)

end Val

open Val

/-- A Python dict with `Val` values, as an association list in insertion
order; lookups take the first binding (dicts have unique keys). -/
abbrev Obj := List (String × Val)

/-- Dict lookup `d.get(k)` returning `None` as `none`. -/
def objGet : Obj → String → Option Val
  | [], _ => none
  | (k', v) :: rest, k => if k' = k then some v else objGet rest k

/-- Dict lookup `d.get(k, dflt)`. -/
def objGetD (o : Obj) (k : String) (dflt : Val) : Val :=
  (objGet o k).getD dflt

/-- Python `k in d` for a dict. -/
def objContains (o : Obj) (k : String) : Bool :=
  (objGet o k).isSome

/-! ### Python character/string helpers (over `List Char`) -/

/-- The six characters Python `str.strip()` removes. -/
def pySpace (c : Char) : Bool :=
  c = ' ' || c = '\t' || c = '\n' || c = '\x0d' || c = Char.ofNat 11 || c = Char.ofNat 12

/-- Python `str.strip()` on a character list. -/
def ltrim (s : List Char) : List Char :=
  ((s.dropWhile pySpace).reverse.dropWhile pySpace).reverse

/-- Python `str.strip()`. -/
def pyStrip (s : String) : String := ⟨ltrim s.data⟩

/-- ASCII lower-casing of one character (the command strings the session
compares are ASCII). -/
def charLower (c : Char) : Char :=
  if 'A' ≤ c ∧ c ≤ 'Z' then Char.ofNat (c.toNat + 32) else c

/-- Python `str.lower()`. -/
def pyLower (s : String) : String := ⟨s.data.map charLower⟩

/-- Does `pat` occur at the start of `s`? -/
def lstarts : List Char → List Char → Bool
  | [], _ => true
  | _ :: _, [] => false
  | p :: ps, c :: cs => p = c && lstarts ps cs

/-- Python `pat in s` for strings: does `pat` occur anywhere in `s`? -/
def lcontains (s pat : List Char) : Bool :=
  match s with
  | [] => lstarts pat []
  | _ :: rest => lstarts pat s || lcontains rest pat

/-- Python `s.split(sep, 1)` when `sep` is non-empty and occurs in `s`:
the pieces before and after the first occurrence. -/
def lsplitFirst (s sep : List Char) : Option (List Char × List Char) :=
  match s with
  | [] => if lstarts sep [] then some ([], []) else none
  | c :: rest =>
      if lstarts sep s then some ([], s.drop sep.length)
      else match lsplitFirst rest sep with
        | some (pre, post) => some (c :: pre, post)
        | none => none

/-- Python `strA in strB` (substring test). -/
def strContains (s pat : String) : Bool := lcontains s.data pat.data

/-- Decimal digits of a natural number (fuel-based so it reduces in the
kernel); mirrors Python decimal formatting of non-negative ints. -/
def natDec (fuel n : Nat) : List Char :=
  match fuel with
  | 0 => []
  | fuel + 1 =>
      if n < 10 then [Nat.digitChar n]
      else natDec fuel (n / 10) ++ [Nat.digitChar (n % 10)]

/-- Python `str(n)` for a natural number. -/
def natStr (n : Nat) : String := ⟨natDec (n + 1) n⟩

/-- Python `str(i)` for an int. -/
def intStr (i : Int) : String :=
  if i < 0 then "-" ++ natStr i.natAbs else natStr i.natAbs

/-- Python truthiness (`bool(v)`). -/
def pyTruthy : Val → Bool
  | vStr s => !s.data.isEmpty
  | vInt i => i ≠ 0
  | vBool b => b
  | vNone => false
  | vList l => !l.isEmpty
  | vDict d => !d.isEmpty

/-- Python `str(v)` as used by f-string interpolation.  Lists and dicts are
rendered best-effort; no claim depends on their exact rendering. -/
def pyStr : Val → String
  | vStr s => s
  | vInt i => intStr i
  | vBool b => if b then "True" else "False"
  | vNone => "None"
  | vList l => "[" ++ pyStrList l ++ "]"
  | vDict d => "\x7b" ++ pyStrDict d ++ "\x7d"
where
  pyStrList : List Val → String
    | [] => ""
    | [x] => pyStr x
    | x :: xs => pyStr x ++ ", " ++ pyStrList xs
  pyStrDict : List (String × Val) → String
    | [] => ""
    | [(k, v)] => k ++ ": " ++ pyStr v
    | (k, v) :: xs => k ++ ": " ++ pyStr v ++ ", " ++ pyStrDict xs

/-- Python `x in v` for an arbitrary value `v` (`TypeError` on
non-iterables is `none`). -/
def pyInVal (needle : String) (v : Val) : Option Bool :=
  match v with
  | vStr s => some (strContains s needle)
  | vList l => some (l.contains (vStr needle))
  | vDict d => some (d.any (fun p => p.1 = needle))
  | _ => none

/-- Python `v += t` for a string `t`: strings concatenate, lists extend
with the characters of `t`, everything else raises `TypeError`. -/
def pyPlusStr (v : Val) (t : String) : Option Val :=
  match v with
  | vStr s => some (vStr (s ++ t))
  | vList l => some (vList (l ++ t.data.map (fun c => vStr ⟨[c]⟩)))
  | _ => none

/-! ### The category normalizers
(`standardize_concept_branch_data`, `standardize_product_branch_data`) -/

/-- The separator phrases tried, in order, when splitting a combined
`content` string (source lines 2267). -/
def productDirPatterns : List String :=
  ["Product direction:", "Product Direction:", "Product direction", "Product Direction"]

/-- First matching separator split: `content.split(pattern, 1)` with both
parts stripped (source lines 2269-2274). -/
def splitContent (c : String) : Option (String × String) :=
  go productDirPatterns
where
  go : List String → Option (String × String)
    | [] => none
    | p :: ps =>
        if strContains c p then
          match lsplitFirst c.data p.data with
          | some (pre, post) => some (⟨ltrim pre⟩, ⟨ltrim post⟩)
          | none => none
        else go ps

/-- `userProfile` extraction from a combined content string:
`content.split("User:", 1)[1].split("\n", 1)[0].strip()` (source line 2295). -/
def extractUserPart (s : String) : String :=
  match lsplitFirst s.data "User:".data with
  | some (_, post) =>
      match lsplitFirst post "\n".data with
      | some (pre, _) => ⟨ltrim pre⟩
      | none => ⟨ltrim post⟩
  | none => ""

/-- An optional one-entry dict segment: `[(k, bd[k])]` when `k` is a key of
`bd`, else empty.  Used to assemble normalizer outputs in Python dict
insertion order. -/
def optEntry (bd : Obj) (k : String) : Obj :=
  match objGet bd k with
  | some v => [(k, v)]
  | none => []

/-- Explanation extraction of `standardize_concept_branch_data` (source
lines 2260-2281): the explanation, paired with the `productDirection`
recovered when a combined `content` string is split. -/
def scExplPd (bd : Obj) : Val × Option Val :=
  match objGet bd "explanation" with
  | some e => (e, none)
  | none =>
      match objGet bd "content" with
      | some (vStr c) =>
          match splitContent c with
          | some (pre, post) => (vStr pre, some (vStr post))
          | none => (vStr c, some (vStr ""))
      | _ => (vStr "", none)

/-- `productDirection` of `standardize_concept_branch_data` (source lines
2283-2287): an explicit field overrides, else the content-split value,
else `""`. -/
def scPd (bd : Obj) : Val :=
  match objGet bd "productDirection" with
  | some p => p
  | none => ((scExplPd bd).2).getD (vStr "")

/-- `userProfile` handling of `standardize_concept_branch_data` (source
lines 2290-2298): `some none` when no `userProfile` entry is produced,
`some (some u)` when one is, `none` when the Python code raises. -/
def scUpSlot (bd : Obj) : Option (Option Val) :=
  if objGetD bd "source" vNone = vStr "imaginaryFeedback" || objContains bd "userProfile" then
    match objGet bd "userProfile" with
    | some u => some (some u)
    | none =>
        match objGet bd "content" with
        | some c =>
            match pyInVal "User:" c with
            | none => none
            | some true =>
                match c with
                | vStr s => some (some (vStr (extractUserPart s)))
                | _ => none
            | some false => some (some (vStr ""))
        | none => some (some (vStr ""))
  else some none

/-- Display `content` rebuilt from the normalized fields (source lines
2315-2320); `none` models `TypeError` on `content += ...`. -/
def scContent (expl pd : Val) (upSlot : Option Val) : Option Val :=
  match
    (if pyTruthy pd then pyPlusStr expl (" Product Direction: " ++ pyStr pd)
     else some expl) with
  | none => none
  | some content0 =>
      some (match upSlot with
        | some u =>
            if pyTruthy u then
              vStr ("User: " ++ pyStr u ++ "\nFeedback: " ++ pyStr content0)
            else content0
        | none => content0)

/-- Output assembly of `standardize_concept_branch_data`, in Python dict
insertion order (source lines 2258-2322). -/
def scAssemble (bd : Obj) (heading expl pd : Val) (upSlot : Option Val) (content : Val) : Obj :=
  [("heading", heading), ("explanation", expl), ("productDirection", pd)]
    ++ (match upSlot with | some u => [("userProfile", u)] | none => [])
    ++ optEntry bd "source" ++ optEntry bd "source_idx"
    ++ optEntry bd "id" ++ optEntry bd "thread_id" ++ optEntry bd "parent_branch"
    ++ optEntry bd "children" ++ optEntry bd "expanded" ++ optEntry bd "expansion_data"
    ++ [("category", vStr "concept"), ("content", content)]

/-- `standardize_concept_branch_data` (source lines 2252-2324); `none`
models the `TypeError`/`AttributeError` paths of the content
concatenation and the `userProfile` extraction. -/
def standardize_concept_branch_data (bd : Obj) : Option Obj :=
  match scUpSlot bd with
  | none => none
  | some upSlot =>
      match scContent (scExplPd bd).1 (scPd bd) upSlot with
      | none => none
      | some content =>
          some (scAssemble bd (objGetD bd "heading" (vStr "Untitled Concept"))
            (scExplPd bd).1 (scPd bd) upSlot content)

/-- `standardize_product_branch_data` (source lines 2326-2367); total. -/
def standardize_product_branch_data (bd : Obj) : Obj :=
  let heading := objGetD bd "heading" (vStr "Untitled Product")
  let description :=
    match objGet bd "description" with
    | some d => d
    | none =>
        match objGet bd "explanation" with
        | some e => e
        | none => objGetD bd "content" (vStr "No description available.")
  let features : List Val :=
    match objGet bd "featureLists" with
    | some (vList l) => l
    | _ =>
        match objGet bd "features" with
        | some (vList l) => l
        | _ => []
  let features := if features.isEmpty then [vStr "No specific features provided"] else features
  let sourceConcepts :=
    match objGet bd "sourceConcepts" with
    | some s => s
    | none =>
        match objGet bd "source_concepts" with
        | some s => s
        | none => vList []
  [("heading", heading), ("description", description), ("features", vList features),
   ("sourceConcepts", sourceConcepts), ("category", vStr "product")]



/-! ### Idempotence of the normalizers (claim C2) -/

theorem objGet_append (a b : Obj) (k : String) :
    objGet (a ++ b) k = (objGet a k).or (objGet b k) := by
  induction a with
  | nil => simp [objGet]
  | cons p rest ih =>
      obtain ⟨k', v⟩ := p
      by_cases h : k' = k <;> simp [objGet, h, ih]

theorem objGet_optEntry_self (bd : Obj) (k : String) :
    objGet (optEntry bd k) k = objGet bd k := by
  unfold optEntry
  cases objGet bd k <;> simp [objGet]

theorem objGet_optEntry_ne (bd : Obj) (k k' : String) (h : k' ≠ k) :
    objGet (optEntry bd k) k' = none := by
  unfold optEntry
  cases objGet bd k <;> simp [objGet]
  exact fun h' => h h'.symm

theorem objGet_scAssemble_heading (bd : Obj) (h e p : Val) (u : Option Val) (c : Val) :
    objGet (scAssemble bd h e p u c) "heading" = some h := by
  simp [scAssemble, objGet]

theorem objGet_scAssemble_expl (bd : Obj) (h e p : Val) (u : Option Val) (c : Val) :
    objGet (scAssemble bd h e p u c) "explanation" = some e := by
  simp [scAssemble, objGet]

theorem objGet_scAssemble_pd (bd : Obj) (h e p : Val) (u : Option Val) (c : Val) :
    objGet (scAssemble bd h e p u c) "productDirection" = some p := by
  simp [scAssemble, objGet]

theorem objGet_scAssemble_up (bd : Obj) (h e p : Val) (u : Option Val) (c : Val) :
    objGet (scAssemble bd h e p u c) "userProfile" = u := by
  cases u with
  | some x => simp [scAssemble, objGet]
  | none =>
      simp [scAssemble, objGet, objGet_append, objGet_optEntry_ne]

theorem objGet_scAssemble_pass (bd : Obj) (h e p : Val) (u : Option Val) (c : Val)
    (k : String)
    (hk : k ∈ ["source", "source_idx", "id", "thread_id", "parent_branch",
               "children", "expanded", "expansion_data"]) :
    objGet (scAssemble bd h e p u c) k = objGet bd k := by
  fin_cases hk <;> cases u <;>
    simp [scAssemble, objGet, objGet_append, objGet_optEntry_ne, objGet_optEntry_self]

theorem objContains_scAssemble_up (bd : Obj) (h e p : Val) (u : Option Val) (c : Val) :
    objContains (scAssemble bd h e p u c) "userProfile" = u.isSome := by
  unfold objContains
  rw [objGet_scAssemble_up]

theorem optEntry_congr (a b : Obj) (k : String) (h : objGet a k = objGet b k) :
    optEntry a k = optEntry b k := by
  unfold optEntry
  rw [h]

theorem scUpSlot_scAssemble (bd : Obj) (h e p : Val) (u : Option Val) (c : Val)
    (hu : scUpSlot bd = some u) :
    scUpSlot (scAssemble bd h e p u c) = some u := by
  unfold scUpSlot at hu ⊢
  rw [show objGetD (scAssemble bd h e p u c) "source" vNone = objGetD bd "source" vNone by
        unfold objGetD; rw [objGet_scAssemble_pass] <;> simp,
      objContains_scAssemble_up, objGet_scAssemble_up]
  split at hu
  · -- the first-pass condition held, so a userProfile entry was produced
    rename_i hcond
    have husome : u.isSome := by
      repeat' split at hu
      all_goals first
        | (injection hu with h2; subst h2; rfl)
        | simp at hu
    rcases hx : u with _ | x
    · rw [hx] at husome; simp at husome
    · simp [hcond, Bool.or_true]
  · rename_i hcond
    simp only [reduceCtorEq, Option.some.injEq] at hu
    subst hu
    simp only [Option.isSome_none, Bool.or_false]
    simp only [Bool.or_eq_true, decide_eq_true_eq] at hcond
    push_neg at hcond
    rw [if_neg (by simp [hcond.1])]

theorem standardize_concept_idem (bd q : Obj)
    (h : standardize_concept_branch_data bd = some q) :
    standardize_concept_branch_data q = some q := by
  unfold standardize_concept_branch_data at h
  split at h
  · simp at h
  rename_i u hu
  split at h
  · simp at h
  rename_i c hc
  simp only [Option.some.injEq] at h
  subst h
  set H := objGetD bd "heading" (vStr "Untitled Concept") with hH
  set E := (scExplPd bd).1 with hE
  set P := scPd bd with hP
  set A := scAssemble bd H E P u c with hA
  have hexpl : scExplPd A = (E, none) := by
    unfold scExplPd
    rw [hA, objGet_scAssemble_expl]
  have hpd : scPd A = P := by
    unfold scPd
    rw [hA, objGet_scAssemble_pd]
  have hup : scUpSlot A = some u := scUpSlot_scAssemble bd H E P u c hu
  have hhead : objGetD A "heading" (vStr "Untitled Concept") = H := by
    unfold objGetD
    rw [hA, objGet_scAssemble_heading]
    rfl
  have hpass : ∀ k, k ∈ ["source", "source_idx", "id", "thread_id", "parent_branch",
      "children", "expanded", "expansion_data"] → optEntry A k = optEntry bd k := by
    intro k hk
    exact optEntry_congr _ _ _ (objGet_scAssemble_pass bd H E P u c k hk)
  have hstable : scAssemble A H E P u c = scAssemble bd H E P u c := by
    unfold scAssemble
    rw [hpass "source" (by simp), hpass "source_idx" (by simp), hpass "id" (by simp),
        hpass "thread_id" (by simp), hpass "parent_branch" (by simp),
        hpass "children" (by simp), hpass "expanded" (by simp),
        hpass "expansion_data" (by simp)]
  unfold standardize_concept_branch_data
  rw [hup]
  simp only [hexpl, hpd, hc, hhead]
  rw [hstable, ← hA]

theorem standardize_product_shape (bd : Obj) :
    ∃ H D S F, F.isEmpty = false ∧
      standardize_product_branch_data bd =
        [("heading", H), ("description", D), ("features", vList F),
         ("sourceConcepts", S), ("category", vStr "product")] := by
  unfold standardize_product_branch_data
  refine ⟨_, _, _, _, ?_, rfl⟩
  split <;> simp_all

theorem standardize_product_fixed (H D S : Val) (F : List Val) (hF : F.isEmpty = false) :
    standardize_product_branch_data
        [("heading", H), ("description", D), ("features", vList F),
         ("sourceConcepts", S), ("category", vStr "product")]
      = [("heading", H), ("description", D), ("features", vList F),
         ("sourceConcepts", S), ("category", vStr "product")] := by
  unfold standardize_product_branch_data
  simp [objGetD, objGet, hF]

theorem standardize_product_idem (bd : Obj) :
    standardize_product_branch_data (standardize_product_branch_data bd)
      = standardize_product_branch_data bd := by
  obtain ⟨H, D, S, F, hF, heq⟩ := standardize_product_shape bd
  rw [heq, standardize_product_fixed H D S F hF]

/-- C2: both normalizers are idempotent.  Renormalizing the output of
`standardize_concept_branch_data` returns it unchanged (exception paths
propagate through `Option.bind`), and `standardize_product_branch_data`
is idempotent on every key/value record. -/
theorem C2_normalizers_idempotent (p : Obj) :
    (standardize_concept_branch_data p).bind standardize_concept_branch_data
        = standardize_concept_branch_data p ∧
      standardize_product_branch_data (standardize_product_branch_data p)
        = standardize_product_branch_data p := by
  constructor
  · rcases h : standardize_concept_branch_data p with _ | q
    · rfl
    · simpa using standardize_concept_idem p q h
  · exact standardize_product_idem p

/-! ### Collaborator-response parsing
(`strip_markdown_code_blocks`, the regex JSON-span extraction, and a
model of `json.loads`) -/

/-- Does `pat` occur at the end of `s` (Python `str.endswith`)? -/
def lends (pat s : List Char) : Bool :=
  lstarts pat.reverse s.reverse

/-- The shortest span of `l` up to and including the last occurrence of
`t`, or `none` when `t` does not occur. -/
def upToLastIncl (l : List Char) (t : Char) : Option (List Char) :=
  match lsplitFirst l.reverse [t] with
  | some (_, revBefore) => some (t :: revBefore).reverse
  | none => none

/-- `strip_markdown_code_blocks` (source lines 1442-1462). -/
def strip_markdown_code_blocks (content : String) : String :=
  let cs := content.data
  if lstarts "```".data cs && lends "```".data cs then
    match lsplitFirst cs ['\n'] with
    | none => content
    | some (_, post) =>
        let c1 := ltrim ('\n' :: post)
        if lends "```".data c1 then ⟨ltrim (c1.take (c1.length - 3))⟩
        else ⟨c1⟩
  else if lstarts "```json".data cs || lstarts "```".data cs then
    match lsplitFirst cs ['\n'] with
    | none => content
    | some (_, post) => ⟨ltrim ('\n' :: post)⟩
  else content

/-- The first match of the regex `(\{.*\}|\[.*\])` with `re.DOTALL`
(source line 894): scanning left to right, the span from the first
opening brace/bracket that has a matching closer later in the string,
extending greedily to the last such closer. -/
def extractJsonSpan (s : String) : Option String :=
  go s.data
where
  go : List Char → Option String
    | [] => none
    | c :: rest =>
        if c = '{' then
          match upToLastIncl rest '}' with
          | some pre => some ⟨'{' :: pre⟩
          | none => go rest
        else if c = '[' then
          match upToLastIncl rest ']' with
          | some pre => some ⟨'[' :: pre⟩
          | none => go rest
        else go rest

/-- JSON whitespace. -/
def jsonWs (c : Char) : Bool :=
  c = ' ' || c = '\t' || c = '\n' || c = '\x0d'

/-- Parse the body of a JSON string literal after the opening quote;
returns the string and the rest after the closing quote. -/
def pStrBody (fuel : Nat) (s : List Char) : Option (List Char × List Char) :=
  match fuel, s with
  | 0, _ => none
  | _, [] => none
  | fuel + 1, c :: rest =>
      if c = '"' then some ([], rest)
      else if c = '\\' then
        match rest with
        | [] => none
        | e :: rest' =>
            let ec : Option Char :=
              if e = 'n' then some '\n'
              else if e = 't' then some '\t'
              else if e = 'r' then some '\x0d'
              else if e = '"' then some '"'
              else if e = '\\' then some '\\'
              else if e = '/' then some '/'
              else none
            match ec with
            | none => none
            | some d =>
                match pStrBody fuel rest' with
                | some (cs, r) => some (d :: cs, r)
                | none => none
      else
        match pStrBody fuel rest with
        | some (cs, r) => some (c :: cs, r)
        | none => none

/-- Parse a run of decimal digits. -/
def pDigits (fuel : Nat) (s : List Char) (acc : Nat) : Option (Nat × List Char) :=
  match fuel, s with
  | 0, _ => none
  | _, [] => some (acc, [])
  | fuel + 1, c :: rest =>
      if '0' ≤ c ∧ c ≤ '9' then
        match pDigits fuel rest (acc * 10 + (c.toNat - '0'.toNat)) with
        | some r => some r
        | none => none
      else some (acc, c :: rest)

mutual

/-- Parse one JSON value; number literals are modelled as integers (the
embedded collaborator responses in this development use only integers,
strings, booleans, null, arrays and objects). -/
def pVal (fuel : Nat) (s : List Char) : Option (Val × List Char) :=
  match fuel with
  | 0 => none
  | fuel + 1 =>
      match s.dropWhile jsonWs with
      | [] => none
      | c :: rest =>
          if c = '{' then
            match pMembers fuel rest true with
            | some (o, r) => some (vDict o, r)
            | none => none
          else if c = '[' then
            match pItems fuel rest true with
            | some (l, r) => some (vList l, r)
            | none => none
          else if c = '"' then
            match pStrBody (rest.length + 1) rest with
            | some (cs, r) => some (vStr ⟨cs⟩, r)
            | none => none
          else if c = 't' then
            if lstarts "rue".data rest then some (vBool true, rest.drop 3) else none
          else if c = 'f' then
            if lstarts "alse".data rest then some (vBool false, rest.drop 4) else none
          else if c = 'n' then
            if lstarts "ull".data rest then some (vNone, rest.drop 3) else none
          else if c = '-' then
            match rest with
            | d :: _ =>
                if '0' ≤ d ∧ d ≤ '9' then
                  match pDigits (rest.length + 1) rest 0 with
                  | some (n, r) => some (vInt (-(n : Int)), r)
                  | none => none
                else none
            | [] => none
          else if '0' ≤ c ∧ c ≤ '9' then
            match pDigits (s.dropWhile jsonWs).length (rest) (c.toNat - '0'.toNat) with
            | some (n, r) => some (vInt (n : Int), r)
            | none => none
          else none

/-- Parse object members after `{` (`first` marks the position before the
first member, where `}` closes an empty object). -/
def pMembers (fuel : Nat) (s : List Char) (first : Bool) : Option (Obj × List Char) :=
  match fuel with
  | 0 => none
  | fuel + 1 =>
      match s.dropWhile jsonWs with
      | [] => none
      | c :: rest =>
          if c = '}' ∧ first then some ([], rest)
          else
            match (if c = '"' then pStrBody (rest.length + 1) rest else none) with
            | none => none
            | some (k, r1) =>
                match r1.dropWhile jsonWs with
                | ':' :: r2 =>
                    match pVal fuel r2 with
                    | none => none
                    | some (v, r3) =>
                        match r3.dropWhile jsonWs with
                        | ',' :: r4 =>
                            match pMembers fuel r4 false with
                            | some (o, r5) => some ((⟨k⟩, v) :: o, r5)
                            | none => none
                        | '}' :: r4 => some ([(⟨k⟩, v)], r4)
                        | _ => none
                | _ => none

/-- Parse array items after `[`. -/
def pItems (fuel : Nat) (s : List Char) (first : Bool) : Option (List Val × List Char) :=
  match fuel with
  | 0 => none
  | fuel + 1 =>
      match s.dropWhile jsonWs with
      | [] => none
      | c :: rest =>
          if c = ']' ∧ first then some ([], rest)
          else
            match pVal fuel s with
            | none => none
            | some (v, r1) =>
                match r1.dropWhile jsonWs with
                | ',' :: r2 =>
                    match pItems fuel r2 false with
                    | some (l, r3) => some (v :: l, r3)
                    | none => none
                | ']' :: r2 => some ([v], r2)
                | _ => none

end

/-- A model of Python `json.loads`: parse one JSON value and require only
whitespace after it; `none` is `json.JSONDecodeError`. -/
def jsonLoads (s : String) : Option Val :=
  match pVal (2 * s.data.length + 4) s.data with
  | some (v, rest) => if (rest.dropWhile jsonWs).isEmpty then some v else none
  | none => none

/-! ### The parsing fallback chains of the four lifecycle operations
(claim C7).  Each definition transcribes the parsing code of one
operation, applied to the whitespace-stripped response text. -/

/-- Harvesting parse chain (`thread_exploration`, source lines 888-899):
strict parse of the whole response, then regex extraction of the first
top-level brace/bracket span, no fence stripping. -/
def parseChainExploration (r : String) : Option Val :=
  match jsonLoads r with
  | some v => some v
  | none =>
      match extractJsonSpan r with
      | some sub => jsonLoads sub
      | none => none

/-- Expansion parse chain (`expand_concept`, source lines 1333-1338):
fence stripping followed by one strict parse, no regex extraction. -/
def parseChainExpansion (r : String) : Option Val :=
  jsonLoads (strip_markdown_code_blocks r)

/-- Authoring parse chain (`process_user_idea`, source lines 1542-1546). -/
def parseChainAuthoring (r : String) : Option Val :=
  jsonLoads (strip_markdown_code_blocks r)

/-- Combination parse chain (`combine_concepts`, source lines 1941-1951). -/
def parseChainCombination (r : String) : Option Val :=
  jsonLoads (strip_markdown_code_blocks r)

/-- C7 counterexample: the four operations do not apply an identical
parsing fallback chain.  On the response `x {"a": 1}` the harvesting
chain succeeds through regex extraction while the expansion chain
(which never regex-extracts) fails to the raw-text fallback. -/
theorem C7_counterexample_chains_differ :
    parseChainExploration "x \x7b\"a\": 1\x7d" ≠ parseChainExpansion "x \x7b\"a\": 1\x7d" := by
  intro h
  have h1 : parseChainExploration "x \x7b\"a\": 1\x7d" = some (vDict [("a", vInt 1)]) := rfl
  have h2 : parseChainExpansion "x \x7b\"a\": 1\x7d" = none := rfl
  rw [h1, h2] at h
  exact Option.noConfusion h

/-- C7 (amended): expansion, authoring and combination share one parsing
fallback chain: strip fenced code-block markers, then a single strict
parse, falling back to raw text.  Harvesting uses a different chain: a
strict parse of the whole response, then regex extraction of the first
top-level brace/bracket span, with no fence stripping.  No operation
applies all four spec steps, and the two chains disagree on a response
embedding a JSON object inside prose. -/
theorem C7_parse_chains :
    (∀ r, parseChainExpansion r = parseChainAuthoring r) ∧
    (∀ r, parseChainAuthoring r = parseChainCombination r) ∧
    parseChainExploration "x \x7b\"a\": 1\x7d" = some (vDict [("a", vInt 1)]) ∧
    parseChainExpansion "x \x7b\"a\": 1\x7d" = none :=
  ⟨fun _ => rfl, fun _ => rfl, rfl, rfl⟩

/-! ### The session state
(`IdeationState`: threads, branches, mindmap, counters).
Transcript message lists are modelled by their length (`msgCount`), and
presentation-only context dicts by the data the engine reads back from
them; prompt construction and the LLM call itself are external. -/

/-- A branch record (the dicts built at source lines 1023-1036, 1372-1385,
1561-1576, 1624-1640 and 2070-2084).  Fields absent from a given creation
site are `none`. -/
structure Branch where
  id : String
  thread_id : String
  heading : Val
  content : Val
  explanation : Option Val
  productDirection : Option Val
  userProfile : Option Val
  description : Option Val
  features : Option Val
  source : Val
  parent_branch : Option String
  children : List String
  expanded : Bool
  expansion_data : Option Val
  user_created : Bool
  raw_idea : Option Val
  source_concepts : Option Val
  category : String

/-- A thread record; `branchIds` is the key set of `thread["branches"]`
(the values alias the registry records), `msgCount` the length of the
thread transcript. -/
structure Thread where
  id : String
  name : Val
  branchIds : List String
  msgCount : Nat
  combined : Bool
  source_concepts : Option Val

/-- A mindmap node (`{id, name, ..., children}`); only the identity and
child structure matter to the engine, payload fields on nodes are
display-only copies. -/
inductive MNode where
  | node (id : String) (name : Val) (children : List MNode) : MNode

def MNode.id : MNode → String
  | node i _ _ => i

def MNode.name : MNode → Val
  | node _ n _ => n

def MNode.children : MNode → List MNode
  | node _ _ cs => cs

def MNode.withChildren : MNode → List MNode → MNode
  | node i n _, cs => node i n cs

/-- All ids in a mindmap subtree, preorder. -/
def mnodeIds : MNode → List String
  | .node i _ cs => i :: mnodeIdsList cs
where
  mnodeIdsList : List MNode → List String
    | [] => []
    | n :: ns => mnodeIds n ++ mnodeIdsList ns

/-- All ids in a mindmap forest, preorder. -/
def mnodesIds (ns : List MNode) : List String := mnodeIds.mnodeIdsList ns

/-- The session state (the `IdeationState` keys the graph engine reads
and writes). -/
structure IState where
  threads : List Thread
  branches : List Branch
  mindmap : List MNode
  branch_counter : Nat
  active_thread : Option String
  active_branch : Option String
  feedback : String
  current_step : String
  awaiting_deletion_confirmation : Bool
  deletion_context : Option String
  awaiting_concept_input : Bool
  awaiting_idea_input : Bool
  switch_thread : Bool

/-- `state["branches"].get(bid)`. -/
def lookupBranch (s : IState) (bid : String) : Option Branch :=
  s.branches.find? (fun b => b.id = bid)

/-- `state["threads"].get(tid)`. -/
def lookupThread (s : IState) (tid : String) : Option Thread :=
  s.threads.find? (fun t => t.id = tid)

/-- The registry's key list. -/
def branchIds (s : IState) : List String := s.branches.map (fun b => b.id)

/-- In-place mutation of one registry record (Python mutates the dict
object under its unchanged key). -/
def updateBranch (s : IState) (bid : String) (f : Branch → Branch) : IState :=
  { s with branches := s.branches.map (fun b => if b.id = bid then f b else b) }

/-- In-place mutation of one thread record. -/
def updateThread (s : IState) (tid : String) (f : Thread → Thread) : IState :=
  { s with threads := s.threads.map (fun t => if t.id = tid then f t else t) }

/-- `del state["branches"][bid]`. -/
def eraseBranch (s : IState) (bid : String) : IState :=
  { s with branches := s.branches.filter (fun b => b.id ≠ bid) }

/-- `next((node for node in ns if node["id"] == nid), None)` followed by a
mutation of the found node: update the first node with the given id, or
do nothing. -/
def updateFirstNode (ns : List MNode) (nid : String) (f : MNode → MNode) : List MNode :=
  match ns with
  | [] => []
  | n :: rest => if n.id = nid then f n :: rest else n :: updateFirstNode rest nid f

/-- `find_branch_node_in_mindmap` (source lines 1851-1863) combined with
the caller's in-place mutation: preorder depth-first search for the first
node with the given id; apply `f` there. -/
def updateFirstInTree (n : MNode) (target : String) (f : MNode → MNode) : MNode × Bool :=
  match n with
  | .node i nm cs =>
      if i = target then (f (.node i nm cs), true)
      else
        match updateForest cs with
        | (cs', found) => (.node i nm cs', found)
where
  updateForest : List MNode → List MNode × Bool
    | [] => ([], false)
    | c :: rest =>
        match updateFirstInTree c target f with
        | (c', true) => (c' :: rest, true)
        | (_, false) =>
            match updateForest rest with
            | (rest', found) => (c :: rest', found)

/-- Python `s.startswith(pat)`. -/
def pyStarts (s pat : String) : Bool := lstarts pat.data s.data

/-- The branch id allocated for counter value `n`: `f"b{n}"`. -/
def mkBranchId (n : Nat) : String := "b" ++ natStr n

/-- The combined-thread id for counter value `n`: `f"thread_combined_{n}"`. -/
def mkCombinedId (n : Nat) : String := "thread_combined_" ++ natStr n

/-! ### Deletion (`delete_branch`, `remove_branch_from_mindmap`,
`count_branch_children`, `process_delete_request`,
`process_deletion_confirmation`) -/

/-- `count_branch_children` (source lines 1734-1746), fuelled: the Python
recursion terminates on the acyclic states the session produces. -/
def count_branch_children (fuel : Nat) (s : IState) (bid : String) : Nat :=
  match fuel with
  | 0 => 0
  | fuel + 1 =>
      match lookupBranch s bid with
      | none => 0
      | some br =>
          br.children.foldl (fun acc c => acc + count_branch_children fuel s c) br.children.length

/-- `remove_branch_from_mindmap` (source lines 1826-1849): locate the
thread node; within it filter the branch's node out of its parent node's
children (or out of the thread node's children for a top-level branch). -/
def remove_branch_from_mindmap (s : IState) (branch_id : String) : IState :=
  match lookupBranch s branch_id with
  | none => s
  | some br =>
      { s with mindmap := updateFirstNode s.mindmap br.thread_id (fun tn =>
          match br.parent_branch with
          | some pid =>
              (updateFirstInTree tn pid (fun pn =>
                pn.withChildren (pn.children.filter (fun c => c.id ≠ branch_id)))).1
          | none => tn.withChildren (tn.children.filter (fun c => c.id ≠ branch_id))) }

/-- Detaching a deleted branch from its parent's `children` list (source
lines 1803-1807). -/
def deleteDetachParent (s : IState) (br : Branch) (branch_id : String) : IState :=
  match br.parent_branch with
  | some pid =>
      match lookupBranch s pid with
      | some _ =>
          updateBranch s pid (fun pb =>
            { pb with children := pb.children.erase branch_id })
      | none => s
  | none => s

/-- Detaching a deleted branch from its owning thread's branch map
(source lines 1809-1813). -/
def deleteDetachThread (s : IState) (br : Branch) (branch_id : String) : IState :=
  match lookupThread s br.thread_id with
  | some _ =>
      updateThread s br.thread_id (fun t =>
        { t with branchIds := t.branchIds.filter (fun x => x ≠ branch_id) })
  | none => s

/-- Clearing a dangling `active_branch` (source lines 1822-1824). -/
def deleteClearActive (s : IState) (branch_id : String) : IState :=
  if s.active_branch = some branch_id then { s with active_branch := none } else s

/-- `delete_branch` (source lines 1787-1824), fuelled: recursively delete
all children first, then detach from the parent's `children` list, the
owning thread's branch map and the mindmap, remove the record, and clear
a matching `active_branch`. -/
def delete_branch (fuel : Nat) (s : IState) (branch_id : String) : IState :=
  match fuel with
  | 0 => s
  | fuel + 1 =>
      match lookupBranch s branch_id with
      | none => s
      | some br =>
          deleteClearActive
            (eraseBranch
              (remove_branch_from_mindmap
                (deleteDetachThread
                  (deleteDetachParent
                    (br.children.foldl (fun st c => delete_branch fuel st c) s)
                    br branch_id)
                  br branch_id)
                branch_id)
              branch_id)
            branch_id

/-- `process_delete_request` (source lines 1686-1732); the input is the
branch id named by the `delete b<n>` command. -/
def process_delete_request (s : IState) (bid : String) : IState :=
  match lookupBranch s bid with
  | none => { s with feedback := "Branch " ++ bid ++ " does not exist." }
  | some _ =>
      { s with awaiting_deletion_confirmation := true,
               deletion_context := some bid,
               current_step := "await_deletion_confirmation" }

/-- The replies `process_deletion_confirmation` accepts (source line 1760). -/
def affirmativeReplies : List String := ["yes", "y", "confirm", "delete"]

/-- `process_deletion_confirmation` (source lines 1748-1785). -/
def process_deletion_confirmation (s : IState) (confirmation : String) : IState :=
  if ¬ s.awaiting_deletion_confirmation then
    { s with feedback := "No deletion in progress." }
  else
    let s := { s with awaiting_deletion_confirmation := false }
    let conf := pyStrip (pyLower confirmation)
    let s :=
      if affirmativeReplies.contains conf then
        match s.deletion_context with
        | some bid =>
            let s := delete_branch s.branches.length s bid
            { s with feedback :=
                "Successfully deleted branch " ++ bid ++ " and all its sub-branches." }
        | none => s
      else
        { s with feedback := "Branch deletion cancelled." }
    { s with deletion_context := none, current_step := "present_exploration_options" }

/-! ### Harvesting (`thread_exploration` → `create_branches_from_exploration`) -/

/-- Python iteration over an arbitrary value (`for x in v`): lists yield
elements, strings characters, dicts keys; other values raise `TypeError`. -/
def asIterList : Val → Option (List Val)
  | vList l => some l
  | vStr s => some (s.data.map (fun c => vStr ⟨[c]⟩))
  | vDict d => some (d.map (fun p => vStr p.1))
  | _ => none

/-- Index-carrying `mapM` over `Option` (`for idx, item in enumerate(..)`
with a fallible body). -/
def mapIdxOpt (f : Nat → α → Option β) : Nat → List α → Option (List β)
  | _, [] => some []
  | i, x :: xs =>
      match f i x with
      | none => none
      | some y =>
          match mapIdxOpt f (i + 1) xs with
          | none => none
          | some ys => some (y :: ys)

/-- One raw item of a concept section (source lines 941-947 etc.): the
dict literal raises `KeyError`/`TypeError` when the item is not a dict
with the three keys. -/
def explItemConcept (src : String) (idx : Nat) (item : Val) : Option Obj :=
  match item with
  | vDict d =>
      match objGet d "heading", objGet d "explanation", objGet d "productDirection" with
      | some h, some e, some p =>
          some [("heading", h), ("explanation", e), ("productDirection", p),
                ("source", vStr src), ("source_idx", vInt idx)]
      | _, _, _ => none
  | _ => none

/-- One raw item of the imaginary-feedback list (source lines 998-1005):
all fields default via `.get`. -/
def explItemFeedback (idx : Nat) (item : Val) : Option Obj :=
  match item with
  | vDict d =>
      some [("heading", objGetD d "heading" (vStr ("User " ++ natStr (idx + 1)))),
            ("explanation", objGetD d "explanation" (vStr "")),
            ("productDirection", objGetD d "productDirection" (vStr "")),
            ("userProfile", objGetD d "userProfile" (vStr "")),
            ("source", vStr "imaginaryFeedback"), ("source_idx", vInt idx)]
  | _ => none

/-- Extraction of one named section (`if key in json_data: for idx, item
in enumerate(json_data[key]): ...`, source lines 939-947 and parallels). -/
def sectionConcepts (jd : Val) (key : String) : Option (List Obj) :=
  match pyInVal key jd with
  | none => none
  | some false => some []
  | some true =>
      match jd with
      | vDict d =>
          match objGet d key with
          | none => none
          | some v =>
              match asIterList v with
              | none => none
              | some items => mapIdxOpt (explItemConcept key) 0 items
      | _ => none

/-- The raw items harvested for a thread, in the thread's fixed section
order (source lines 934-1005); `none` models a raised exception. -/
def explorationItems (thread_id : String) (jd : Val) : Option (List Obj) :=
  if thread_id = "thread_1" then
    match sectionConcepts jd "emotionalSeeds" with
    | none => none
    | some a =>
        match sectionConcepts jd "habitHeuristicAlignment" with
        | none => none
        | some b =>
            match sectionConcepts jd "delightfulSubversion" with
            | none => none
            | some c => some (a ++ b ++ c)
  else if thread_id = "thread_2" then
    match sectionConcepts jd "attributeBasedBridging" with
    | none => none
    | some a =>
        match sectionConcepts jd "broaderDomains" with
        | none => none
        | some b => some (a ++ b)
  else if thread_id = "thread_3" then
    match jd with
    | vList items => mapIdxOpt explItemFeedback 0 items
    | _ => some []
  else some []

/-- The display content rebuilt for a harvested branch (source lines
1016-1020; note the lower-case "direction" here). -/
def harvestContent (thread_id : String) (std : Obj) : String :=
  let content := pyStr (objGetD std "explanation" vNone)
  let content :=
    if pyTruthy (objGetD std "productDirection" vNone) then
      content ++ " Product direction: " ++ pyStr (objGetD std "productDirection" vNone)
    else content
  if thread_id = "thread_3" ∧ pyTruthy (objGetD std "userProfile" vNone) then
    "User: " ++ pyStr (objGetD std "userProfile" vNone) ++ "\nFeedback: " ++ content
  else content

/-- The creation loop of `create_branches_from_exploration` (source lines
1008-1062): allocate the id, standardize, insert into the registry, the
thread's branch map and the mindmap.  The Bool is false when an iteration
raised (the counter increment already applied, per source order). -/
def createBranchLoop (thread_id : String) : IState → List Obj → IState × Bool
  | s, [] => (s, true)
  | s, item :: rest =>
      let bid := mkBranchId (s.branch_counter + 1)
      let s := { s with branch_counter := s.branch_counter + 1 }
      match standardize_concept_branch_data item with
      | none => (s, false)
      | some std =>
          let heading := objGetD std "heading" vNone
          let content := harvestContent thread_id std
          let newBranch : Branch :=
            { id := bid, thread_id := thread_id, heading := heading,
              content := vStr content,
              explanation := objGet std "explanation",
              productDirection := objGet std "productDirection",
              userProfile := if thread_id = "thread_3" then objGet std "userProfile" else none,
              description := none, features := none,
              source := objGetD std "source" (vStr ""),
              parent_branch := none, children := [], expanded := false,
              expansion_data := none, user_created := false, raw_idea := none,
              source_concepts := none, category := "concept" }
          let s := { s with branches := s.branches ++ [newBranch] }
          let s := updateThread s thread_id (fun t =>
            { t with branchIds := t.branchIds ++ [bid] })
          let s := { s with mindmap := updateFirstNode s.mindmap thread_id (fun tn =>
            tn.withChildren (tn.children ++ [MNode.node bid heading []])) }
          createBranchLoop thread_id s rest

/-- `thread_exploration` (source lines 840-926) after the LLM call: store
the response on the thread transcript, run the parse chain, and harvest
branches; parse or extraction failures degrade to a feedback note. -/
def thread_exploration (s : IState) (response : String) : IState :=
  match s.active_thread with
  | none => { s with feedback := "No active thread selected." }
  | some tid =>
      match lookupThread s tid with
      | none => s
      | some t =>
          if tid ≠ "thread_1" ∧ tid ≠ "thread_2" ∧ tid ≠ "thread_3" then
            { s with feedback := "Unknown thread type: " ++ pyStr t.name }
          else
            let rc := pyStrip response
            let s := updateThread s tid (fun t => { t with msgCount := t.msgCount + 1 })
            let degraded := { s with feedback :=
              "Explored the " ++ pyStr t.name ++ " approach, but couldn't extract structured data." }
            match parseChainExploration rc with
            | none => degraded
            | some jd =>
                match explorationItems tid jd with
                | none => degraded
                | some items =>
                    match createBranchLoop tid s items with
                    | (s', true) =>
                        { s' with feedback := "Successfully explored the " ++ pyStr t.name ++
                            " approach and captured structured data." }
                    | (s', false) =>
                        { s' with feedback := "Explored the " ++ pyStr t.name ++
                            " approach, but couldn't extract structured data." }

/-! ### Expansion (`expand_concept`) and authoring (`process_user_idea`) -/

/-- The display content rebuilt for an expansion or authored branch
(source lines 1367-1369 and 1556-1558; capital "Direction" here). -/
def subBranchContent (std : Obj) : String :=
  let content := pyStr (objGetD std "explanation" vNone)
  if pyTruthy (objGetD std "productDirection" vNone) then
    content ++ " Product Direction: " ++ pyStr (objGetD std "productDirection" vNone)
  else content

/-- Insert a freshly created child branch: registry append, parent
`children` append, and the mindmap insertion that searches for the parent
node only among the thread node's direct children (source lines
1387-1407 and 1578-1599). -/
def insertChildBranch (s : IState) (parent_id : String) (sub : Branch) : IState :=
  let s := { s with branches := s.branches ++ [sub] }
  let s := updateBranch s parent_id (fun pb =>
    { pb with children := pb.children ++ [sub.id] })
  { s with mindmap := updateFirstNode s.mindmap sub.thread_id (fun tn =>
      tn.withChildren (updateFirstNode tn.children parent_id (fun bn =>
        bn.withChildren (bn.children ++ [MNode.node sub.id sub.heading []])))) }

/-- `standardize_concept_branch_data` applied to an arbitrary parsed
value: a non-dict raises (`AttributeError` on `.get`). -/
def stdOfConcept (concept : Val) : Option Obj :=
  match concept with
  | vDict d => standardize_concept_branch_data d
  | _ => none

/-- The creation loop of `expand_concept` (source lines 1358-1407); the
Bool is false when an iteration raised (standardization precedes the
counter increment at this site, per source order). -/
def expandLoop (thread_id parent_id : String) : IState → List Val → IState × Bool
  | s, [] => (s, true)
  | s, concept :: rest =>
      match stdOfConcept concept with
      | none => (s, false)
      | some std =>
          let bid := mkBranchId (s.branch_counter + 1)
          let s := { s with branch_counter := s.branch_counter + 1 }
          let heading := objGetD std "heading" vNone
          let sub : Branch :=
            { id := bid, thread_id := thread_id, heading := heading,
              content := vStr (subBranchContent std),
              explanation := objGet std "explanation",
              productDirection := objGet std "productDirection",
              userProfile := none, description := none, features := none,
              source := vStr "concept_expansion",
              parent_branch := some parent_id, children := [], expanded := false,
              expansion_data := none, user_created := false, raw_idea := none,
              source_concepts := none, category := "concept" }
          expandLoop thread_id parent_id (insertChildBranch s parent_id sub) rest

/-- The degraded tail of `expand_concept` (source lines 1415-1430): set
`expanded`, store the raw (fence-stripped) text, report a non-fatal
degraded result. -/
def expandDegraded (s : IState) (branch_id : String) (heading : Val) (rc : String) : IState :=
  let s := updateBranch s branch_id (fun b =>
    { b with expanded := true,
             expansion_data := some (vDict [("raw_response", vStr rc)]) })
  let msg := "Expanded concept '" ++ pyStr heading ++ "', but couldn't extract structured data."
  { s with feedback := msg,
           current_step := "present_exploration_options",
           awaiting_concept_input := false }

/-- `expand_concept` (source lines 1312-1440) after the LLM call; the
branch id comes from `concept_expansion_context` (set while selecting the
branch, which also guarantees the branch exists). -/
def expand_concept (s : IState) (branch_id : String) (response : String) : IState :=
  match lookupBranch s branch_id with
  | none => s
  | some br =>
      let rc := strip_markdown_code_blocks (pyStrip response)
      match jsonLoads rc with
      | none => expandDegraded s branch_id br.heading rc
      | some jd =>
          let pair : Val × Val :=
            match jd with
            | vList l => (vList l, vDict [("expandedConcepts", vList l)])
            | vDict d => (objGetD d "expandedConcepts" (vList []), vDict d)
            | other => (vList [], other)
          let s := updateBranch s branch_id (fun b =>
            { b with expanded := true, expansion_data := some pair.2 })
          match asIterList pair.1 with
          | none => expandDegraded s branch_id br.heading rc
          | some concepts =>
              match expandLoop br.thread_id branch_id s concepts with
              | (s', true) =>
                  let msg := "Successfully expanded concept '" ++ pyStr br.heading ++
                    "' and created " ++ natStr concepts.length ++ " sub-branches."
                  { s' with feedback := msg,
                            current_step := "present_exploration_options",
                            awaiting_concept_input := false }
              | (s', false) => expandDegraded s' branch_id br.heading rc

/-- `process_user_idea` (source lines 1517-1684) after the LLM call: the
structuring response is parsed (strip fences, one strict parse,
standardize); on any failure a minimal fallback concept is built from the
raw idea text.  Exactly one child branch is created either way.  The
parent branch id comes from `idea_input_context`, which guarantees it
exists in the session flow. -/
def process_user_idea (s : IState) (branch_id : String) (user_idea : String)
    (response : String) : IState :=
  match lookupBranch s branch_id with
  | none => s
  | some parent =>
      let rc := strip_markdown_code_blocks (pyStrip response)
      let stdOpt : Option Obj :=
        match jsonLoads rc with
        | some (vDict d) => standardize_concept_branch_data d
        | _ => none
      let bid := mkBranchId (s.branch_counter + 1)
      let s := { s with branch_counter := s.branch_counter + 1 }
      match stdOpt with
      | some std =>
          let heading := objGetD std "heading" vNone
          let sub : Branch :=
            { id := bid, thread_id := parent.thread_id, heading := heading,
              content := vStr (subBranchContent std),
              explanation := objGet std "explanation",
              productDirection := objGet std "productDirection",
              userProfile := none, description := none, features := none,
              source := vStr "user_input",
              parent_branch := some branch_id, children := [], expanded := false,
              expansion_data := none, user_created := true,
              raw_idea := some (vStr user_idea),
              source_concepts := none, category := "concept" }
          let s := insertChildBranch s branch_id sub
          { s with feedback := "Successfully added your idea as branch " ++ bid ++ ".",
                   awaiting_idea_input := false,
                   current_step := "present_exploration_options" }
      | none =>
          let sub : Branch :=
            { id := bid, thread_id := parent.thread_id, heading := vStr "User Idea",
              content := vStr user_idea,
              explanation := some (vStr user_idea),
              productDirection := some (vStr ""),
              userProfile := none, description := none, features := none,
              source := vStr "user_input",
              parent_branch := some branch_id, children := [], expanded := false,
              expansion_data := none, user_created := true,
              raw_idea := some (vStr user_idea),
              source_concepts := none, category := "concept" }
          let s := insertChildBranch s branch_id sub
          let msg := "Added your idea as branch " ++ bid ++
            ", but couldn't structure it in the standard format."
          { s with feedback := msg,
                   awaiting_idea_input := false,
                   current_step := "present_exploration_options" }

/-- `process_add_idea_request` (source lines 1483-1514); the input is the
branch id named by the `add idea b<n>` command. -/
def process_add_idea_request (s : IState) (bid : String) : IState :=
  match lookupBranch s bid with
  | none => { s with feedback := "Branch " ++ bid ++ " does not exist." }
  | some _ =>
      { s with awaiting_idea_input := true, current_step := "await_idea_input" }

/-! ### Combination (`process_combine_request`, `combine_concepts`,
`create_individual_combined_threads`) -/

/-- `re.sub(r'<[^>]*>', '', s)` (source line 2060), fuelled on the input
length. -/
def stripTagsL (fuel : Nat) (s : List Char) : List Char :=
  match fuel, s with
  | 0, s => s
  | _, [] => []
  | fuel + 1, c :: rest =>
      if c = '<' then
        match lsplitFirst rest ['>'] with
        | some (_, post) => stripTagsL fuel post
        | none => c :: stripTagsL fuel rest
      else c :: stripTagsL fuel rest

/-- `re.sub(r'<[^>]*>', '', s)` on strings. -/
def stripTags (s : String) : String := ⟨stripTagsL s.data.length s.data⟩

/-- The features block appended to a combined branch's display content
(source lines 2063-2065 and 2090-2092). -/
def featuresText (features : List Val) : String :=
  if features.isEmpty then ""
  else "\n\nFeatures:\n" ++ String.intercalate "\n" (features.map (fun f => "- " ++ pyStr f))

/-- The bare-string coercion at the head of each combination iteration
(source lines 2019-2026). -/
def coerceCombined (idx : Nat) (concept0 : Val) : Val :=
  match concept0 with
  | vStr str =>
      vDict [("heading", vStr ("Combined Concept " ++ natStr (idx + 1))),
             ("description", vStr str),
             ("features", vList [vStr "No specific features provided"]),
             ("category", vStr "product")]
  | other => other

/-- One iteration of `create_individual_combined_threads` (source lines
2017-2131): coerce a bare string, standardize as a product, allocate the
branch and thread ids, and build the branch, thread and mindmap records.
A `none` id models an exception raised inside the iteration (re-raised
and turned into the caller's fallback path); mutations already applied
(the counter bump) persist, as in Python. -/
def combinedIteration (s : IState) (idx : Nat) (concept0 : Val)
    (source_branch_ids : List String) : IState × Option String :=
  match coerceCombined idx concept0 with
  | vDict d =>
      let std := standardize_product_branch_data d
      let bid := mkBranchId (s.branch_counter + 1)
      let s := { s with branch_counter := s.branch_counter + 1 }
      let tid := mkCombinedId s.branch_counter
      let source_concepts : Val :=
        if objContains std "sourceConcepts" then (objGet std "sourceConcepts").getD vNone
        else vList (source_branch_ids.map vStr)
      -- the source-name display loop iterates source_concepts and uses each
      -- element as a dict key; a non-iterable value or an unhashable element
      -- raises (source lines 2045-2050)
      match asIterList source_concepts with
      | none => (s, none)
      | some scl =>
          if scl.any (fun sc => match sc with | vList _ => true | vDict _ => true | _ => false) then
            (s, none)
          else
            let heading := objGetD std "heading" (vStr ("Combined Concept " ++ natStr (idx + 1)))
            match objGetD std "description" (vStr "") with
            | vStr dstr =>
                let dstr := stripTags dstr
                let features : List Val :=
                  match objGet std "features" with
                  | some (vList l) => l
                  | _ => []
                let content := dstr ++ featuresText features
                let newBranch : Branch :=
                  { id := bid, thread_id := tid, heading := heading,
                    content := vStr content,
                    explanation := none, productDirection := none, userProfile := none,
                    description := some (vStr dstr),
                    features := some (vList features),
                    source := vStr "concept_combination",
                    parent_branch := none, children := [], expanded := false,
                    expansion_data := none, user_created := false, raw_idea := none,
                    source_concepts := some source_concepts, category := "product" }
                let newThread : Thread :=
                  { id := tid, name := heading, branchIds := [bid], msgCount := 3,
                    combined := true, source_concepts := some source_concepts }
                let s := { s with branches := s.branches ++ [newBranch],
                                  threads := s.threads ++ [newThread],
                                  mindmap := s.mindmap ++
                                    [MNode.node tid heading [MNode.node bid heading []]] }
                (s, some tid)
            | _ => (s, none)
  | _ => (s, none)

/-- `create_individual_combined_threads` (source lines 2009-2133): one
thread and branch per combined concept.  On a raised iteration the
partial mutations stay and the exception propagates (`none` flag). -/
def create_individual_combined_threads (s : IState) (json_data : List Val)
    (source_branch_ids : List String) : IState × Option (List String) :=
  go s 0 json_data
where
  go (s : IState) (idx : Nat) : List Val → IState × Option (List String)
    | [] => (s, some [])
    | concept :: rest =>
        match combinedIteration s idx concept source_branch_ids with
        | (s', none) => (s', none)
        | (s', some tid) =>
            match go s' (idx + 1) rest with
            | (s'', some tids) => (s'', some (tid :: tids))
            | (s'', none) => (s'', none)

/-- The fallback product record built on a combination parse failure
(source lines 1983-1988). -/
def combineFallbackConcept (branch_ids : List String) : Val :=
  vDict [("heading", vStr "Combined Product Idea"),
         ("description", vStr "This combines elements from the selected concepts."),
         ("features", vList [vStr "Generated product idea based on combined concepts"]),
         ("sourceConcepts", vList (branch_ids.map vStr))]

/-- The parse-failure tail of `combine_concepts` (source lines 1978-1997):
a single fallback product branch/thread pair is still created, and the
first created thread becomes active. -/
def combineFallback (s : IState) (branch_ids : List String) : IState :=
  match create_individual_combined_threads s [combineFallbackConcept branch_ids] branch_ids with
  | (s', some tids) =>
      let s' :=
        match tids with
        | t :: _ => { s' with active_thread := some t, active_branch := none }
        | [] => s'
      { s' with feedback := "Created a combined concept with the generated content." }
  | (s', none) => { s' with feedback := "Error during concept combination." }

/-- The coercion of the parsed combination payload to a concept list
(source lines 1952-1976): a list is kept, a dict is wrapped, anything
else becomes a single synthetic concept. -/
def combineList (jd : Val) : List Val :=
  match jd with
  | vList l => l
  | vDict d => [vDict d]
  | other =>
      [vDict [("heading", vStr "Combined Concept"),
              ("explanation", vStr (pyStr other)),
              ("featureLists", vList [])]]

/-- The success tail of `combine_concepts` (source lines 1978-2007) once
the payload has been coerced to a concept list. -/
def combineWithList (s : IState) (jl : List Val) (branch_ids : List String) : IState :=
  match create_individual_combined_threads s jl branch_ids with
  | (s', some tids) =>
      let msg := "Successfully combined concepts and created " ++ natStr jl.length ++
        " new product idea(s), each with its own thread."
      let s' := { s' with feedback := msg }
      match tids with
      | t :: _ => { s' with active_thread := some t, active_branch := none }
      | [] => s'
  | (s', none) => combineFallback s' branch_ids

/-- `combine_concepts` (source lines 1900-2007) after the LLM call.  The
ids in `combination_context` exist (validated by the caller). -/
def combine_concepts (s : IState) (branch_ids : List String) (response : String) : IState :=
  let rc := strip_markdown_code_blocks (pyStrip response)
  match jsonLoads rc with
  | none => combineFallback s branch_ids
  | some jd => combineWithList s (combineList jd) branch_ids

/-- `process_combine_request` (source lines 1865-1898); the input is the
list of branch ids named by the `combine b<i> b<j> ...` command (an empty
list corresponds to a command the id regex does not match). -/
def process_combine_request (s : IState) (ids : List String) (response : String) : IState :=
  if ids.isEmpty then
    let msg := "Invalid format. Please use 'combine' followed by branch IDs (e.g., combine b1 b2 b3)."
    { s with feedback := msg }
  else if ids.length < 2 then
    { s with feedback := "Please select at least 2 branches to combine." }
  else
    let invalid := ids.filter (fun bid => (lookupBranch s bid).isNone)
    if ¬ invalid.isEmpty then
      { s with feedback := "Branch(es) " ++ String.intercalate ", " invalid ++ " do not exist." }
    else
      combine_concepts s ids response

/-! ### Thread choice, branch selection, session end -/

/-- `process_thread_choice_multi` (source lines 697-838) with the command
already resolved to a thread id (index and name matching are display
conveniences over the same id space); an unresolvable choice is the
`none` input. -/
def process_thread_choice (s : IState) (choice : Option String) : IState :=
  let s := { s with switch_thread := false }
  match choice with
  | none => { s with feedback := "Invalid choice. Please select a valid option.",
                     switch_thread := true }
  | some tid =>
      match lookupThread s tid with
      | none => { s with feedback := "Invalid choice. Please select a valid option.",
                         switch_thread := true }
      | some t =>
          let isResel := s.active_thread = some tid ∧ t.msgCount > 1
          let s :=
            if isResel ∧ ¬ pyStarts tid "thread_combined_" then
              -- regenerate-on-reselect: wipe the thread's branches
              let s := { s with branches := s.branches.filter (fun b => b.thread_id ≠ tid) }
              let s := updateThread s tid (fun t => { t with branchIds := [] })
              let s := { s with mindmap := updateFirstNode s.mindmap tid (fun tn =>
                tn.withChildren []) }
              updateThread s tid (fun t => { t with msgCount := t.msgCount + 1 })
            else s
          let s := { s with active_thread := some tid, active_branch := none }
          let s :=
            if ¬ pyStarts tid "thread_combined_" ∧
                ((lookupThread s tid).map Thread.msgCount).getD 0 ≤ 1 then
              updateThread s tid (fun t => { t with msgCount := t.msgCount + 1 })
            else s
          if pyStarts tid "thread_combined_" then
            { s with current_step := "present_exploration_options" }
          else
            { s with current_step := "thread_exploration" }

/-- `process_branch_selection` (source lines 1218-1283); the input is the
branch id of the `b<n>` command. -/
def process_branch_selection (s : IState) (bid : String) : IState :=
  match lookupBranch s bid with
  | none => { s with feedback := "Branch " ++ bid ++ " does not exist." }
  | some br =>
      let s := { s with active_branch := some bid, active_thread := some br.thread_id }
      if br.expanded ∧ (br.expansion_data.map pyTruthy).getD false then
        { s with current_step := "branch_expansion_options" }
      else
        { s with awaiting_concept_input := true, current_step := "await_concept_input" }

/-- `end_session` (source lines 2371-2377). -/
def end_session (s : IState) : IState :=
  { s with current_step := "session_ended", feedback := "Ideation session ended." }

/-! ### The public operation surface -/

/-- One public operation of the session, with the external collaborator
response (where one is consumed) as part of the input. -/
inductive Op where
  | threadChoice (choice : Option String)
  | explore (response : String)
  | branchSelect (bid : String)
  | expand (bid : String) (response : String)
  | addIdeaRequest (bid : String)
  | authorIdea (bid : String) (idea response : String)
  | deleteRequest (bid : String)
  | deleteConfirm (reply : String)
  | combineRequest (ids : List String) (response : String)
  | sessionEnd

/-- The dispatcher: route one operation to its handler. -/
def step (s : IState) : Op → IState
  | .threadChoice c => process_thread_choice s c
  | .explore r => thread_exploration s r
  | .branchSelect bid => process_branch_selection s bid
  | .expand bid r => expand_concept s bid r
  | .addIdeaRequest bid => process_add_idea_request s bid
  | .authorIdea bid idea r => process_user_idea s bid idea r
  | .deleteRequest bid => process_delete_request s bid
  | .deleteConfirm reply => process_deletion_confirmation s reply
  | .combineRequest ids r => process_combine_request s ids r
  | .sessionEnd => end_session s

/-- Run a command sequence. -/
def run (s : IState) : List Op → IState
  | [] => s
  | op :: ops => run (step s op) ops

/-- The three fixed exploration lenses (source lines 599-603). -/
def fixedLenses : List (String × String) :=
  [("thread_1", "Emotional Root Causes"),
   ("thread_2", "Unconventional Associations"),
   ("thread_3", "Imaginary Customers' Feedback")]

/-- The state right after `present_exploration_options` first builds the
three fixed threads and the mindmap skeleton (source lines 584-642). -/
def initState : IState :=
  { threads := fixedLenses.map (fun p =>
      { id := p.1, name := vStr p.2, branchIds := [], msgCount := 1,
        combined := false, source_concepts := none }),
    branches := [],
    mindmap := fixedLenses.map (fun p => MNode.node p.1 (vStr p.2) []),
    branch_counter := 0,
    active_thread := none, active_branch := none,
    feedback := "", current_step := "await_thread_choice",
    awaiting_deletion_confirmation := false, deletion_context := none,
    awaiting_concept_input := false, awaiting_idea_input := false,
    switch_thread := false }

/-! ### Frame lemmas for deletion -/

/-- The state components `delete_branch` never touches. -/
def deleteMeta (s : IState) :
    Nat × Bool × Option String × Option String × String × String × Bool × Bool × Bool :=
  (s.branch_counter, s.awaiting_deletion_confirmation, s.deletion_context,
   s.active_thread, s.feedback, s.current_step, s.awaiting_concept_input,
   s.awaiting_idea_input, s.switch_thread)

theorem deleteMeta_detachParent (s : IState) (br : Branch) (bid : String) :
    deleteMeta (deleteDetachParent s br bid) = deleteMeta s := by
  unfold deleteDetachParent
  split <;> first | rfl | (split <;> rfl)

theorem deleteMeta_detachThread (s : IState) (br : Branch) (bid : String) :
    deleteMeta (deleteDetachThread s br bid) = deleteMeta s := by
  unfold deleteDetachThread
  split <;> rfl

theorem deleteMeta_removeMindmap (s : IState) (bid : String) :
    deleteMeta (remove_branch_from_mindmap s bid) = deleteMeta s := by
  unfold remove_branch_from_mindmap
  split <;> rfl

theorem deleteMeta_erase (s : IState) (bid : String) :
    deleteMeta (eraseBranch s bid) = deleteMeta s := rfl

theorem deleteMeta_clearActive (s : IState) (bid : String) :
    deleteMeta (deleteClearActive s bid) = deleteMeta s := by
  unfold deleteClearActive
  split <;> rfl

theorem delete_branch_meta : ∀ (fuel : Nat) (s : IState) (bid : String),
    deleteMeta (delete_branch fuel s bid) = deleteMeta s := by
  intro fuel
  induction fuel with
  | zero => intro s bid; rfl
  | succ fuel ih =>
      intro s bid
      unfold delete_branch
      split
      · rfl
      · rename_i br hbr
        rw [deleteMeta_clearActive, deleteMeta_erase, deleteMeta_removeMindmap,
          deleteMeta_detachThread, deleteMeta_detachParent]
        have hfold : ∀ (cs : List String) (st : IState),
            deleteMeta (cs.foldl (fun st c => delete_branch fuel st c) st) = deleteMeta st := by
          intro cs
          induction cs with
          | nil => intro st; rfl
          | cons c cs ihc =>
              intro st
              rw [List.foldl_cons, ihc, ih]
        rw [hfold]

theorem delete_branch_counter (fuel : Nat) (s : IState) (bid : String) :
    (delete_branch fuel s bid).branch_counter = s.branch_counter :=
  congrArg (fun t => t.1) (delete_branch_meta fuel s bid)

theorem delete_branch_awaiting (fuel : Nat) (s : IState) (bid : String) :
    (delete_branch fuel s bid).awaiting_deletion_confirmation
      = s.awaiting_deletion_confirmation :=
  congrArg (fun t => t.2.1) (delete_branch_meta fuel s bid)

theorem delete_branch_active_thread (fuel : Nat) (s : IState) (bid : String) :
    (delete_branch fuel s bid).active_thread = s.active_thread :=
  congrArg (fun t => t.2.2.2.1) (delete_branch_meta fuel s bid)

/-! ### Claim C10: the deletion-confirmation step -/

theorem lookupBranch_erase_self (s : IState) (bid : String) :
    lookupBranch (eraseBranch s bid) bid = none := by
  unfold lookupBranch eraseBranch
  rw [List.find?_eq_none]
  intro b hb
  simp only [List.mem_filter] at hb
  simpa using hb.2

theorem lookupBranch_clearActive (s : IState) (bid x : String) :
    lookupBranch (deleteClearActive s bid) x = lookupBranch s x := by
  unfold deleteClearActive
  split <;> rfl

theorem delete_branch_removes (fuel : Nat) (s : IState) (bid : String)
    (h : lookupBranch s bid = none ∨ 1 ≤ fuel) :
    lookupBranch (delete_branch fuel s bid) bid = none := by
  cases fuel with
  | zero =>
      rcases h with h | h
      · simpa [delete_branch] using h
      · omega
  | succ fuel =>
      unfold delete_branch
      split
      · assumption
      · rw [lookupBranch_clearActive]
        apply lookupBranch_erase_self

/-- C10: the pending deletion is performed iff the reply, lowercased and
stripped, is exactly one of yes/y/confirm/delete; any other reply cancels
with the registry, threads and mindmap unchanged; the pending-deletion
context is cleared either way. -/
theorem C10_deletion_confirmation (s : IState) (reply bid : String)
    (hAwait : s.awaiting_deletion_confirmation = true)
    (hCtx : s.deletion_context = some bid) :
    ((process_deletion_confirmation s reply).awaiting_deletion_confirmation = false ∧
     (process_deletion_confirmation s reply).deletion_context = none ∧
     (process_deletion_confirmation s reply).current_step = "present_exploration_options") ∧
    (pyStrip (pyLower reply) ∈ affirmativeReplies →
       lookupBranch (process_deletion_confirmation s reply) bid = none) ∧
    (pyStrip (pyLower reply) ∉ affirmativeReplies →
       (process_deletion_confirmation s reply).branches = s.branches ∧
       (process_deletion_confirmation s reply).threads = s.threads ∧
       (process_deletion_confirmation s reply).mindmap = s.mindmap ∧
       (process_deletion_confirmation s reply).branch_counter = s.branch_counter ∧
       (process_deletion_confirmation s reply).feedback = "Branch deletion cancelled.") := by
  by_cases haff : pyStrip (pyLower reply) ∈ affirmativeReplies
  · have hs' : process_deletion_confirmation s reply =
        (let s1 := { s with awaiting_deletion_confirmation := false }
         let s2 := delete_branch s1.branches.length s1 bid
         let msg := "Successfully deleted branch " ++ bid ++ " and all its sub-branches."
         { s2 with feedback := msg,
                   deletion_context := none,
                   current_step := "present_exploration_options" }) := by
      unfold process_deletion_confirmation
      rw [hAwait, hCtx]
      simp [haff]
    rw [hs']
    refine ⟨⟨?_, rfl, rfl⟩, fun _ => ?_, fun hx => absurd haff hx⟩
    · show (delete_branch _ _ bid).awaiting_deletion_confirmation = false
      rw [delete_branch_awaiting]
    · show lookupBranch (delete_branch _ _ bid) bid = none
      apply delete_branch_removes
      rcases hl : lookupBranch { s with awaiting_deletion_confirmation := false } bid
        with _ | br
      · exact Or.inl rfl
      · right
        show 1 ≤ s.branches.length
        rcases hb : s.branches with _ | ⟨b, bs⟩
        · exfalso
          have hl' : lookupBranch s bid = some br := hl
          rw [show lookupBranch s bid = s.branches.find? (fun b => b.id = bid) from rfl,
            hb] at hl'
          simp [List.find?] at hl'
        · simp
  · have hs' : process_deletion_confirmation s reply =
        { s with awaiting_deletion_confirmation := false,
                 feedback := "Branch deletion cancelled.",
                 deletion_context := none,
                 current_step := "present_exploration_options" } := by
      unfold process_deletion_confirmation
      rw [hAwait, hCtx]
      simp [haff]
    rw [hs']
    exact ⟨⟨rfl, rfl, rfl⟩, fun hx => absurd hx haff,
           fun _ => ⟨rfl, rfl, rfl, rfl, rfl⟩⟩

/-- A small concrete concept branch used by the concrete check states. -/
def cBranch (bid tid : String) (parent : Option String) (children : List String) : Branch :=
  { id := bid, thread_id := tid, heading := vStr ("H" ++ bid), content := vStr "",
    explanation := some (vStr ""), productDirection := some (vStr ""),
    userProfile := none, description := none, features := none,
    source := vStr "", parent_branch := parent, children := children,
    expanded := false, expansion_data := none, user_created := false,
    raw_idea := none, source_concepts := none, category := "concept" }

/-- A session state with one branch and a pending deletion of it. -/
def c10state : IState :=
  { initState with
    branches := [cBranch "b1" "thread_1" none []],
    mindmap := [MNode.node "thread_1" (vStr "Emotional Root Causes")
                  [MNode.node "b1" (vStr "Hb1") []],
                MNode.node "thread_2" (vStr "Unconventional Associations") [],
                MNode.node "thread_3" (vStr "Imaginary Customers' Feedback") []],
    branch_counter := 1,
    awaiting_deletion_confirmation := true,
    deletion_context := some "b1" }

/-- Witness for C10: the reply "YES " (needing lowering and stripping)
performs the deletion, while "yeah" cancels it and clears the context. -/
theorem C10_witness :
    lookupBranch (process_deletion_confirmation c10state "YES ") "b1" = none ∧
    (process_deletion_confirmation c10state "yeah").branches = c10state.branches ∧
    (process_deletion_confirmation c10state "yeah").deletion_context = none := by
  refine ⟨?_, ?_, ?_⟩
  · exact (C10_deletion_confirmation c10state "YES " "b1" rfl rfl).2.1 (by decide)
  · exact ((C10_deletion_confirmation c10state "yeah" "b1" rfl rfl).2.2 (by decide)).1
  · exact (C10_deletion_confirmation c10state "yeah" "b1" rfl rfl).1.2.1

/-! ### Claim C6: combination preconditions -/

/-- C6: a combine request naming fewer than two branch ids, or naming any
id not present in the registry, reports a validation/reference error and
performs no mutation: registry, threads, mindmap, counter and the active
references are untouched. -/
theorem C6_combine_preconditions (s : IState) (ids : List String) (r : String)
    (h : ids.length < 2 ∨ ∃ bid ∈ ids, lookupBranch s bid = none) :
    (process_combine_request s ids r).branches = s.branches ∧
    (process_combine_request s ids r).threads = s.threads ∧
    (process_combine_request s ids r).mindmap = s.mindmap ∧
    (process_combine_request s ids r).branch_counter = s.branch_counter ∧
    (process_combine_request s ids r).active_thread = s.active_thread ∧
    (process_combine_request s ids r).active_branch = s.active_branch ∧
    ((process_combine_request s ids r).feedback =
        "Invalid format. Please use 'combine' followed by branch IDs (e.g., combine b1 b2 b3)." ∨
     (process_combine_request s ids r).feedback =
        "Please select at least 2 branches to combine." ∨
     (process_combine_request s ids r).feedback =
        "Branch(es) " ++
          String.intercalate ", " (ids.filter (fun bid => (lookupBranch s bid).isNone)) ++
          " do not exist.") := by
  unfold process_combine_request
  by_cases hemp : ids.isEmpty
  · simp only [hemp, reduceIte]
    simp
  · simp only [hemp, Bool.false_eq_true, reduceIte]
    by_cases hlen : ids.length < 2
    · simp only [hlen, reduceIte]
      simp
    · simp only [hlen, reduceIte]
      have hinv : ¬ (ids.filter (fun bid => (lookupBranch s bid).isNone)).isEmpty := by
        rcases h with h | ⟨bid, hmem, hnone⟩
        · exact absurd h hlen
        · intro hfe
          rw [List.isEmpty_iff, List.filter_eq_nil_iff] at hfe
          have := hfe bid hmem
          rw [hnone] at this
          exact this rfl
      simp only [hinv, not_false_eq_true, reduceIte]
      simp

/-- Witness for C6: at the initial state, `combine b1` (one id) and
`combine b1 b2` (unknown ids) both leave the state unmutated. -/
theorem C6_witness :
    (process_combine_request initState ["b1"] "resp").branches = initState.branches ∧
    (process_combine_request initState ["b1", "b2"] "resp").threads = initState.threads := by
  constructor
  · exact (C6_combine_preconditions initState ["b1"] "resp" (Or.inl (by decide))).1
  · exact (C6_combine_preconditions initState ["b1", "b2"] "resp"
      (Or.inr ⟨"b1", by decide, by rfl⟩)).2.1

/-! ### Claim C8: expansion parse failure degrades without raising -/

/-- C8 (amended): when the expansion response fails to parse, the
operation still completes: the branch's `expanded` flag is set, the
response text (whitespace-trimmed and with fenced code-block markers
stripped) is stored as the expansion payload, zero child branches are
created and the store is otherwise unchanged (mindmap, threads and the
allocation counter untouched), and a degraded-result feedback is
reported. -/
theorem C8_expansion_degraded (s : IState) (bid r : String) (br : Branch)
    (hlook : lookupBranch s bid = some br)
    (hparse : jsonLoads (strip_markdown_code_blocks (pyStrip r)) = none) :
    (expand_concept s bid r).branches =
      s.branches.map (fun b => if b.id = bid then
        { b with expanded := true,
                 expansion_data := some (vDict [("raw_response",
                   vStr (strip_markdown_code_blocks (pyStrip r)))]) } else b) ∧
    (expand_concept s bid r).mindmap = s.mindmap ∧
    (expand_concept s bid r).threads = s.threads ∧
    (expand_concept s bid r).branch_counter = s.branch_counter ∧
    (expand_concept s bid r).active_branch = s.active_branch ∧
    (expand_concept s bid r).feedback =
      "Expanded concept '" ++ pyStr br.heading ++ "', but couldn't extract structured data." := by
  have hs' : expand_concept s bid r =
      expandDegraded s bid br.heading (strip_markdown_code_blocks (pyStrip r)) := by
    unfold expand_concept
    rw [hlook]
    simp only [hparse]
  rw [hs']
  unfold expandDegraded updateBranch
  exact ⟨rfl, rfl, rfl, rfl, rfl, rfl⟩

/-- A session state with one branch `b1` awaiting expansion. -/
def c8state : IState :=
  { initState with
    branches := [cBranch "b1" "thread_1" none []],
    mindmap := [MNode.node "thread_1" (vStr "Emotional Root Causes")
                  [MNode.node "b1" (vStr "Hb1") []],
                MNode.node "thread_2" (vStr "Unconventional Associations") [],
                MNode.node "thread_3" (vStr "Imaginary Customers' Feedback") []],
    branch_counter := 1 }

/-- Witness for C8: a prose response with no JSON leaves only the branch's
expansion fields changed. -/
theorem C8_witness :
    (expand_concept c8state "b1" "no json here").mindmap = c8state.mindmap ∧
    (expand_concept c8state "b1" "no json here").branch_counter = c8state.branch_counter := by
  have h := C8_expansion_degraded c8state "b1" "no json here"
    (cBranch "b1" "thread_1" none []) (by rfl) (by rfl)
  exact ⟨h.2.1, h.2.2.2.1⟩

/-- C8 counterexample: the stored expansion payload is not the raw
response text: a fenced response has its markers stripped before being
stored. -/
theorem C8_counterexample_stored_text :
    (lookupBranch (expand_concept c8state "b1" "```\nhello\n```") "b1").map
        Branch.expansion_data
      = some (some (vDict [("raw_response", vStr "hello")])) ∧
    ("hello" : String) ≠ "```\nhello\n```" := by
  constructor
  · rfl
  · decide

/-! ### Claim C1: mindmap isomorphism fails at depth 2 -/

/-- A concrete session: explore thread 1 (harvesting `b1`), expand `b1`
(creating `b2`, which still receives a mindmap node), then expand `b2`
(creating `b3`). -/
def c1run : IState :=
  run initState
    [Op.threadChoice (some "thread_1"),
     Op.explore "\x7b\"emotionalSeeds\": [\x7b\"heading\": \"H1\", \"explanation\": \"E1\", \"productDirection\": \"P1\"\x7d]\x7d",
     Op.expand "b1" "[\x7b\"heading\": \"H2\", \"explanation\": \"E2\", \"productDirection\": \"P2\"\x7d]",
     Op.expand "b2" "[\x7b\"heading\": \"H3\", \"explanation\": \"E3\", \"productDirection\": \"P3\"\x7d]"]

/-- C1 fails on the code: after expanding the depth-1 branch `b2`, the
new branch `b3` is registered under thread 1 with parent `b2`, but the
mindmap insertion searches for the parent node only among the thread
node's direct children, so `b3` receives no mindmap node: walking the
mindmap from the thread node collects `b1, b2` while the thread owns
`b1, b2, b3`. -/
theorem C1_depth2_expansion_misses_mindmap :
    branchIds c1run = ["b1", "b2", "b3"] ∧
    (lookupBranch c1run "b3").map Branch.parent_branch = some (some "b2") ∧
    (lookupBranch c1run "b3").map Branch.thread_id = some "thread_1" ∧
    mnodesIds c1run.mindmap = ["thread_1", "b1", "b2", "thread_2", "thread_3"] ∧
    "b3" ∉ mnodesIds c1run.mindmap := by
  refine ⟨by rfl, by rfl, by rfl, by rfl, by decide⟩

/-! ### Claim C5: combination loses the supplied source concepts -/

/-- A session state with two concept branches `b1`, `b2`. -/
def c5state : IState :=
  { initState with
    branches := [cBranch "b1" "thread_1" none [], cBranch "b2" "thread_1" none []],
    mindmap := [MNode.node "thread_1" (vStr "Emotional Root Causes")
                  [MNode.node "b1" (vStr "Hb1") [], MNode.node "b2" (vStr "Hb2") []],
                MNode.node "thread_2" (vStr "Unconventional Associations") [],
                MNode.node "thread_3" (vStr "Imaginary Customers' Feedback") []],
    branch_counter := 2 }

/-- `combine b1 b2` with a well-formed product response that does not
declare its own `sourceConcepts`. -/
def c5run : IState :=
  process_combine_request c5state ["b1", "b2"]
    "[\x7b\"heading\": \"X\", \"description\": \"D\", \"features\": [\"F\"]\x7d]"

/-- C5 fails on the code: the combination builds the expected new product
branch `b3` in the fresh thread `thread_combined_3` and leaves `b1`/`b2`
untouched, but records `source_concepts = []` rather than the supplied
branch ids, because `standardize_product_branch_data` always inserts a
`sourceConcepts` key (defaulting to `[]`), making the fallback to the
supplied ids dead code. -/
theorem C5_source_concepts_lost :
    (lookupBranch c5run "b3").map Branch.category = some "product" ∧
    (lookupBranch c5run "b3").map Branch.parent_branch = some none ∧
    c5run.threads.map Thread.id = ["thread_1", "thread_2", "thread_3", "thread_combined_3"] ∧
    lookupThread c5state "thread_combined_3" = none ∧
    (lookupThread c5run "thread_combined_3").map Thread.branchIds = some ["b3"] ∧
    lookupBranch c5run "b1" = lookupBranch c5state "b1" ∧
    lookupBranch c5run "b2" = lookupBranch c5state "b2" ∧
    (lookupBranch c5run "b3").map Branch.source_concepts = some (some (vList [])) ∧
    vList [] ≠ vList [vStr "b1", vStr "b2"] := by
  refine ⟨by rfl, by rfl, by rfl, by rfl, by rfl, by rfl, by rfl, by rfl, by decide⟩

/-! ### Injectivity of the id formats -/

/-- Decimal read-back of a digit list. -/
def decListVal (l : List Char) : Nat :=
  l.foldl (fun acc c => acc * 10 + (c.toNat - '0'.toNat)) 0

theorem decListVal_append (a : List Char) (d : Char) :
    decListVal (a ++ [d]) = decListVal a * 10 + (d.toNat - '0'.toNat) := by
  unfold decListVal
  rw [List.foldl_append]
  rfl

theorem digitChar_toNat (n : Nat) (h : n < 10) :
    (Nat.digitChar n).toNat = n + 48 := by
  interval_cases n <;> rfl

theorem decListVal_natDec : ∀ (fuel n : Nat), n < 10 ^ fuel →
    decListVal (natDec fuel n) = n := by
  intro fuel
  induction fuel with
  | zero =>
      intro n h
      simp only [pow_zero, Nat.lt_one_iff] at h
      subst h
      rfl
  | succ fuel ih =>
      intro n h
      unfold natDec
      by_cases h10 : n < 10
      · simp only [h10, reduceIte]
        show decListVal [Nat.digitChar n] = n
        unfold decListVal
        simp [digitChar_toNat n h10]
      · simp only [h10, reduceIte]
        rw [decListVal_append, ih (n / 10) ?_,
          digitChar_toNat (n % 10) (Nat.mod_lt _ (by norm_num))]
        · have h48 : '0'.toNat = 48 := rfl
          rw [h48]
          omega
        · rw [Nat.div_lt_iff_lt_mul (by norm_num)]
          calc n < 10 ^ (fuel + 1) := h
          _ = 10 ^ fuel * 10 := by ring

theorem n_lt_ten_pow (n : Nat) : n < 10 ^ (n + 1) :=
  calc n < 2 ^ n := Nat.lt_two_pow n
  _ ≤ 10 ^ n := Nat.pow_le_pow_left (by norm_num) n
  _ ≤ 10 ^ (n + 1) := Nat.pow_le_pow_right (by norm_num) (by omega)

theorem natStr_inj {m n : Nat} (h : natStr m = natStr n) : m = n := by
  have hd : natDec (m + 1) m = natDec (n + 1) n := congrArg String.data h
  have hm := decListVal_natDec (m + 1) m (n_lt_ten_pow m)
  rw [hd, decListVal_natDec (n + 1) n (n_lt_ten_pow n)] at hm
  omega

theorem mkBranchId_inj {m n : Nat} (h : mkBranchId m = mkBranchId n) : m = n := by
  have hd : ('b' :: (natStr m).data) = ('b' :: (natStr n).data) := congrArg String.data h
  simp only [List.cons.injEq, true_and] at hd
  exact natStr_inj (congrArg String.mk hd)

/-! ### Claim C4: global uniqueness of branch ids -/

/-- The allocation invariant: registry ids are pairwise distinct, and
every id was produced by some already-consumed counter value. -/
def C4Inv (s : IState) : Prop :=
  (branchIds s).Nodup ∧
  ∀ bid ∈ branchIds s, ∃ k ∈ List.range s.branch_counter, bid = mkBranchId (k + 1)

instance (s : IState) : Decidable (C4Inv s) := by
  unfold C4Inv
  infer_instance

/-- One allocation-safe transition: the counter never decreases, the
invariant is preserved, and every id present afterwards but not before
was drawn from the fresh counter window. -/
def C4Step (s s' : IState) : Prop :=
  s.branch_counter ≤ s'.branch_counter ∧
  (C4Inv s → C4Inv s') ∧
  (∀ bid ∈ branchIds s', bid ∉ branchIds s →
     ∃ k, s.branch_counter ≤ k ∧ k < s'.branch_counter ∧ bid = mkBranchId (k + 1))

theorem C4Step_of_eq {s s' : IState} (hids : branchIds s' = branchIds s)
    (hc : s.branch_counter ≤ s'.branch_counter) : C4Step s s' := by
  refine ⟨hc, fun ⟨h1, h2⟩ => ⟨hids ▸ h1, ?_⟩, fun bid hmem hnot => absurd (hids ▸ hmem) hnot⟩
  intro bid hmem
  obtain ⟨k, hk, hbid⟩ := h2 bid (hids ▸ hmem)
  exact ⟨k, by simp only [List.mem_range] at hk ⊢; omega, hbid⟩

theorem C4Step_refl (s : IState) : C4Step s s := C4Step_of_eq rfl le_rfl

theorem C4Step_of_sublist {s s' : IState} (hids : (branchIds s').Sublist (branchIds s))
    (hc : s'.branch_counter = s.branch_counter) : C4Step s s' := by
  refine ⟨hc.ge, fun ⟨h1, h2⟩ => ⟨hids.nodup h1, ?_⟩,
    fun bid hmem hnot => absurd (hids.mem hmem) hnot⟩
  intro bid hmem
  obtain ⟨k, hk, hbid⟩ := h2 bid (hids.mem hmem)
  exact ⟨k, by rw [hc]; exact hk, hbid⟩

theorem C4Step_trans {s1 s2 s3 : IState} (h12 : C4Step s1 s2) (h23 : C4Step s2 s3) :
    C4Step s1 s3 := by
  obtain ⟨hc12, hi12, hn12⟩ := h12
  obtain ⟨hc23, hi23, hn23⟩ := h23
  refine ⟨hc12.trans hc23, fun h => hi23 (hi12 h), ?_⟩
  intro bid hmem hnot
  by_cases h2 : bid ∈ branchIds s2
  · obtain ⟨k, hk1, hk2, hbid⟩ := hn12 bid h2 hnot
    exact ⟨k, hk1, lt_of_lt_of_le hk2 hc23, hbid⟩
  · obtain ⟨k, hk1, hk2, hbid⟩ := hn23 bid hmem h2
    exact ⟨k, hc12.trans hk1, hk2, hbid⟩

theorem C4Step_alloc {s s' : IState}
    (hc : s'.branch_counter = s.branch_counter + 1)
    (hids : branchIds s' = branchIds s ++ [mkBranchId (s.branch_counter + 1)]) :
    C4Step s s' := by
  refine ⟨by omega, ?_, ?_⟩
  · rintro ⟨h1, h2⟩
    constructor
    · rw [hids]
      rw [List.nodup_append]
      refine ⟨h1, List.nodup_singleton _, ?_⟩
      intro bid hmem hmem'
      simp only [List.mem_singleton] at hmem'
      subst hmem'
      obtain ⟨k, hk, hbid⟩ := h2 _ hmem
      simp only [List.mem_range] at hk
      have := mkBranchId_inj hbid.symm
      omega
    · intro bid hmem
      rw [hids, List.mem_append] at hmem
      rcases hmem with hmem | hmem
      · obtain ⟨k, hk, hbid⟩ := h2 _ hmem
        refine ⟨k, ?_, hbid⟩
        simp only [List.mem_range] at hk ⊢
        omega
      · simp only [List.mem_singleton] at hmem
        exact ⟨s.branch_counter, by simp [hc], hmem⟩
  · intro bid hmem hnot
    rw [hids, List.mem_append] at hmem
    rcases hmem with hmem | hmem
    · exact absurd hmem hnot
    · simp only [List.mem_singleton] at hmem
      exact ⟨s.branch_counter, le_rfl, by omega, hmem⟩

theorem branchIds_updateBranch (s : IState) (bid : String) (f : Branch → Branch)
    (h : ∀ b, (f b).id = b.id) :
    branchIds (updateBranch s bid f) = branchIds s := by
  unfold branchIds updateBranch
  simp only [List.map_map]
  apply List.map_congr_left
  intro b _
  simp only [Function.comp_apply]
  split
  · exact h b
  · rfl

theorem branchIds_detachParent (s : IState) (br : Branch) (bid : String) :
    branchIds (deleteDetachParent s br bid) = branchIds s := by
  unfold deleteDetachParent
  split
  · split
    · exact branchIds_updateBranch _ _ _ (fun b => rfl)
    · rfl
  · rfl

theorem branchIds_detachThread (s : IState) (br : Branch) (bid : String) :
    branchIds (deleteDetachThread s br bid) = branchIds s := by
  unfold deleteDetachThread
  split <;> rfl

theorem branchIds_removeMindmap (s : IState) (bid : String) :
    branchIds (remove_branch_from_mindmap s bid) = branchIds s := by
  unfold remove_branch_from_mindmap
  split <;> rfl

theorem branchIds_clearActive (s : IState) (bid : String) :
    branchIds (deleteClearActive s bid) = branchIds s := by
  unfold deleteClearActive
  split <;> rfl

theorem branchIds_erase_sublist (s : IState) (bid : String) :
    (branchIds (eraseBranch s bid)).Sublist (branchIds s) :=
  (List.filter_sublist _).map _

theorem delete_branch_ids_sublist : ∀ (fuel : Nat) (s : IState) (bid : String),
    (branchIds (delete_branch fuel s bid)).Sublist (branchIds s) := by
  intro fuel
  induction fuel with
  | zero => intro s bid; exact List.Sublist.refl _
  | succ fuel ih =>
      intro s bid
      unfold delete_branch
      split
      · exact List.Sublist.refl _
      · rename_i br hbr
        have hfold : ∀ (cs : List String) (st : IState),
            (branchIds (cs.foldl (fun st c => delete_branch fuel st c) st)).Sublist
              (branchIds st) := by
          intro cs
          induction cs with
          | nil => intro st; exact List.Sublist.refl _
          | cons c cs ihc =>
              intro st
              rw [List.foldl_cons]
              exact (ihc _).trans (ih _ _)
        rw [branchIds_clearActive]
        refine (branchIds_erase_sublist _ _).trans ?_
        rw [branchIds_removeMindmap, branchIds_detachThread, branchIds_detachParent]
        exact hfold _ _

theorem C4Step_delete (fuel : Nat) (s : IState) (bid : String) :
    C4Step s (delete_branch fuel s bid) :=
  C4Step_of_sublist (delete_branch_ids_sublist fuel s bid)
    (delete_branch_counter fuel s bid)

theorem branchIds_insertChildBranch (s : IState) (pid : String) (sub : Branch) :
    branchIds (insertChildBranch s pid sub) = branchIds s ++ [sub.id] := by
  have h1 : branchIds (updateBranch { s with branches := s.branches ++ [sub] } pid
      (fun pb => { pb with children := pb.children ++ [sub.id] })) =
      branchIds { s with branches := s.branches ++ [sub] } :=
    branchIds_updateBranch _ _ _ (fun b => rfl)
  calc branchIds (insertChildBranch s pid sub)
      = branchIds (updateBranch { s with branches := s.branches ++ [sub] } pid
          (fun pb => { pb with children := pb.children ++ [sub.id] })) := rfl
  _ = branchIds { s with branches := s.branches ++ [sub] } := h1
  _ = branchIds s ++ [sub.id] := by simp [branchIds]

theorem C4Step_createBranchLoop (tid : String) : ∀ (items : List Obj) (s : IState),
    C4Step s (createBranchLoop tid s items).1 := by
  intro items
  induction items with
  | nil => intro s; exact C4Step_refl s
  | cons item rest ih =>
      intro s
      unfold createBranchLoop
      rcases hstd : standardize_concept_branch_data item with _ | std
      · simp only [hstd]
        exact C4Step_of_eq rfl (by simp)
      · simp only [hstd]
        refine C4Step_trans (C4Step_alloc rfl ?_) (ih _)
        simp [branchIds, updateThread]

theorem C4Step_expandLoop (tid pid : String) : ∀ (concepts : List Val) (s : IState),
    C4Step s (expandLoop tid pid s concepts).1 := by
  intro concepts
  induction concepts with
  | nil => intro s; exact C4Step_refl s
  | cons concept rest ih =>
      intro s
      unfold expandLoop
      rcases hstd : stdOfConcept concept with _ | std
      · simp only [hstd]
        exact C4Step_refl s
      · simp only [hstd]
        refine C4Step_trans ?_ (ih _)
        have hids := branchIds_insertChildBranch
          { s with branch_counter := s.branch_counter + 1 } pid
          { id := mkBranchId (s.branch_counter + 1), thread_id := tid,
            heading := objGetD std "heading" vNone,
            content := vStr (subBranchContent std),
            explanation := objGet std "explanation",
            productDirection := objGet std "productDirection",
            userProfile := none, description := none, features := none,
            source := vStr "concept_expansion",
            parent_branch := some pid, children := [], expanded := false,
            expansion_data := none, user_created := false, raw_idea := none,
            source_concepts := none, category := "concept" }
        exact C4Step_alloc rfl hids

theorem C4Step_combinedIteration (s : IState) (idx : Nat) (concept : Val)
    (ids : List String) :
    C4Step s (combinedIteration s idx concept ids).1 := by
  unfold combinedIteration
  split
  · rename_i d
    dsimp only
    split
    · exact C4Step_of_eq rfl (by simp)
    · split
      · exact C4Step_of_eq rfl (by simp)
      · split
        · rename_i dstr heq
          refine C4Step_alloc rfl ?_
          simp [branchIds]
        · exact C4Step_of_eq rfl (by simp)
  · exact C4Step_refl s

theorem C4Step_createCombined (ids : List String) :
    ∀ (json_data : List Val) (s : IState) (idx : Nat),
      C4Step s (create_individual_combined_threads.go ids s idx json_data).1 := by
  intro json_data
  induction json_data with
  | nil => intro s idx; exact C4Step_refl s
  | cons concept rest ih =>
      intro s idx
      unfold create_individual_combined_threads.go
      rcases hit : combinedIteration s idx concept ids with ⟨s', tido⟩
      have hstep : C4Step s s' := by
        have := C4Step_combinedIteration s idx concept ids
        rw [hit] at this
        exact this
      rcases tido with _ | tid
      · simpa using hstep
      · simp only []
        rcases hgo : create_individual_combined_threads.go ids s' (idx + 1) rest
          with ⟨s'', tidso⟩
        have hstep2 : C4Step s' s'' := by
          have := ih s' (idx + 1)
          rw [hgo] at this
          exact this
        rcases tidso with _ | tids <;> simpa using C4Step_trans hstep hstep2

theorem C4Step_expandDegraded (s : IState) (bid : String) (h : Val) (rc : String) :
    C4Step s (expandDegraded s bid h rc) :=
  C4Step_of_eq (branchIds_updateBranch s bid _ (fun _ => rfl)) le_rfl

theorem C4Step_thread_exploration (s : IState) (r : String) :
    C4Step s (thread_exploration s r) := by
  unfold thread_exploration
  split
  · exact C4Step_of_eq rfl le_rfl
  · rename_i tid htid
    split
    · exact C4Step_refl s
    · rename_i t ht
      split
      · exact C4Step_of_eq rfl le_rfl
      · dsimp only
        split
        · exact C4Step_of_eq rfl le_rfl
        · rename_i jd hjd
          split
          · exact C4Step_of_eq rfl le_rfl
          · rename_i items hitems
            split <;> rename_i s' heq <;>
            · have h1 := C4Step_createBranchLoop tid items
                (updateThread s tid (fun t => { t with msgCount := t.msgCount + 1 }))
              rw [heq] at h1
              exact C4Step_trans (C4Step_trans (C4Step_of_eq rfl le_rfl) h1)
                (C4Step_of_eq rfl le_rfl)

theorem C4Step_expand_concept (s : IState) (bid r : String) :
    C4Step s (expand_concept s bid r) := by
  unfold expand_concept
  split
  · exact C4Step_refl s
  · rename_i br hbr
    dsimp only
    split
    · exact C4Step_expandDegraded s bid br.heading _
    · rename_i jd hjd
      have hupd : C4Step s (updateBranch s bid (fun b =>
          { b with expanded := true,
                   expansion_data := some (match jd with
                     | vList l => (vList l, vDict [("expandedConcepts", vList l)])
                     | vDict d => (objGetD d "expandedConcepts" (vList []), vDict d)
                     | other => (vList [], other)).2 })) :=
        C4Step_of_eq (branchIds_updateBranch s bid _ (fun b => rfl)) le_rfl
      split
      · exact C4Step_trans hupd (C4Step_expandDegraded _ bid br.heading _)
      · rename_i concepts hconcepts
        split <;> rename_i s' heq
        · have h1 := C4Step_expandLoop br.thread_id bid concepts
            (updateBranch s bid (fun b =>
              { b with expanded := true,
                       expansion_data := some (match jd with
                         | vList l => (vList l, vDict [("expandedConcepts", vList l)])
                         | vDict d => (objGetD d "expandedConcepts" (vList []), vDict d)
                         | other => (vList [], other)).2 }))
          rw [heq] at h1
          exact C4Step_trans (C4Step_trans hupd h1) (C4Step_of_eq rfl le_rfl)
        · have h1 := C4Step_expandLoop br.thread_id bid concepts
            (updateBranch s bid (fun b =>
              { b with expanded := true,
                       expansion_data := some (match jd with
                         | vList l => (vList l, vDict [("expandedConcepts", vList l)])
                         | vDict d => (objGetD d "expandedConcepts" (vList []), vDict d)
                         | other => (vList [], other)).2 }))
          rw [heq] at h1
          exact C4Step_trans (C4Step_trans hupd h1)
            (C4Step_expandDegraded _ bid br.heading _)

theorem C4Step_process_user_idea (s : IState) (bid idea r : String) :
    C4Step s (process_user_idea s bid idea r) := by
  unfold process_user_idea
  split
  · exact C4Step_refl s
  · rename_i parent hparent
    dsimp only
    split <;>
    · refine C4Step_trans (C4Step_alloc rfl ?_) (C4Step_of_eq rfl le_rfl)
      exact branchIds_insertChildBranch { s with branch_counter := s.branch_counter + 1 } bid _

theorem C4Step_createIndividual (s : IState) (jl : List Val) (ids : List String) :
    C4Step s (create_individual_combined_threads s jl ids).1 :=
  C4Step_createCombined ids jl s 0

theorem C4Step_combineFallback (s : IState) (ids : List String) :
    C4Step s (combineFallback s ids) := by
  unfold combineFallback
  rcases hit : create_individual_combined_threads s [combineFallbackConcept ids] ids
    with ⟨s', tidso⟩
  have hstep : C4Step s s' := by
    have := C4Step_createIndividual s [combineFallbackConcept ids] ids
    rw [hit] at this
    exact this
  rcases tidso with _ | tids
  · exact C4Step_trans hstep (C4Step_of_eq rfl le_rfl)
  · rcases tids with _ | ⟨t, ts⟩ <;>
      exact C4Step_trans hstep (C4Step_trans (C4Step_of_eq rfl le_rfl)
        (C4Step_of_eq rfl le_rfl))

theorem C4Step_combineWithList (s : IState) (jl : List Val) (ids : List String) :
    C4Step s (combineWithList s jl ids) := by
  unfold combineWithList
  rcases hit : create_individual_combined_threads s jl ids with ⟨s', tidso⟩
  have hstep : C4Step s s' := by
    have := C4Step_createIndividual s jl ids
    rw [hit] at this
    exact this
  rcases tidso with _ | tids
  · exact C4Step_trans hstep (C4Step_combineFallback s' ids)
  · rcases tids with _ | ⟨t, ts⟩
    · exact C4Step_trans hstep (C4Step_of_eq rfl le_rfl)
    · exact C4Step_trans hstep (C4Step_trans (C4Step_of_eq rfl le_rfl)
        (C4Step_of_eq rfl le_rfl))

theorem C4Step_combine_concepts (s : IState) (ids : List String) (r : String) :
    C4Step s (combine_concepts s ids r) := by
  unfold combine_concepts
  dsimp only
  split
  · exact C4Step_combineFallback s ids
  · exact C4Step_combineWithList s _ ids

theorem C4Step_process_combine_request (s : IState) (ids : List String) (r : String) :
    C4Step s (process_combine_request s ids r) := by
  unfold process_combine_request
  split
  · exact C4Step_of_eq rfl le_rfl
  · split
    · exact C4Step_of_eq rfl le_rfl
    · dsimp only
      split
      · exact C4Step_of_eq rfl le_rfl
      · exact C4Step_combine_concepts s ids r

theorem C4Step_process_thread_choice (s : IState) (c : Option String) :
    C4Step s (process_thread_choice s c) := by
  unfold process_thread_choice
  dsimp only
  split
  · exact C4Step_of_eq rfl le_rfl
  · rename_i tid htid
    split
    · exact C4Step_of_eq rfl le_rfl
    · rename_i t ht
      -- eight leaves: regenerate-on-reselect wipes (a sublist), the rest
      -- leave the registry untouched
      split <;> split <;> split <;>
        · refine C4Step_of_sublist ?_ rfl
          simp only [branchIds, updateThread]
          first
            | exact (List.filter_sublist _).map _
            | exact List.Sublist.refl _

theorem C4Step_process_deletion_confirmation (s : IState) (reply : String) :
    C4Step s (process_deletion_confirmation s reply) := by
  unfold process_deletion_confirmation
  split
  · exact C4Step_of_eq rfl le_rfl
  · dsimp only
    split
    · split
      · rename_i bid hbid
        have h1 : C4Step s (delete_branch
            ({ s with awaiting_deletion_confirmation := false } : IState).branches.length
            { s with awaiting_deletion_confirmation := false } bid) :=
          C4Step_trans (C4Step_of_eq rfl le_rfl)
            (C4Step_delete _ { s with awaiting_deletion_confirmation := false } bid)
        exact C4Step_trans h1 (C4Step_of_eq rfl le_rfl)
      · exact C4Step_of_eq rfl le_rfl
    · exact C4Step_of_eq rfl le_rfl

theorem C4Step_step (s : IState) (op : Op) : C4Step s (step s op) := by
  cases op with
  | threadChoice c => exact C4Step_process_thread_choice s c
  | explore r => exact C4Step_thread_exploration s r
  | branchSelect bid =>
      show C4Step s (process_branch_selection s bid)
      unfold process_branch_selection
      split
      · exact C4Step_of_eq rfl le_rfl
      · split <;> exact C4Step_of_eq rfl le_rfl
  | expand bid r => exact C4Step_expand_concept s bid r
  | addIdeaRequest bid =>
      show C4Step s (process_add_idea_request s bid)
      unfold process_add_idea_request
      split <;> exact C4Step_of_eq rfl le_rfl
  | authorIdea bid idea r => exact C4Step_process_user_idea s bid idea r
  | deleteRequest bid =>
      show C4Step s (process_delete_request s bid)
      unfold process_delete_request
      split <;> exact C4Step_of_eq rfl le_rfl
  | deleteConfirm reply => exact C4Step_process_deletion_confirmation s reply
  | combineRequest ids r => exact C4Step_process_combine_request s ids r
  | sessionEnd => exact C4Step_of_eq rfl le_rfl

/-- C4: branch ids are unique for the lifetime of the session.  Every
public operation keeps the allocation counter monotonically
non-decreasing (it is never decremented or reset), preserves the
invariant that all registry ids are pairwise distinct images of consumed
counter values, and allocates any new id from the fresh window above the
old counter - so no two creations ever allocate the same id, even after
deletions or a regenerate-on-reselect wipe. -/
theorem C4_branch_id_uniqueness (s : IState) (op : Op) (h : C4Inv s) :
    s.branch_counter ≤ (step s op).branch_counter ∧
    C4Inv (step s op) ∧
    (∀ bid ∈ branchIds (step s op), bid ∉ branchIds s →
       ∃ k, s.branch_counter ≤ k ∧ k < (step s op).branch_counter ∧
         bid = mkBranchId (k + 1)) :=
  ⟨(C4Step_step s op).1, (C4Step_step s op).2.1 h, (C4Step_step s op).2.2⟩

/-- Witness for C4 at a concrete state and operation: authoring a child
of `b1` allocates the fresh id `b2`. -/
theorem C4_witness :
    c8state.branch_counter ≤ (step c8state (Op.authorIdea "b1" "i" "txt")).branch_counter ∧
    C4Inv (step c8state (Op.authorIdea "b1" "i" "txt")) := by
  have h := C4_branch_id_uniqueness c8state (Op.authorIdea "b1" "i" "txt") (by decide)
  exact ⟨h.1, h.2.1⟩


/-! ### Claim C9: the active-branch reference -/

/-- Soundness of the active-branch reference: it is `none` or names a
branch present in the registry. -/
def ActiveOk (s : IState) : Prop :=
  match s.active_branch with
  | none => True
  | some bid => bid ∈ branchIds s

instance (s : IState) : Decidable (ActiveOk s) := by
  unfold ActiveOk
  split <;> infer_instance

theorem ActiveOk_spec (s : IState) :
    ActiveOk s ↔ ∀ bid, s.active_branch = some bid → bid ∈ branchIds s := by
  unfold ActiveOk
  cases h : s.active_branch with
  | none => simp
  | some bid => simp

theorem ActiveOk_none {s : IState} (h : s.active_branch = none) : ActiveOk s := by
  rw [ActiveOk_spec]
  intro bid hbid
  rw [h] at hbid
  cases hbid

/-- One transition that keeps the active-branch reference sound. -/
def AStep (s s' : IState) : Prop := ActiveOk s → ActiveOk s'

theorem AStep_refl (s : IState) : AStep s s := fun h => h

theorem AStep_trans {s1 s2 s3 : IState} (h12 : AStep s1 s2) (h23 : AStep s2 s3) :
    AStep s1 s3 := fun h => h23 (h12 h)

theorem AStep_none {s s' : IState} (h : s'.active_branch = none) : AStep s s' :=
  fun _ => ActiveOk_none h

theorem AStep_keep {s s' : IState} (ha : s'.active_branch = s.active_branch)
    (hm : ∀ x ∈ branchIds s, x ∈ branchIds s') : AStep s s' := by
  intro h
  rw [ActiveOk_spec] at h ⊢
  intro bid hbid
  rw [ha] at hbid
  exact hm _ (h bid hbid)

theorem AStep_rfl2 {s s' : IState} (ha : s'.active_branch = s.active_branch)
    (hids : branchIds s' = branchIds s) : AStep s s' := by
  refine AStep_keep ha (fun x hx => ?_)
  rw [hids]
  exact hx

theorem AStep_alloc {s s' : IState} (l : List String)
    (hids : branchIds s' = branchIds s ++ l)
    (ha : s'.active_branch = s.active_branch) : AStep s s' := by
  refine AStep_keep ha (fun x hx => ?_)
  rw [hids]
  exact List.mem_append.2 (Or.inl hx)

theorem AStep_set {s s' : IState} (bid : String)
    (ha : s'.active_branch = some bid) (hm : bid ∈ branchIds s') : AStep s s' := by
  intro _
  rw [ActiveOk_spec]
  intro x hx
  rw [ha] at hx
  cases hx
  exact hm

theorem active_detachParent (s : IState) (br : Branch) (bid : String) :
    (deleteDetachParent s br bid).active_branch = s.active_branch := by
  unfold deleteDetachParent
  split
  · split <;> rfl
  · rfl

theorem active_detachThread (s : IState) (br : Branch) (bid : String) :
    (deleteDetachThread s br bid).active_branch = s.active_branch := by
  unfold deleteDetachThread
  split <;> rfl

theorem active_removeMindmap (s : IState) (bid : String) :
    (remove_branch_from_mindmap s bid).active_branch = s.active_branch := by
  unfold remove_branch_from_mindmap
  split <;> rfl

/-- The erase-then-clear tail of `delete_branch`: removing the record and
clearing a matching `active_branch` keeps the reference sound. -/
theorem AStep_eraseClear (s : IState) (bid : String) :
    AStep s (deleteClearActive (eraseBranch s bid) bid) := by
  intro h
  unfold deleteClearActive
  split
  · exact ActiveOk_none rfl
  · rename_i hne
    rw [ActiveOk_spec] at h ⊢
    intro x hx
    have hx' : s.active_branch = some x := hx
    have hxb : x ≠ bid := by
      intro he
      subst he
      exact hne hx
    have hmem := h x hx'
    simp only [branchIds, eraseBranch, List.mem_map] at hmem ⊢
    obtain ⟨b, hb, hbid2⟩ := hmem
    refine ⟨b, List.mem_filter.2 ⟨hb, ?_⟩, hbid2⟩
    simp [hbid2, hxb]

theorem AStep_delete : ∀ (fuel : Nat) (s : IState) (bid : String),
    AStep s (delete_branch fuel s bid) := by
  intro fuel
  induction fuel with
  | zero => intro s bid; exact AStep_refl s
  | succ fuel ih =>
      intro s bid
      unfold delete_branch
      split
      · exact AStep_refl s
      · rename_i br hbr
        have hfold : ∀ (cs : List String) (st : IState),
            AStep st (cs.foldl (fun st c => delete_branch fuel st c) st) := by
          intro cs
          induction cs with
          | nil => intro st; exact AStep_refl st
          | cons c cs ihc =>
              intro st
              rw [List.foldl_cons]
              exact AStep_trans (ih _ _) (ihc _)
        refine AStep_trans (hfold br.children s) ?_
        refine AStep_trans (AStep_rfl2 ?_ ?_) (AStep_eraseClear _ _)
        · rw [active_removeMindmap, active_detachThread, active_detachParent]
        · rw [branchIds_removeMindmap, branchIds_detachThread, branchIds_detachParent]

theorem AStep_createBranchLoop (tid : String) : ∀ (items : List Obj) (s : IState),
    AStep s (createBranchLoop tid s items).1 := by
  intro items
  induction items with
  | nil => intro s; exact AStep_refl s
  | cons item rest ih =>
      intro s
      unfold createBranchLoop
      rcases hstd : standardize_concept_branch_data item with _ | std
      · simp only [hstd]
        exact AStep_rfl2 rfl rfl
      · simp only [hstd]
        refine AStep_trans ?_ (ih _)
        refine AStep_alloc [mkBranchId (s.branch_counter + 1)] ?_ rfl
        simp [branchIds, updateThread]

theorem AStep_expandLoop (tid pid : String) : ∀ (concepts : List Val) (s : IState),
    AStep s (expandLoop tid pid s concepts).1 := by
  intro concepts
  induction concepts with
  | nil => intro s; exact AStep_refl s
  | cons concept rest ih =>
      intro s
      unfold expandLoop
      rcases hstd : stdOfConcept concept with _ | std
      · simp only [hstd]
        exact AStep_refl s
      · simp only [hstd]
        refine AStep_trans ?_ (ih _)
        exact AStep_alloc _ (branchIds_insertChildBranch _ pid _) rfl

theorem AStep_combinedIteration (s : IState) (idx : Nat) (concept : Val)
    (ids : List String) :
    AStep s (combinedIteration s idx concept ids).1 := by
  unfold combinedIteration
  split
  · rename_i d
    dsimp only
    split
    · exact AStep_rfl2 rfl rfl
    · split
      · exact AStep_rfl2 rfl rfl
      · split
        · rename_i dstr heq
          refine AStep_alloc [mkBranchId (s.branch_counter + 1)] ?_ rfl
          simp [branchIds]
        · exact AStep_rfl2 rfl rfl
  · exact AStep_refl s

theorem AStep_createCombined (ids : List String) :
    ∀ (json_data : List Val) (s : IState) (idx : Nat),
      AStep s (create_individual_combined_threads.go ids s idx json_data).1 := by
  intro json_data
  induction json_data with
  | nil => intro s idx; exact AStep_refl s
  | cons concept rest ih =>
      intro s idx
      unfold create_individual_combined_threads.go
      rcases hit : combinedIteration s idx concept ids with ⟨s1, tido⟩
      have hstep : AStep s s1 := by
        have := AStep_combinedIteration s idx concept ids
        rw [hit] at this
        exact this
      rcases tido with _ | tid
      · exact hstep
      · dsimp only
        rcases hgo : create_individual_combined_threads.go ids s1 (idx + 1) rest
          with ⟨s2, tidso⟩
        have hstep2 : AStep s1 s2 := by
          have := ih s1 (idx + 1)
          rw [hgo] at this
          exact this
        rcases tidso with _ | tids <;> exact AStep_trans hstep hstep2

theorem AStep_createIndividual (s : IState) (jl : List Val) (ids : List String) :
    AStep s (create_individual_combined_threads s jl ids).1 :=
  AStep_createCombined ids jl s 0

theorem AStep_expandDegraded (s : IState) (bid : String) (h : Val) (rc : String) :
    AStep s (expandDegraded s bid h rc) :=
  AStep_rfl2 rfl (branchIds_updateBranch s bid _ (fun _ => rfl))

theorem AStep_thread_exploration (s : IState) (r : String) :
    AStep s (thread_exploration s r) := by
  unfold thread_exploration
  split
  · exact AStep_rfl2 rfl rfl
  · rename_i tid htid
    split
    · exact AStep_refl s
    · rename_i t ht
      split
      · exact AStep_rfl2 rfl rfl
      · dsimp only
        split
        · exact AStep_rfl2 rfl rfl
        · rename_i jd hjd
          split
          · exact AStep_rfl2 rfl rfl
          · rename_i items hitems
            split <;> rename_i s' heq <;>
            · have h1 := AStep_createBranchLoop tid items
                (updateThread s tid (fun t => { t with msgCount := t.msgCount + 1 }))
              rw [heq] at h1
              exact AStep_trans (AStep_trans (AStep_rfl2 rfl rfl) h1)
                (AStep_rfl2 rfl rfl)

theorem AStep_expand_concept (s : IState) (bid r : String) :
    AStep s (expand_concept s bid r) := by
  unfold expand_concept
  split
  · exact AStep_refl s
  · rename_i br hbr
    dsimp only
    split
    · exact AStep_expandDegraded s bid br.heading _
    · rename_i jd hjd
      have hupd : AStep s (updateBranch s bid (fun b =>
          { b with expanded := true,
                   expansion_data := some (match jd with
                     | vList l => (vList l, vDict [("expandedConcepts", vList l)])
                     | vDict d => (objGetD d "expandedConcepts" (vList []), vDict d)
                     | other => (vList [], other)).2 })) :=
        AStep_rfl2 rfl (branchIds_updateBranch s bid _ (fun _ => rfl))
      split
      · exact AStep_trans hupd (AStep_expandDegraded _ bid br.heading _)
      · rename_i concepts hconcepts
        split <;> rename_i s' heq
        · have h1 := AStep_expandLoop br.thread_id bid concepts
            (updateBranch s bid (fun b =>
              { b with expanded := true,
                       expansion_data := some (match jd with
                         | vList l => (vList l, vDict [("expandedConcepts", vList l)])
                         | vDict d => (objGetD d "expandedConcepts" (vList []), vDict d)
                         | other => (vList [], other)).2 }))
          rw [heq] at h1
          exact AStep_trans (AStep_trans hupd h1) (AStep_rfl2 rfl rfl)
        · have h1 := AStep_expandLoop br.thread_id bid concepts
            (updateBranch s bid (fun b =>
              { b with expanded := true,
                       expansion_data := some (match jd with
                         | vList l => (vList l, vDict [("expandedConcepts", vList l)])
                         | vDict d => (objGetD d "expandedConcepts" (vList []), vDict d)
                         | other => (vList [], other)).2 }))
          rw [heq] at h1
          exact AStep_trans (AStep_trans hupd h1)
            (AStep_expandDegraded _ bid br.heading _)

theorem AStep_process_user_idea (s : IState) (bid idea r : String) :
    AStep s (process_user_idea s bid idea r) := by
  unfold process_user_idea
  split
  · exact AStep_refl s
  · rename_i parent hparent
    dsimp only
    split <;>
    · exact AStep_alloc _ (branchIds_insertChildBranch
        { s with branch_counter := s.branch_counter + 1 } bid _) rfl

theorem AStep_combineFallback (s : IState) (ids : List String) :
    AStep s (combineFallback s ids) := by
  unfold combineFallback
  rcases hit : create_individual_combined_threads s [combineFallbackConcept ids] ids
    with ⟨s', tidso⟩
  have hstep : AStep s s' := by
    have := AStep_createIndividual s [combineFallbackConcept ids] ids
    rw [hit] at this
    exact this
  rcases tidso with _ | tids
  · exact AStep_trans hstep (AStep_rfl2 rfl rfl)
  · rcases tids with _ | ⟨t, ts⟩
    · exact AStep_trans hstep (AStep_rfl2 rfl rfl)
    · exact AStep_none rfl

theorem AStep_combineWithList (s : IState) (jl : List Val) (ids : List String) :
    AStep s (combineWithList s jl ids) := by
  unfold combineWithList
  rcases hit : create_individual_combined_threads s jl ids with ⟨s', tidso⟩
  have hstep : AStep s s' := by
    have := AStep_createIndividual s jl ids
    rw [hit] at this
    exact this
  rcases tidso with _ | tids
  · exact AStep_trans hstep (AStep_combineFallback s' ids)
  · rcases tids with _ | ⟨t, ts⟩
    · exact AStep_trans hstep (AStep_rfl2 rfl rfl)
    · exact AStep_none rfl

theorem AStep_combine_concepts (s : IState) (ids : List String) (r : String) :
    AStep s (combine_concepts s ids r) := by
  unfold combine_concepts
  dsimp only
  split
  · exact AStep_combineFallback s ids
  · exact AStep_combineWithList s _ ids

theorem AStep_process_combine_request (s : IState) (ids : List String) (r : String) :
    AStep s (process_combine_request s ids r) := by
  unfold process_combine_request
  split
  · exact AStep_rfl2 rfl rfl
  · split
    · exact AStep_rfl2 rfl rfl
    · dsimp only
      split
      · exact AStep_rfl2 rfl rfl
      · exact AStep_combine_concepts s ids r

theorem AStep_process_thread_choice (s : IState) (c : Option String) :
    AStep s (process_thread_choice s c) := by
  unfold process_thread_choice
  dsimp only
  split
  · exact AStep_rfl2 rfl rfl
  · rename_i tid htid
    split
    · exact AStep_rfl2 rfl rfl
    · rename_i t ht
      split <;> split <;> split <;> exact AStep_none rfl

theorem AStep_process_branch_selection (s : IState) (bid : String) :
    AStep s (process_branch_selection s bid) := by
  unfold process_branch_selection
  split
  · exact AStep_rfl2 rfl rfl
  · rename_i br hbr
    dsimp only
    have hbr' : s.branches.find? (fun b => b.id = bid) = some br := hbr
    have hid : br.id = bid := by simpa using List.find?_some hbr'
    have hmem : bid ∈ branchIds s := by
      simp only [branchIds, List.mem_map]
      exact ⟨br, List.mem_of_find?_eq_some hbr', hid⟩
    split <;> exact AStep_set bid rfl hmem

theorem AStep_process_deletion_confirmation (s : IState) (reply : String) :
    AStep s (process_deletion_confirmation s reply) := by
  unfold process_deletion_confirmation
  split
  · exact AStep_rfl2 rfl rfl
  · dsimp only
    split
    · split
      · rename_i bid hbid
        have h1 : AStep s (delete_branch
            ({ s with awaiting_deletion_confirmation := false } : IState).branches.length
            { s with awaiting_deletion_confirmation := false } bid) :=
          AStep_trans (AStep_rfl2 rfl rfl)
            (AStep_delete _ { s with awaiting_deletion_confirmation := false } bid)
        exact AStep_trans h1 (AStep_rfl2 rfl rfl)
      · exact AStep_rfl2 rfl rfl
    · exact AStep_rfl2 rfl rfl

theorem AStep_step (s : IState) (op : Op) : AStep s (step s op) := by
  cases op with
  | threadChoice c => exact AStep_process_thread_choice s c
  | explore r => exact AStep_thread_exploration s r
  | branchSelect bid => exact AStep_process_branch_selection s bid
  | expand bid r => exact AStep_expand_concept s bid r
  | addIdeaRequest bid =>
      show AStep s (process_add_idea_request s bid)
      unfold process_add_idea_request
      split <;> exact AStep_rfl2 rfl rfl
  | authorIdea bid idea r => exact AStep_process_user_idea s bid idea r
  | deleteRequest bid =>
      show AStep s (process_delete_request s bid)
      unfold process_delete_request
      split <;> exact AStep_rfl2 rfl rfl
  | deleteConfirm reply => exact AStep_process_deletion_confirmation s reply
  | combineRequest ids r => exact AStep_process_combine_request s ids r
  | sessionEnd => exact AStep_rfl2 rfl rfl

/-- A session state with two branches and an active-branch reference,
ready for a combine request. -/
def c9state : IState :=
  { initState with
    branches := [cBranch "b1" "thread_1" none [], cBranch "b2" "thread_1" none []],
    mindmap := [MNode.node "thread_1" (vStr "Emotional Root Causes")
                  [MNode.node "b1" (vStr "Hb1") [], MNode.node "b2" (vStr "Hb2") []],
                MNode.node "thread_2" (vStr "Unconventional Associations") [],
                MNode.node "thread_3" (vStr "Imaginary Customers' Feedback") []],
    branch_counter := 2,
    active_thread := some "thread_1",
    active_branch := some "b1" }

/-- C9 counterexample to the unamended claim: a valid combine request
whose collaborator response parses to the empty JSON array runs the
combination path to completion (its feedback reports zero created
ideas), yet `active_branch` is not reset to `none` - the code only
resets it when at least one combined thread was created. -/
theorem C9_counterexample_combine_empty :
    (step c9state (Op.combineRequest ["b1", "b2"] "[]")).feedback =
      "Successfully combined concepts and created 0 new product idea(s), each with its own thread." ∧
    (step c9state (Op.combineRequest ["b1", "b2"] "[]")).active_branch = some "b1" := by
  constructor <;> rfl

/-- C9 (amended): the active-branch reference never dangles: if every
branch named by `active_branch` exists before a public operation, the
same holds after it.  Deletion in particular leaves no dangling
reference even when the deleted subtree contained the active branch at
any depth; a successful thread choice resets the reference to `none`;
and combination resets it to `none` whenever at least one combined
thread was created (but leaves it unchanged otherwise). -/
theorem C9_active_branch_sound (s : IState) (op : Op) (h : ActiveOk s) :
    ActiveOk (step s op) ∧
    (∀ fuel bid x, (delete_branch fuel s bid).active_branch = some x →
        x ∈ branchIds (delete_branch fuel s bid)) ∧
    (∀ tid t, op = Op.threadChoice (some tid) → lookupThread s tid = some t →
        (step s op).active_branch = none) ∧
    (∀ jl ids s1 t ts, create_individual_combined_threads s jl ids = (s1, some (t :: ts)) →
        (combineWithList s jl ids).active_branch = none) := by
  refine ⟨AStep_step s op h, ?_, ?_, ?_⟩
  · intro fuel bid x hx
    exact (ActiveOk_spec _).1 (AStep_delete fuel s bid h) x hx
  · intro tid t hop ht
    subst hop
    show (process_thread_choice s (some tid)).active_branch = none
    unfold process_thread_choice
    dsimp only
    have ht' : lookupThread { s with switch_thread := false } tid = some t := ht
    rw [ht']
    dsimp only
    split <;> split <;> split <;> rfl
  · intro jl ids s1 t ts hit
    unfold combineWithList
    rw [hit]

/-- Witness for C9 at a concrete input: selecting branch `b1` keeps the
active-branch reference sound. -/
theorem C9_witness :
    ActiveOk c10state ∧ ActiveOk (step c10state (Op.branchSelect "b1")) := by
  have h := C9_active_branch_sound c10state (Op.branchSelect "b1") (by decide)
  exact ⟨by decide, h.1⟩


/-! ### Claim C3: deletion cascade.  Part A: the registry order measure -/

/-- Length of the registry-id suffix starting at the first occurrence of
`y` (0 when `y` is absent): an upper bound on the recursion depth a
`delete_branch` call on `y` can need. -/
def sfxLen (l : List String) (y : String) : Nat :=
  (l.dropWhile (fun z => ¬ z = y)).length

theorem sfxLen_le_length (l : List String) (y : String) : sfxLen l y ≤ l.length :=
  (l.dropWhile_sublist _).length_le

theorem sfxLen_of_not_mem : ∀ {l : List String} {y : String}, y ∉ l → sfxLen l y = 0 := by
  intro l
  induction l with
  | nil => intro y h; rfl
  | cons a l ih =>
      intro y h
      have ha : ¬ a = y := fun he => h (he ▸ List.mem_cons_self a l)
      unfold sfxLen
      rw [List.dropWhile_cons]
      simp only [ha, decide_False, Bool.not_false, reduceIte]
      exact ih (fun hm => h (List.mem_cons_of_mem a hm))

theorem sfxLen_cons_self (l : List String) (y : String) :
    sfxLen (y :: l) y = l.length + 1 := by
  unfold sfxLen
  rw [List.dropWhile_cons]
  simp

theorem sfxLen_cons_ne {a y : String} (h : ¬ a = y) (l : List String) :
    sfxLen (a :: l) y = sfxLen l y := by
  unfold sfxLen
  rw [List.dropWhile_cons]
  simp [h]

theorem sfxLen_pos_of_mem : ∀ {l : List String} {y : String}, y ∈ l → 0 < sfxLen l y := by
  intro l
  induction l with
  | nil => intro y h; cases h
  | cons a l ih =>
      intro y h
      by_cases ha : a = y
      · subst ha
        rw [sfxLen_cons_self]
        omega
      · rw [sfxLen_cons_ne ha]
        rcases List.mem_cons.1 h with h1 | h1
        · exact absurd h1.symm ha
        · exact ih h1

theorem sfxLen_sublist_mono : ∀ {l' l : List String}, l'.Sublist l → ∀ {y : String},
    y ∈ l' → sfxLen l' y ≤ sfxLen l y := by
  intro l' l hsub
  induction hsub with
  | slnil => intro y hy; cases hy
  | cons a _ ih =>
      intro y hy
      refine (ih hy).trans ?_
      by_cases ha : a = y
      · subst ha
        rw [sfxLen_cons_self]
        exact Nat.le_succ_of_le (sfxLen_le_length _ _)
      · rw [sfxLen_cons_ne ha]
  | cons₂ a h ih =>
      intro y hy
      by_cases ha : a = y
      · subst ha
        rw [sfxLen_cons_self, sfxLen_cons_self]
        exact Nat.succ_le_succ h.length_le
      · rcases List.mem_cons.1 hy with h1 | h1
        · exact absurd h1.symm ha
        · rw [sfxLen_cons_ne ha, sfxLen_cons_ne ha]
          exact ih h1

theorem sfxLen_append_cons : ∀ {l1 : List String} {y : String} (l2 : List String),
    y ∉ l1 → sfxLen (l1 ++ y :: l2) y = l2.length + 1 := by
  intro l1
  induction l1 with
  | nil => intro y l2 h; simpa using sfxLen_cons_self l2 y
  | cons a l1 ih =>
      intro y l2 h
      have ha : ¬ a = y := fun he => h (he ▸ List.mem_cons_self a l1)
      rw [List.cons_append, sfxLen_cons_ne ha]
      exact ih l2 (fun hm => h (List.mem_cons_of_mem a hm))

/-- Registry topological order: every parent id is registered strictly
earlier (checked left to right; `seen` holds the ids already passed). -/
def wfP : List String → List Branch → Bool
  | _, [] => true
  | seen, b :: rest =>
      (match b.parent_branch with
       | none => true
       | some pid => seen.contains pid) && wfP (b.id :: seen) rest

theorem wfP_parent_before : ∀ (l1 : List Branch) (seen : List String) (b : Branch)
    (l2 : List Branch), wfP seen (l1 ++ b :: l2) = true → ∀ p, b.parent_branch = some p →
    p ∈ seen ∨ p ∈ l1.map Branch.id := by
  intro l1
  induction l1 with
  | nil =>
      intro seen b l2 h p hp
      rw [List.nil_append, wfP, Bool.and_eq_true] at h
      rw [hp] at h
      left
      have h1 := h.1
      simpa using h1
  | cons a l1 ih =>
      intro seen b l2 h p hp
      rw [List.cons_append, wfP, Bool.and_eq_true] at h
      rcases ih (a.id :: seen) b l2 h.2 p hp with h1 | h1
      · rcases List.mem_cons.1 h1 with h2 | h2
        · right
          rw [h2]
          exact List.mem_cons_self _ _
        · left
          exact h2
      · right
        exact List.mem_cons_of_mem _ h1

theorem wfP_map_children : ∀ (bs : List Branch) (seen : List String) (f : Branch → Branch),
    (∀ b, (f b).id = b.id) → (∀ b, (f b).parent_branch = b.parent_branch) →
    wfP seen (bs.map f) = wfP seen bs := by
  intro bs
  induction bs with
  | nil => intro seen f hid hpar; rfl
  | cons a rest ih =>
      intro seen f hid hpar
      rw [List.map_cons, wfP, wfP, hpar, hid]
      rw [ih (a.id :: seen) f hid hpar]

theorem wfP_weaken_seen : ∀ (bs : List Branch) (s1 s2 : List String) (a : String),
    wfP (s1 ++ a :: s2) bs = true → (∀ b ∈ bs, b.parent_branch ≠ some a) →
    wfP (s1 ++ s2) bs = true := by
  intro bs
  induction bs with
  | nil => intro s1 s2 a h hne; rfl
  | cons b rest ih =>
      intro s1 s2 a h hne
      rw [wfP, Bool.and_eq_true] at h ⊢
      constructor
      · rcases hb : b.parent_branch with _ | pid
        · rfl
        · rw [hb] at h
          have h1 := h.1
          have hpa : pid ≠ a := fun he =>
            hne b (List.mem_cons_self b rest) (by rw [hb, he])
          have h1m : pid ∈ s1 ++ a :: s2 := by simpa using h1
          have hgoal : pid ∈ s1 ++ s2 := by
            rw [List.mem_append] at h1m ⊢
            rcases h1m with h2 | h2
            · exact Or.inl h2
            · rcases List.mem_cons.1 h2 with h3 | h3
              · exact absurd h3 hpa
              · exact Or.inr h3
          simpa using hgoal
      · have := ih (b.id :: s1) s2 a h.2 (fun x hx => hne x (List.mem_cons_of_mem b hx))
        exact this

theorem wfP_remove : ∀ (l1 : List Branch) (x : Branch) (l2 : List Branch)
    (seen : List String), wfP seen (l1 ++ x :: l2) = true →
    (∀ b ∈ l2, b.parent_branch ≠ some x.id) → wfP seen (l1 ++ l2) = true := by
  intro l1
  induction l1 with
  | nil =>
      intro x l2 seen h hne
      rw [List.nil_append, wfP, Bool.and_eq_true] at h
      exact wfP_weaken_seen l2 [] seen x.id h.2 hne
  | cons a l1 ih =>
      intro x l2 seen h hne
      rw [List.cons_append, wfP, Bool.and_eq_true] at h ⊢
      exact ⟨h.1, ih x l2 (a.id :: seen) h.2 hne⟩

/-- The key measure fact: under the registry order and id uniqueness, a
child sits strictly deeper in the suffix than its parent. -/
theorem sfx_parent_lt (bs : List Branch) (hw : wfP [] bs = true)
    (hn : (bs.map Branch.id).Nodup) (b : Branch) (hb : b ∈ bs) (p : String)
    (hp : b.parent_branch = some p) :
    sfxLen (bs.map Branch.id) b.id < sfxLen (bs.map Branch.id) p := by
  obtain ⟨l1, l2, rfl⟩ := List.append_of_mem hb
  have hpm : p ∈ l1.map Branch.id := by
    rcases wfP_parent_before l1 [] b l2 hw p hp with h | h
    · cases h
    · exact h
  obtain ⟨m1, m2, hsplit⟩ := List.append_of_mem hpm
  have hids : (l1 ++ b :: l2).map Branch.id =
      m1 ++ p :: (m2 ++ b.id :: l2.map Branch.id) := by
    rw [List.map_append, hsplit, List.map_cons]
    simp
  rw [hids] at hn ⊢
  have hnm1 : p ∉ m1 := by
    rcases List.nodup_append.1 hn with ⟨_, _, hdisj⟩
    intro hmem
    exact hdisj hmem (List.mem_cons_self _ _)
  have hbid : b.id ∉ m1 ++ p :: m2 := by
    intro hmem
    have hn2 : (m1 ++ p :: (m2 ++ b.id :: l2.map Branch.id)).Nodup := hn
    have hre : m1 ++ p :: (m2 ++ b.id :: l2.map Branch.id) =
        (m1 ++ p :: m2) ++ b.id :: l2.map Branch.id := by simp
    rw [hre] at hn2
    rcases List.nodup_append.1 hn2 with ⟨_, _, hdisj⟩
    exact hdisj hmem (List.mem_cons_self _ _)
  have h1 : sfxLen (m1 ++ p :: (m2 ++ b.id :: l2.map Branch.id)) p =
      (m2 ++ b.id :: l2.map Branch.id).length + 1 :=
    sfxLen_append_cons _ hnm1
  have h2 : sfxLen (m1 ++ p :: (m2 ++ b.id :: l2.map Branch.id)) b.id =
      (l2.map Branch.id).length + 1 := by
    have hre : m1 ++ p :: (m2 ++ b.id :: l2.map Branch.id) =
        (m1 ++ p :: m2) ++ b.id :: l2.map Branch.id := by simp
    rw [hre]
    exact sfxLen_append_cons _ hbid
  rw [h1, h2]
  simp only [List.length_append, List.length_cons]
  omega


/-! ### C3 Part B: mindmap occurrence tags -/

/-- Every node occurrence in a mindmap forest, tagged with the id of the
tree root it sits under and the id of its parent node (`none` for the
roots themselves): `(root, id, parent)`. -/
def ptag : String → Option String → MNode → List (String × String × Option String)
  | r, po, .node i _ cs => (r, i, po) :: ptagL r (some i) cs
where
  ptagL : String → Option String → List MNode → List (String × String × Option String)
    | _, _, [] => []
    | r, po, n :: ns => ptag r po n ++ ptagL r po ns

/-- The tagged occurrences of a whole forest. -/
def ptagF : List MNode → List (String × String × Option String)
  | [] => []
  | n :: ns => ptag n.id none n ++ ptagF ns

theorem ptag_node (r : String) (po : Option String) (i : String) (nm : Val)
    (cs : List MNode) :
    ptag r po (.node i nm cs) = (r, i, po) :: ptag.ptagL r (some i) cs := rfl

theorem ptagL_nil (r : String) (po : Option String) : ptag.ptagL r po [] = [] := rfl

theorem ptagL_cons (r : String) (po : Option String) (n : MNode) (ns : List MNode) :
    ptag.ptagL r po (n :: ns) = ptag r po n ++ ptag.ptagL r po ns := rfl

theorem ptagF_nil : ptagF [] = [] := rfl

theorem ptagF_cons (n : MNode) (ns : List MNode) :
    ptagF (n :: ns) = ptag n.id none n ++ ptagF ns := rfl

theorem mnodeIds_node (i : String) (nm : Val) (cs : List MNode) :
    mnodeIds (.node i nm cs) = i :: mnodesIds cs := rfl

theorem mnodesIds_nil : mnodesIds [] = [] := rfl

theorem mnodesIds_cons (n : MNode) (ns : List MNode) :
    mnodesIds (n :: ns) = mnodeIds n ++ mnodesIds ns := rfl

theorem mnode_sizeOf_pos (m : MNode) : 0 < sizeOf m := by
  rcases m with ⟨i, nm, cs⟩
  simp

/-- Strong-induction workhorse: occurrence ids are the preorder ids, and
every tag carries the ambient root. -/
theorem ptag_aux : ∀ (k : Nat),
    (∀ (m : MNode), sizeOf m ≤ k → ∀ (r : String) (po : Option String),
      (ptag r po m).map (fun tr => tr.2.1) = mnodeIds m ∧
      (∀ tr ∈ ptag r po m, tr.1 = r) ∧
      (∀ tr ∈ ptag r po m, tr.2.2 = po ∨ ∃ j, tr.2.2 = some j ∧ j ∈ mnodeIds m)) ∧
    (∀ (cs : List MNode), sizeOf cs ≤ k → ∀ (r : String) (po : Option String),
      (ptag.ptagL r po cs).map (fun tr => tr.2.1) = mnodesIds cs ∧
      (∀ tr ∈ ptag.ptagL r po cs, tr.1 = r) ∧
      (∀ tr ∈ ptag.ptagL r po cs, tr.2.2 = po ∨ ∃ j, tr.2.2 = some j ∧ j ∈ mnodesIds cs)) := by
  intro k
  induction k with
  | zero =>
      constructor
      · intro m hm
        exact absurd hm (by have := mnode_sizeOf_pos m; omega)
      · intro cs hcs
        rcases cs with _ | ⟨c, rest⟩
        · simp at hcs
        · simp at hcs
  | succ k ih =>
      constructor
      · intro m hm r po
        rcases m with ⟨i, nm, cs⟩
        have hcs : sizeOf cs ≤ k := by
          simp at hm
          omega
        obtain ⟨hb, hr, hp⟩ := ih.2 cs hcs r (some i)
        rw [ptag_node, mnodeIds_node]
        refine ⟨by rw [List.map_cons, hb], ?_, ?_⟩
        · intro tr htr
          rcases List.mem_cons.1 htr with h1 | h1
          · rw [h1]
          · exact hr tr h1
        · intro tr htr
          rcases List.mem_cons.1 htr with h1 | h1
          · left
            rw [h1]
          · rcases hp tr h1 with h2 | ⟨j, h2, h3⟩
            · right
              exact ⟨i, h2, List.mem_cons_self _ _⟩
            · right
              exact ⟨j, h2, List.mem_cons_of_mem _ h3⟩
      · intro cs hcs r po
        rcases cs with _ | ⟨c, rest⟩
        · rw [ptagL_nil, mnodesIds_nil]
          exact ⟨rfl, fun tr htr => absurd htr (List.not_mem_nil tr),
            fun tr htr => absurd htr (List.not_mem_nil tr)⟩
        · have hc : sizeOf c ≤ k := by
            simp at hcs
            omega
          have hrest : sizeOf rest ≤ k := by
            simp at hcs
            omega
          obtain ⟨hb1, hr1, hp1⟩ := ih.1 c hc r po
          obtain ⟨hb2, hr2, hp2⟩ := ih.2 rest hrest r po
          rw [ptagL_cons, mnodesIds_cons]
          refine ⟨by rw [List.map_append, hb1, hb2], ?_, ?_⟩
          · intro tr htr
            rcases List.mem_append.1 htr with h1 | h1
            · exact hr1 tr h1
            · exact hr2 tr h1
          · intro tr htr
            rcases List.mem_append.1 htr with h1 | h1
            · rcases hp1 tr h1 with h2 | ⟨j, h2, h3⟩
              · exact Or.inl h2
              · exact Or.inr ⟨j, h2, List.mem_append.2 (Or.inl h3)⟩
            · rcases hp2 tr h1 with h2 | ⟨j, h2, h3⟩
              · exact Or.inl h2
              · exact Or.inr ⟨j, h2, List.mem_append.2 (Or.inr h3)⟩

theorem ptag_ids (r : String) (po : Option String) (m : MNode) :
    (ptag r po m).map (fun tr => tr.2.1) = mnodeIds m :=
  ((ptag_aux (sizeOf m)).1 m le_rfl r po).1

theorem ptagL_ids (r : String) (po : Option String) (cs : List MNode) :
    (ptag.ptagL r po cs).map (fun tr => tr.2.1) = mnodesIds cs :=
  ((ptag_aux (sizeOf cs)).2 cs le_rfl r po).1

theorem ptag_root (r : String) (po : Option String) (m : MNode) :
    ∀ tr ∈ ptag r po m, tr.1 = r :=
  ((ptag_aux (sizeOf m)).1 m le_rfl r po).2.1

theorem ptag_parent (r : String) (po : Option String) (m : MNode) :
    ∀ tr ∈ ptag r po m, tr.2.2 = po ∨ ∃ j, tr.2.2 = some j ∧ j ∈ mnodeIds m :=
  ((ptag_aux (sizeOf m)).1 m le_rfl r po).2.2

theorem ptagF_ids (mm : List MNode) :
    (ptagF mm).map (fun tr => tr.2.1) = mnodesIds mm := by
  induction mm with
  | nil => rfl
  | cons n ns ih =>
      rw [ptagF_cons, mnodesIds_cons, List.map_append, ih, ptag_ids]

theorem mem_mnodesIds_iff (mm : List MNode) (y : String) :
    y ∈ mnodesIds mm ↔ ∃ tr ∈ ptagF mm, tr.2.1 = y := by
  rw [← ptagF_ids, List.mem_map]

theorem ptagL_sublist {cs' cs : List MNode} (h : cs'.Sublist cs) (r : String)
    (po : Option String) : (ptag.ptagL r po cs').Sublist (ptag.ptagL r po cs) := by
  induction h with
  | slnil => exact List.Sublist.refl _
  | cons n _ ih =>
      rw [ptagL_cons]
      exact ih.trans (List.sublist_append_right _ _)
  | cons₂ n _ ih =>
      rw [ptagL_cons, ptagL_cons]
      exact List.Sublist.append_left ih _

/-- The child-filter edit shrinks a tree's occurrence list. -/
theorem ptag_filter_sublist (r : String) (po : Option String) (m : MNode)
    (p : MNode → Bool) :
    (ptag r po (m.withChildren (m.children.filter p))).Sublist (ptag r po m) := by
  rcases m with ⟨i, nm, cs⟩
  show (ptag r po (.node i nm (cs.filter p))).Sublist (ptag r po (.node i nm cs))
  rw [ptag_node, ptag_node]
  exact (ptagL_sublist (List.filter_sublist cs) r (some i)).cons₂ _

/-- Ids are preserved by the child-filter edit and by `updateFirstInTree`
with such an edit. -/
theorem updateFirstInTree_id (m : MNode) (q : String) (f : MNode → MNode)
    (hf : ∀ n, (f n).id = n.id) : (updateFirstInTree m q f).1.id = m.id := by
  rcases m with ⟨i, nm, cs⟩
  show (updateFirstInTree (.node i nm cs) q f).1.id = i
  unfold updateFirstInTree
  split
  · exact hf _
  · rfl

theorem updateFirstInTree_sublist : ∀ (k : Nat),
    (∀ (m : MNode), sizeOf m ≤ k → ∀ (q : String) (f : MNode → MNode),
      (∀ (r : String) (po : Option String) (n : MNode),
        (ptag r po (f n)).Sublist (ptag r po n)) →
      ∀ (r : String) (po : Option String),
        (ptag r po (updateFirstInTree m q f).1).Sublist (ptag r po m)) ∧
    (∀ (cs : List MNode), sizeOf cs ≤ k → ∀ (q : String) (f : MNode → MNode),
      (∀ (r : String) (po : Option String) (n : MNode),
        (ptag r po (f n)).Sublist (ptag r po n)) →
      ∀ (r : String) (po : Option String),
        (ptag.ptagL r po (updateFirstInTree.updateForest q f cs).1).Sublist
          (ptag.ptagL r po cs)) := by
  intro k
  induction k with
  | zero =>
      constructor
      · intro m hm
        exact absurd hm (by have := mnode_sizeOf_pos m; omega)
      · intro cs hcs
        rcases cs with _ | ⟨c, rest⟩
        · intro q f hf r po
          exact List.Sublist.refl _
        · simp at hcs
  | succ k ih =>
      constructor
      · intro m hm q f hf r po
        rcases m with ⟨i, nm, cs⟩
        have hcs : sizeOf cs ≤ k := by
          simp at hm
          omega
        unfold updateFirstInTree
        split
        · exact hf r po _
        · rcases hu : updateFirstInTree.updateForest q f cs with ⟨cs', found⟩
          have := ih.2 cs hcs q f hf r (some i)
          rw [hu] at this
          rw [ptag_node, ptag_node]
          exact List.Sublist.cons₂ _ this
      · intro cs hcs q f hf r po
        rcases cs with _ | ⟨c, rest⟩
        · exact List.Sublist.refl _
        · have hc : sizeOf c ≤ k := by
            simp at hcs
            omega
          have hrest : sizeOf rest ≤ k := by
            simp at hcs
            omega
          show (ptag.ptagL r po (updateFirstInTree.updateForest q f (c :: rest)).1).Sublist _
          rw [show updateFirstInTree.updateForest q f (c :: rest) =
            (match updateFirstInTree c q f with
             | (c', true) => (c' :: rest, true)
             | (_, false) =>
                 match updateFirstInTree.updateForest q f rest with
                 | (rest', found) => (c :: rest', found)) from rfl]
          rcases hc1 : updateFirstInTree c q f with ⟨c', fc⟩
          rcases fc
          · rcases hr1 : updateFirstInTree.updateForest q f rest with ⟨rest', found⟩
            have h2 := ih.2 rest hrest q f hf r po
            rw [hr1] at h2
            rw [ptagL_cons, ptagL_cons]
            exact List.Sublist.append_left h2 _
          · have h1 := ih.1 c hc q f hf r po
            rw [hc1] at h1
            rw [ptagL_cons, ptagL_cons]
            exact List.Sublist.append h1 (List.Sublist.refl _)


theorem withChildren_id (n : MNode) (cs : List MNode) :
    (n.withChildren cs).id = n.id := by
  rcases n with ⟨i, nm, cs0⟩
  rfl

theorem ptagL_parent (r : String) (po : Option String) (cs : List MNode) :
    ∀ tr ∈ ptag.ptagL r po cs,
      tr.2.2 = po ∨ ∃ j, tr.2.2 = some j ∧ j ∈ mnodesIds cs :=
  ((ptag_aux (sizeOf cs)).2 cs le_rfl r po).2.2

theorem mem_mnodeIds_iff (m : MNode) (r : String) (po : Option String) (y : String) :
    y ∈ mnodeIds m ↔ ∃ tr ∈ ptag r po m, tr.2.1 = y := by
  rw [← ptag_ids r po, List.mem_map]

theorem mem_mnodesIds_iffL (cs : List MNode) (r : String) (po : Option String)
    (y : String) :
    y ∈ mnodesIds cs ↔ ∃ tr ∈ ptag.ptagL r po cs, tr.2.1 = y := by
  rw [← ptagL_ids r po, List.mem_map]

/-- In a child list placed under a binder id `j` that occurs nowhere
inside the list, the occurrences whose parent tag is `j` are exactly the
top-level roots. -/
theorem ptagL_parent_top (r : String) (j : String) : ∀ (cs : List MNode),
    j ∉ mnodesIds cs →
    ∀ tr ∈ ptag.ptagL r (some j) cs, tr.2.2 = some j → tr.2.1 ∈ cs.map MNode.id := by
  intro cs
  induction cs with
  | nil => intro hj tr htr; rw [ptagL_nil] at htr; cases htr
  | cons c rest ih =>
      intro hj tr htr hpj
      rw [ptagL_cons, List.mem_append] at htr
      rcases htr with h1 | h1
      · rcases c with ⟨i, nm, cs'⟩
        rw [ptag_node] at h1
        rcases List.mem_cons.1 h1 with h2 | h2
        · rw [h2, List.map_cons]
          exact List.mem_cons_self _ _
        · exfalso
          rcases ptagL_parent r (some i) cs' tr h2 with h3 | ⟨j', h3, h4⟩
          · rw [hpj] at h3
            have hij : j = i := Option.some.inj h3
            apply hj
            rw [mnodesIds_cons, mnodeIds_node]
            exact List.mem_append.2 (Or.inl (hij ▸ List.mem_cons_self _ _))
          · rw [hpj] at h3
            have hjj : j = j' := Option.some.inj h3
            apply hj
            rw [mnodesIds_cons, mnodeIds_node]
            exact List.mem_append.2 (Or.inl (List.mem_cons_of_mem _ (hjj ▸ h4)))
      · rw [List.map_cons]
        refine List.mem_cons_of_mem _ (ih ?_ tr h1 hpj)
        intro hm
        apply hj
        rw [mnodesIds_cons]
        exact List.mem_append.2 (Or.inr hm)

/-- `updateFirstInTree` reports `true` exactly when the target occurs. -/
theorem updateFirstInTree_found : ∀ (k : Nat),
    (∀ (m : MNode), sizeOf m ≤ k → ∀ (q : String) (f : MNode → MNode),
      ((updateFirstInTree m q f).2 = true ↔ q ∈ mnodeIds m)) ∧
    (∀ (cs : List MNode), sizeOf cs ≤ k → ∀ (q : String) (f : MNode → MNode),
      ((updateFirstInTree.updateForest q f cs).2 = true ↔ q ∈ mnodesIds cs)) := by
  intro k
  induction k with
  | zero =>
      constructor
      · intro m hm
        exact absurd hm (by have := mnode_sizeOf_pos m; omega)
      · intro cs hcs
        rcases cs with _ | ⟨c, rest⟩
        · intro q f
          simp [updateFirstInTree.updateForest, mnodesIds_nil]
        · simp at hcs
  | succ k ih =>
      constructor
      · intro m hm q f
        rcases m with ⟨i, nm, cs⟩
        have hcs : sizeOf cs ≤ k := by
          simp at hm
          omega
        unfold updateFirstInTree
        split
        · rename_i hiq
          simp only [mnodeIds_node]
          simp [hiq]
        · rename_i hiq
          rcases hu : updateFirstInTree.updateForest q f cs with ⟨cs', found⟩
          have h1 := ih.2 cs hcs q f
          rw [hu] at h1
          simp only [mnodeIds_node]
          rw [List.mem_cons]
          constructor
          · intro h2
            exact Or.inr (h1.1 h2)
          · intro h2
            rcases h2 with h3 | h3
            · exact absurd h3.symm hiq
            · exact h1.2 h3
      · intro cs hcs q f
        rcases cs with _ | ⟨c, rest⟩
        · simp [updateFirstInTree.updateForest, mnodesIds_nil]
        · have hc : sizeOf c ≤ k := by
            simp at hcs
            omega
          have hrest : sizeOf rest ≤ k := by
            simp at hcs
            omega
          rw [show updateFirstInTree.updateForest q f (c :: rest) =
            (match updateFirstInTree c q f with
             | (c', true) => (c' :: rest, true)
             | (_, false) =>
                 match updateFirstInTree.updateForest q f rest with
                 | (rest', found) => (c :: rest', found)) from rfl]
          rcases hc1 : updateFirstInTree c q f with ⟨c', fc⟩
          have h1 := ih.1 c hc q f
          rw [hc1] at h1
          rcases fc
          · rcases hr1 : updateFirstInTree.updateForest q f rest with ⟨rest', found⟩
            have h2 := ih.2 rest hrest q f
            rw [hr1] at h2
            simp only [mnodesIds_cons]
            rw [List.mem_append]
            constructor
            · intro h3
              exact Or.inr (h2.1 h3)
            · intro h3
              rcases h3 with h4 | h4
              · exact absurd (h1.2 h4) (by simp)
              · exact h2.2 h4
          · simp only [mnodesIds_cons]
            rw [List.mem_append]
            constructor
            · intro _
              exact Or.inl (h1.1 rfl)
            · intro _
              trivial


/-- Deleting a branch node: when every occurrence of `y` hangs directly
under the unique `q` node, filtering `q`-children removes `y` entirely
from the tree. -/
theorem uFIT_effective : ∀ (k : Nat),
    (∀ (m : MNode), sizeOf m ≤ k → ∀ (y q r : String) (po : Option String),
      ¬ m.id = y → ¬ q = y → (mnodeIds m).Nodup →
      (∀ tr ∈ ptag r po m, tr.2.1 = y → tr.2.2 = some q) →
      y ∉ mnodeIds (updateFirstInTree m q (fun pn =>
        pn.withChildren (pn.children.filter (fun c => c.id ≠ y)))).1) ∧
    (∀ (cs : List MNode), sizeOf cs ≤ k → ∀ (y q i r : String),
      ¬ i = q → ¬ q = y → (mnodesIds cs).Nodup →
      (∀ tr ∈ ptag.ptagL r (some i) cs, tr.2.1 = y → tr.2.2 = some q) →
      y ∉ mnodesIds (updateFirstInTree.updateForest q (fun pn =>
        pn.withChildren (pn.children.filter (fun c => c.id ≠ y))) cs).1) := by
  intro k
  induction k with
  | zero =>
      constructor
      · intro m hm
        exact absurd hm (by have := mnode_sizeOf_pos m; omega)
      · intro cs hcs
        rcases cs with _ | ⟨c, rest⟩
        · intro y q i r _ _ _ _
          simp [updateFirstInTree.updateForest, mnodesIds_nil]
        · simp at hcs
  | succ k ih =>
      constructor
      · intro m hm y q r po hmy hqy hnd hyq
        rcases m with ⟨i, nm, cs⟩
        have hiy : ¬ i = y := hmy
        have hcs : sizeOf cs ≤ k := by
          simp at hm
          omega
        rw [mnodeIds_node] at hnd
        unfold updateFirstInTree
        split
        · rename_i hiq
          subst hiq
          intro hmem
          have hmem2 : y ∈ mnodeIds (MNode.node i nm
              (cs.filter (fun c => c.id ≠ y))) := hmem
          clear hmem
          have hmem := hmem2
          rw [mnodeIds_node] at hmem
          rcases List.mem_cons.1 hmem with h1 | h1
          · exact hiy h1.symm
          · obtain ⟨tr, htr, hty⟩ :=
              (mem_mnodesIds_iffL _ r (some i) y).1 h1
            have htr0 : tr ∈ ptag.ptagL r (some i) cs :=
              (ptagL_sublist (List.filter_sublist cs) r (some i)).mem htr
            have hpq : tr.2.2 = some i := by
              refine hyq tr ?_ hty
              rw [ptag_node]
              exact List.mem_cons_of_mem _ htr0
            have hnf : i ∉ mnodesIds (cs.filter (fun c => c.id ≠ y)) := by
              intro hmm
              have hsub : (mnodesIds (cs.filter (fun c => c.id ≠ y))).Sublist
                  (mnodesIds cs) := by
                rw [← ptagL_ids r (some i), ← ptagL_ids r (some i)]
                exact (ptagL_sublist (List.filter_sublist cs) r (some i)).map _
              exact (List.nodup_cons.1 hnd).1 (hsub.mem hmm)
            have htop := ptagL_parent_top r i _ hnf tr htr hpq
            rw [hty] at htop
            obtain ⟨c, hcmem, hcid⟩ := List.mem_map.1 htop
            have := List.of_mem_filter hcmem
            rw [hcid] at this
            simp at this
        · rename_i hiq
          rcases hu : updateFirstInTree.updateForest q
            (fun pn => pn.withChildren (pn.children.filter (fun c => c.id ≠ y))) cs
            with ⟨cs', found⟩
          intro hmem
          rw [mnodeIds_node] at hmem
          rcases List.mem_cons.1 hmem with h1 | h1
          · exact hiy h1.symm
          · have h2 := ih.2 cs hcs y q i r hiq hqy
              (List.nodup_cons.1 hnd).2
              (fun tr htr hty => hyq tr (by
                rw [ptag_node]
                exact List.mem_cons_of_mem _ htr) hty)
            rw [hu] at h2
            exact h2 h1
      · intro cs hcs y q i r hiq hqy hnd hyq
        rcases cs with _ | ⟨c, rest⟩
        · simp [updateFirstInTree.updateForest, mnodesIds_nil]
        · have hc : sizeOf c ≤ k := by
            simp at hcs
            omega
          have hrest : sizeOf rest ≤ k := by
            simp at hcs
            omega
          rw [mnodesIds_cons] at hnd
          have hcy : ¬ c.id = y := by
            intro he
            rcases c with ⟨ci, cnm, ccs⟩
            have hpair : ((r, ci, some i) : String × String × Option String) ∈
                ptag.ptagL r (some i) (MNode.node ci cnm ccs :: rest) := by
              rw [ptagL_cons, ptag_node]
              exact List.mem_append.2 (Or.inl (List.mem_cons_self _ _))
            have := hyq _ hpair he
            simp only at this
            exact hiq (Option.some.inj this)
          rw [show updateFirstInTree.updateForest q
              (fun pn => pn.withChildren (pn.children.filter (fun c => c.id ≠ y)))
              (c :: rest) =
            (match updateFirstInTree c q
                (fun pn => pn.withChildren (pn.children.filter (fun c => c.id ≠ y))) with
             | (c', true) => (c' :: rest, true)
             | (_, false) =>
                 match updateFirstInTree.updateForest q
                     (fun pn => pn.withChildren (pn.children.filter (fun c => c.id ≠ y)))
                     rest with
                 | (rest', found) => (c :: rest', found)) from rfl]
          rcases hc1 : updateFirstInTree c q
            (fun pn => pn.withChildren (pn.children.filter (fun c => c.id ≠ y)))
            with ⟨c', fc⟩
          rcases fc
          · rcases hr1 : updateFirstInTree.updateForest q
              (fun pn => pn.withChildren (pn.children.filter (fun c => c.id ≠ y))) rest
              with ⟨rest', found⟩
            intro hmem
            rw [mnodesIds_cons] at hmem
            rcases List.mem_append.1 hmem with h1 | h1
            · -- c untouched: a y occurrence inside c would force q inside c,
              -- but the search reported not-found
              obtain ⟨tr, htr, hty⟩ := (mem_mnodeIds_iff c r (some i) y).1 h1
              have hpq : tr.2.2 = some q := hyq tr (by
                rw [ptagL_cons]
                exact List.mem_append.2 (Or.inl htr)) hty
              rcases ptag_parent r (some i) c tr htr with h3 | ⟨j, h3, h4⟩
              · rw [hpq] at h3
                exact hiq (Option.some.inj h3).symm
              · rw [hpq] at h3
                have hqc : q ∈ mnodeIds c := (Option.some.inj h3) ▸ h4
                have hff := (updateFirstInTree_found (sizeOf c)).1 c le_rfl q
                  (fun pn => pn.withChildren (pn.children.filter (fun c => c.id ≠ y)))
                rw [hc1] at hff
                have : (false = true) := hff.2 hqc
                cases this
            · have h2 := ih.2 rest hrest y q i r hiq hqy
                (List.nodup_append.1 hnd).2.1
                (fun tr htr hty => hyq tr (by
                  rw [ptagL_cons]
                  exact List.mem_append.2 (Or.inr htr)) hty)
              rw [hr1] at h2
              exact h2 h1
          · intro hmem
            rw [mnodesIds_cons] at hmem
            rcases List.mem_append.1 hmem with h1 | h1
            · have h2 := ih.1 c hc y q r (some i) hcy hqy
                (List.nodup_append.1 hnd).1
                (fun tr htr hty => hyq tr (by
                  rw [ptagL_cons]
                  exact List.mem_append.2 (Or.inl htr)) hty)
              rw [hc1] at h2
              exact h2 h1
            · -- found in c, so q lives in c; a y occurrence in rest would
              -- force a second q occurrence
              obtain ⟨tr, htr, hty⟩ := (mem_mnodesIds_iffL rest r (some i) y).1 h1
              have hpq : tr.2.2 = some q := hyq tr (by
                rw [ptagL_cons]
                exact List.mem_append.2 (Or.inr htr)) hty
              rcases ptagL_parent r (some i) rest tr htr with h3 | ⟨j, h3, h4⟩
              · rw [hpq] at h3
                exact hiq (Option.some.inj h3).symm
              · rw [hpq] at h3
                have hqrest : q ∈ mnodesIds rest := (Option.some.inj h3) ▸ h4
                have hff := (updateFirstInTree_found (sizeOf c)).1 c le_rfl q
                  (fun pn => pn.withChildren (pn.children.filter (fun c => c.id ≠ y)))
                rw [hc1] at hff
                have hqc : q ∈ mnodeIds c := hff.1 rfl
                exact (List.nodup_append.1 hnd).2.2 hqc hqrest


theorem ptagF_root_tag (mm : List MNode) :
    ∀ tr ∈ ptagF mm, ∃ n ∈ mm, tr.1 = n.id := by
  induction mm with
  | nil => intro tr htr; cases htr
  | cons n ns ih =>
      intro tr htr
      rw [ptagF_cons, List.mem_append] at htr
      rcases htr with h | h
      · exact ⟨n, List.mem_cons_self _ _, ptag_root n.id none n tr h⟩
      · obtain ⟨m, hm, he⟩ := ih tr h
        exact ⟨m, List.mem_cons_of_mem _ hm, he⟩

theorem updateFirstNode_ptag_sublist (mm : List MNode) (T : String) (g : MNode → MNode)
    (hgid : ∀ n, (g n).id = n.id)
    (hg : ∀ n, (ptag n.id none (g n)).Sublist (ptag n.id none n)) :
    (ptagF (updateFirstNode mm T g)).Sublist (ptagF mm) := by
  induction mm with
  | nil => exact List.Sublist.refl _
  | cons n ns ih =>
      unfold updateFirstNode
      split
      · rw [ptagF_cons, ptagF_cons]
        refine List.Sublist.append ?_ (List.Sublist.refl _)
        rw [hgid n]
        exact hg n
      · rw [ptagF_cons, ptagF_cons]
        exact List.Sublist.append_left ih _

theorem updateFirstNode_roots (mm : List MNode) (T : String) (g : MNode → MNode)
    (hgid : ∀ n, (g n).id = n.id) :
    (updateFirstNode mm T g).map MNode.id = mm.map MNode.id := by
  induction mm with
  | nil => rfl
  | cons n ns ih =>
      unfold updateFirstNode
      split
      · rw [List.map_cons, List.map_cons, hgid n]
      · rw [List.map_cons, List.map_cons, ih]

/-- Removing a top-level branch node (no parent): filtering the thread
root's children removes every `y` occurrence, provided all of them hang
directly under the unique `T` node. -/
theorem mem_mnodesIds_of_mem : ∀ {ns : List MNode} {m : MNode}, m ∈ ns →
    ∀ {x : String}, x ∈ mnodeIds m → x ∈ mnodesIds ns := by
  intro ns
  induction ns with
  | nil => intro m hm; cases hm
  | cons a rest ih =>
      intro m hm x hx
      rw [mnodesIds_cons]
      rcases List.mem_cons.1 hm with h | h
      · exact List.mem_append.2 (Or.inl (h ▸ hx))
      · exact List.mem_append.2 (Or.inr (ih h hx))

theorem removeF_effective_none (mm : List MNode) (y T : String) (hTy : ¬ T = y)
    (hnd : (mnodesIds mm).Nodup)
    (hyF : ∀ tr ∈ ptagF mm, tr.2.1 = y → tr.1 = T ∧ tr.2.2 = some T) :
    y ∉ mnodesIds (updateFirstNode mm T (fun tn =>
      tn.withChildren (tn.children.filter (fun c => c.id ≠ y)))) := by
  induction mm with
  | nil => simp [updateFirstNode, mnodesIds_nil]
  | cons n ns ih =>
      rw [mnodesIds_cons] at hnd
      unfold updateFirstNode
      split
      · rename_i hnT
        intro hmem
        rcases n with ⟨i, nm, cs⟩
        have hiT : i = T := hnT
        have hmem2 : y ∈ mnodesIds (MNode.node i nm
            (cs.filter (fun c => c.id ≠ y)) :: ns) := hmem
        rw [mnodesIds_cons, mnodeIds_node] at hmem2
        rcases List.mem_append.1 hmem2 with h1 | h1
        · rcases List.mem_cons.1 h1 with h2 | h2
          · exact hTy (hiT ▸ h2.symm)
          · obtain ⟨tr, htr, hty⟩ := (mem_mnodesIds_iffL _ i (some i) y).1 h2
            have htr0 := (ptagL_sublist (List.filter_sublist cs) i (some i)).mem htr
            have hpq0 : tr.2.2 = some T := by
              refine (hyF tr ?_ hty).2
              rw [ptagF_cons, ptag_node]
              exact List.mem_append.2 (Or.inl (List.mem_cons_of_mem _ htr0))
            have hpq : tr.2.2 = some i := by rw [hpq0, hiT]
            have hnf : i ∉ mnodesIds (cs.filter (fun c => c.id ≠ y)) := by
              intro hmm
              have hsub : (mnodesIds (cs.filter (fun c => c.id ≠ y))).Sublist
                  (mnodesIds cs) := by
                rw [← ptagL_ids i (some i), ← ptagL_ids i (some i)]
                exact (ptagL_sublist (List.filter_sublist cs) i (some i)).map _
              have hnd1 := (List.nodup_append.1 hnd).1
              rw [mnodeIds_node] at hnd1
              exact (List.nodup_cons.1 hnd1).1 (hsub.mem hmm)
            have htop := ptagL_parent_top i i _ hnf tr htr hpq
            rw [hty] at htop
            obtain ⟨c, hcmem, hcid⟩ := List.mem_map.1 htop
            have := List.of_mem_filter hcmem
            rw [hcid] at this
            simp at this
        · obtain ⟨tr, htr, hty⟩ := (mem_mnodesIds_iff ns y).1 h1
          obtain ⟨m, hmm, hmr⟩ := ptagF_root_tag ns tr htr
          have hT := (hyF tr (by
            rw [ptagF_cons]
            exact List.mem_append.2 (Or.inr htr)) hty).1
          have hmT : m.id = T := by rw [← hmr, hT]
          have h1m : T ∈ mnodesIds ns := by
            refine mem_mnodesIds_of_mem hmm ?_
            rcases m with ⟨mi, mnm, mcs⟩
            rw [mnodeIds_node]
            have hmi : mi = T := hmT
            exact hmi ▸ List.mem_cons_self _ _
          have hTl : T ∈ mnodeIds (MNode.node i nm cs) := by
            rw [mnodeIds_node]
            exact hiT ▸ List.mem_cons_self _ _
          exact (List.nodup_append.1 hnd).2.2 hTl h1m
      · rename_i hnT
        intro hmem
        rw [mnodesIds_cons] at hmem
        rcases List.mem_append.1 hmem with h1 | h1
        · obtain ⟨tr, htr, hty⟩ := (mem_mnodeIds_iff n n.id none y).1 h1
          have hT := (hyF tr (by
            rw [ptagF_cons]
            exact List.mem_append.2 (Or.inl htr)) hty).1
          have := ptag_root n.id none n tr htr
          exact hnT (by rw [← this, hT])
        · refine ih (List.nodup_append.1 hnd).2.1 (fun tr htr hty => hyF tr (by
            rw [ptagF_cons]
            exact List.mem_append.2 (Or.inr htr)) hty) h1


/-- Removing a sub-branch node (with a parent): the deep search for the
parent inside the thread's tree filters out every `y` occurrence. -/
theorem removeF_effective_some (mm : List MNode) (y T pid : String)
    (hTy : ¬ T = y) (hpy : ¬ pid = y)
    (hnd : (mnodesIds mm).Nodup)
    (hyF : ∀ tr ∈ ptagF mm, tr.2.1 = y → tr.1 = T ∧ tr.2.2 = some pid) :
    y ∉ mnodesIds (updateFirstNode mm T (fun tn =>
      (updateFirstInTree tn pid (fun pn =>
        pn.withChildren (pn.children.filter (fun c => c.id ≠ y)))).1)) := by
  induction mm with
  | nil => simp [updateFirstNode, mnodesIds_nil]
  | cons n ns ih =>
      rw [mnodesIds_cons] at hnd
      unfold updateFirstNode
      split
      · rename_i hnT
        intro hmem
        rw [mnodesIds_cons] at hmem
        rcases List.mem_append.1 hmem with h1 | h1
        · have heff := (uFIT_effective (sizeOf n)).1 n le_rfl y pid n.id none
            (fun he => hTy (by rw [← hnT, he]))
            hpy
            (List.nodup_append.1 hnd).1
            (fun tr htr hty => (hyF tr (by
              rw [ptagF_cons]
              exact List.mem_append.2 (Or.inl htr)) hty).2)
          exact heff h1
        · obtain ⟨tr, htr, hty⟩ := (mem_mnodesIds_iff ns y).1 h1
          obtain ⟨m, hmm, hmr⟩ := ptagF_root_tag ns tr htr
          have hT := (hyF tr (by
            rw [ptagF_cons]
            exact List.mem_append.2 (Or.inr htr)) hty).1
          have hmT : m.id = T := by rw [← hmr, hT]
          have h1m : T ∈ mnodesIds ns := by
            refine mem_mnodesIds_of_mem hmm ?_
            rcases m with ⟨mi, mnm, mcs⟩
            rw [mnodeIds_node]
            have hmi : mi = T := hmT
            exact hmi ▸ List.mem_cons_self _ _
          have hTl : T ∈ mnodeIds n := by
            rcases n with ⟨i, nm, cs⟩
            have hiT : i = T := hnT
            rw [mnodeIds_node]
            exact hiT ▸ List.mem_cons_self _ _
          exact (List.nodup_append.1 hnd).2.2 hTl h1m
      · rename_i hnT
        intro hmem
        rw [mnodesIds_cons] at hmem
        rcases List.mem_append.1 hmem with h1 | h1
        · obtain ⟨tr, htr, hty⟩ := (mem_mnodeIds_iff n n.id none y).1 h1
          have hT := (hyF tr (by
            rw [ptagF_cons]
            exact List.mem_append.2 (Or.inl htr)) hty).1
          have := ptag_root n.id none n tr htr
          exact hnT (by rw [← this, hT])
        · refine ih (List.nodup_append.1 hnd).2.1 (fun tr htr hty => hyF tr (by
            rw [ptagF_cons]
            exact List.mem_append.2 (Or.inr htr)) hty) h1


/-! ### C3 Part C: deletion well-formedness -/

/-- The id of the mindmap node a branch node hangs under: its parent
branch, or the thread root for a top-level branch. -/
def canonPar (b : Branch) : String :=
  match b.parent_branch with
  | some p => p
  | none => b.thread_id

/-- The parent link of a branch is recorded in the parent's `children`
list, within the same thread. -/
def parentOk (s : IState) (b : Branch) : Prop :=
  match b.parent_branch with
  | none => True
  | some p => ∃ pb ∈ s.branches, pb.id = p ∧ b.id ∈ pb.children ∧
      pb.thread_id = b.thread_id

instance (s : IState) (b : Branch) : Decidable (parentOk s b) := by
  unfold parentOk
  split <;> infer_instance

theorem parentOk_elim {s : IState} {b : Branch} (h : parentOk s b) {p : String}
    (hp : b.parent_branch = some p) :
    ∃ pb ∈ s.branches, pb.id = p ∧ b.id ∈ pb.children ∧
      pb.thread_id = b.thread_id := by
  unfold parentOk at h
  rw [hp] at h
  exact h

theorem parentOk_intro {s : IState} {b : Branch}
    (h : ∀ p, b.parent_branch = some p → ∃ pb ∈ s.branches, pb.id = p ∧
      b.id ∈ pb.children ∧ pb.thread_id = b.thread_id) : parentOk s b := by
  unfold parentOk
  split
  · trivial
  · rename_i p hp
    exact h p hp

/-- Well-formedness of a session state, as `delete_branch` needs it: the
registry is duplicate-free and topologically ordered, parent/child links
are mutually recorded, thread branch lists mirror the registry, and the
mindmap is a duplicate-free forest whose non-root nodes are exactly
placed branch nodes hanging under their canonical parent node inside
their thread's tree. -/
def DelWF (s : IState) : Prop :=
  (branchIds s).Nodup ∧
  wfP [] s.branches = true ∧
  (∀ b ∈ s.branches, ∀ c ∈ b.children,
      ∃ cb ∈ s.branches, cb.id = c ∧ cb.parent_branch = some b.id) ∧
  (∀ b ∈ s.branches, parentOk s b) ∧
  (∀ b ∈ s.branches, b.children.Nodup) ∧
  (∀ t ∈ s.threads, ∀ x ∈ t.branchIds,
      ∃ b ∈ s.branches, b.id = x ∧ b.thread_id = t.id) ∧
  (mnodesIds s.mindmap).Nodup ∧
  (∀ b ∈ s.branches, ∀ tr ∈ ptagF s.mindmap, tr.2.1 = b.id →
      tr.1 = b.thread_id ∧ tr.2.2 = some (canonPar b)) ∧
  (∀ tr ∈ ptagF s.mindmap, tr.2.2 ≠ none → tr.2.1 ∈ branchIds s) ∧
  (∀ tr ∈ ptagF s.mindmap, tr.2.2 = none → tr.2.1 ∉ branchIds s) ∧
  (∀ b ∈ s.branches, b.thread_id ∉ branchIds s)

instance (s : IState) : Decidable (DelWF s) := by
  unfold DelWF
  infer_instance

theorem records_unique : ∀ {bs : List Branch}, (bs.map Branch.id).Nodup →
    ∀ {a b : Branch}, a ∈ bs → b ∈ bs → a.id = b.id → a = b := by
  intro bs
  induction bs with
  | nil => intro _ a b ha; cases ha
  | cons c rest ih =>
      intro hn a b ha hb he
      rw [List.map_cons, List.nodup_cons] at hn
      rcases List.mem_cons.1 ha with ha1 | ha1 <;>
        rcases List.mem_cons.1 hb with hb1 | hb1
      · rw [ha1, hb1]
      · exfalso
        apply hn.1
        have he2 : c.id = b.id := by rw [← ha1]; exact he
        rw [he2]
        exact List.mem_map.2 ⟨b, hb1, rfl⟩
      · exfalso
        apply hn.1
        have he2 : c.id = a.id := by rw [← hb1]; exact he.symm
        rw [he2]
        exact List.mem_map.2 ⟨a, ha1, rfl⟩
      · exact ih hn.2 ha1 hb1 he

/-! ### C3 Part D: the finishing surgery of one `delete_branch` call -/

theorem DelWF_surgery (s1 s6 : IState) (y : String)
    (hwf : DelWF s1)
    (hch : ∀ b ∈ s1.branches, b.id = y → b.children = [])
    (FB : Branch → Branch)
    (hFid : ∀ b, (FB b).id = b.id)
    (hFpar : ∀ b, (FB b).parent_branch = b.parent_branch)
    (hFth : ∀ b, (FB b).thread_id = b.thread_id)
    (hFch : ∀ b, ∀ c ∈ (FB b).children, c ∈ b.children)
    (hFkeep : ∀ b, ∀ c ∈ b.children, ¬ c = y → c ∈ (FB b).children)
    (hFnd : ∀ b, b.children.Nodup → (FB b).children.Nodup)
    (hbr : s6.branches = (s1.branches.map FB).filter (fun b => b.id ≠ y))
    (hnoy : ∀ b ∈ s1.branches, ¬ b.id = y → y ∉ (FB b).children)
    (hth : ∀ t' ∈ s6.threads, ∃ t ∈ s1.threads, t'.id = t.id ∧
      (∀ x ∈ t'.branchIds, x ∈ t.branchIds) ∧ y ∉ t'.branchIds)
    (hmmSub : (ptagF s6.mindmap).Sublist (ptagF s1.mindmap))
    (hmmy : y ∈ branchIds s1 → y ∉ mnodesIds s6.mindmap) :
    DelWF s6 ∧ y ∉ branchIds s6 ∧
    (∀ b' ∈ s6.branches, ∃ b ∈ s1.branches, b'.id = b.id ∧
      b'.parent_branch = b.parent_branch ∧ b'.thread_id = b.thread_id ∧
      ∀ c ∈ b'.children, c ∈ b.children) := by
  obtain ⟨hW1, hW2, hW3, hW4, hW5, hW6, hW7, hW8, hW10, hW12, hW11⟩ := hwf
  have hcanF : ∀ b, canonPar (FB b) = canonPar b := by
    intro b
    unfold canonPar
    rw [hFpar]
    split
    · rfl
    · exact hFth b
  have hcorr : ∀ b', b' ∈ s6.branches ↔
      ∃ b ∈ s1.branches, b' = FB b ∧ ¬ b.id = y := by
    intro b'
    rw [hbr, List.mem_filter]
    constructor
    · rintro ⟨hmem, hpred⟩
      obtain ⟨b, hb, he⟩ := List.mem_map.1 hmem
      refine ⟨b, hb, he.symm, ?_⟩
      intro hby
      rw [← he, hFid] at hpred
      rw [hby] at hpred
      simp at hpred
    · rintro ⟨b, hb, he, hby⟩
      refine ⟨he ▸ List.mem_map.2 ⟨b, hb, rfl⟩, ?_⟩
      rw [he, hFid]
      simpa using hby
  have hids : ∀ x, x ∈ branchIds s6 ↔ x ∈ branchIds s1 ∧ ¬ x = y := by
    intro x
    constructor
    · intro hx
      obtain ⟨b', hb', he⟩ := List.mem_map.1 hx
      obtain ⟨b, hb, heq, hby⟩ := (hcorr b').1 hb'
      rw [← he, heq, hFid]
      exact ⟨List.mem_map.2 ⟨b, hb, rfl⟩, hby⟩
    · rintro ⟨hx, hxy⟩
      obtain ⟨b, hb, he⟩ := List.mem_map.1 hx
      refine List.mem_map.2 ⟨FB b, ?_, by rw [hFid, he]⟩
      exact (hcorr (FB b)).2 ⟨b, hb, rfl, by rw [he]; exact hxy⟩
  have hyno : y ∉ branchIds s6 := by
    intro hy
    exact ((hids y).1 hy).2 rfl
  have hcorr2 : ∀ b' ∈ s6.branches, ∃ b ∈ s1.branches, b'.id = b.id ∧
      b'.parent_branch = b.parent_branch ∧ b'.thread_id = b.thread_id ∧
      ∀ c ∈ b'.children, c ∈ b.children := by
    intro b' hb'
    obtain ⟨b, hb, he, _⟩ := (hcorr b').1 hb'
    exact ⟨b, hb, by rw [he, hFid], by rw [he, hFpar], by rw [he, hFth],
      fun c hc => hFch b c (he ▸ hc)⟩
  refine ⟨⟨?_, ?_, ?_, ?_, ?_, ?_, ?_, ?_, ?_, ?_, ?_⟩, hyno, hcorr2⟩
  · -- W1: duplicate-free registry
    have hsub : (branchIds s6).Sublist (branchIds s1) := by
      unfold branchIds
      rw [hbr]
      have h1 : (((s1.branches.map FB).filter (fun b => b.id ≠ y)).map
          (fun b => b.id)).Sublist ((s1.branches.map FB).map (fun b => b.id)) :=
        (List.filter_sublist _).map _
      have h2 : (s1.branches.map FB).map (fun b => b.id) =
          s1.branches.map (fun b => b.id) := by
        rw [List.map_map]
        exact List.map_congr_left (fun b _ => hFid b)
      rw [h2] at h1
      exact h1
    exact hW1.sublist hsub
  · -- W2: registry order
    by_cases hy : y ∈ branchIds s1
    · obtain ⟨by0, hby0, hbyid⟩ := List.mem_map.1 hy
      obtain ⟨l1, l2, hsplit⟩ := List.append_of_mem hby0
      have hnd := hW1
      unfold branchIds at hnd
      rw [hsplit, List.map_append, List.map_cons] at hnd
      have hl1 : ∀ b ∈ l1, ¬ b.id = y := by
        intro b hb he
        rcases List.nodup_append.1 hnd with ⟨_, _, hdisj⟩
        exact hdisj (List.mem_map.2 ⟨b, hb, he⟩)
          (hbyid ▸ List.mem_cons_self _ _)
      have hl2 : ∀ b ∈ l2, ¬ b.id = y := by
        intro b hb he
        rcases List.nodup_append.1 hnd with ⟨_, hnd2, _⟩
        rw [List.nodup_cons] at hnd2
        exact hnd2.1 (hbyid ▸ List.mem_map.2 ⟨b, hb, he⟩)
      have hbr2 : s6.branches = (l1 ++ l2).map FB := by
        rw [hbr, hsplit, List.map_append, List.map_cons, List.filter_append,
          List.filter_cons]
        have hpy : ((FB by0).id ≠ y) = False := by
          simp [hFid, hbyid]
        rw [List.map_append]
        congr 1
        · rw [List.filter_eq_self]
          intro b hb
          obtain ⟨b0, hb0, he⟩ := List.mem_map.1 hb
          rw [← he, hFid]
          simpa using hl1 b0 hb0
        · have hcond : decide ((FB by0).id ≠ y) = false := by
            simp [hFid, hbyid]
          rw [hcond]
          simp only [Bool.false_eq_true, reduceIte]
          rw [List.filter_eq_self]
          intro b hb
          obtain ⟨b0, hb0, he⟩ := List.mem_map.1 hb
          rw [← he, hFid]
          simpa using hl2 b0 hb0
      rw [hbr2, wfP_map_children _ _ FB hFid hFpar]
      refine wfP_remove l1 by0 l2 [] (hsplit ▸ hW2) ?_
      intro b hb hpar
      rw [hbyid] at hpar
      obtain ⟨pb, hpb, hpbid, hpbch, _⟩ :=
        parentOk_elim (hW4 b (hsplit ▸ List.mem_append.2
          (Or.inr (List.mem_cons_of_mem _ hb)))) hpar
      have hpbeq : pb = by0 := records_unique hW1 hpb hby0 (by rw [hpbid, hbyid])
      have := hch by0 hby0 hbyid
      rw [hpbeq, this] at hpbch
      cases hpbch
    · have hbr2 : s6.branches = s1.branches.map FB := by
        rw [hbr, List.filter_eq_self]
        intro b hb
        obtain ⟨b0, hb0, he⟩ := List.mem_map.1 hb
        rw [← he, hFid]
        simp only [ne_eq, decide_eq_true_eq]
        intro hbe
        exact hy (List.mem_map.2 ⟨b0, hb0, hbe⟩)
      rw [hbr2, wfP_map_children _ _ FB hFid hFpar]
      exact hW2
  · -- W3: children are registered with the right parent
    intro b' hb' c hc
    obtain ⟨b, hb, hbid, hbpar, hbth, hbch⟩ := hcorr2 b' hb'
    have hcy : ¬ c = y := by
      intro he
      obtain ⟨bb, hbb, heq, hbby⟩ := (hcorr b').1 hb'
      refine hnoy bb hbb hbby ?_
      rw [← heq, ← he]
      exact hc
    obtain ⟨cb, hcbm, hcbid, hcbpar⟩ := hW3 b hb c (hbch c hc)
    refine ⟨FB cb, (hcorr (FB cb)).2 ⟨cb, hcbm, rfl, by rw [hcbid]; exact hcy⟩,
      by rw [hFid, hcbid], by rw [hFpar, hcbpar, hbid]⟩
  · -- W4: parent links recorded
    intro b' hb'
    refine parentOk_intro ?_
    intro p hp
    obtain ⟨b, hb, hbid, hbpar, hbth, hbch⟩ := hcorr2 b' hb'
    rw [hbpar] at hp
    obtain ⟨pb, hpbm, hpbid, hpbch, hpbth⟩ := parentOk_elim (hW4 b hb) hp
    have hpy : ¬ p = y := by
      intro he
      have := hch pb hpbm (by rw [hpbid, he])
      rw [this] at hpbch
      cases hpbch
    have hbidy : ¬ b.id = y := by
      rw [← hbid]
      have hmem := hbr ▸ hb'
      have := List.of_mem_filter hmem
      simpa using this
    refine ⟨FB pb, (hcorr (FB pb)).2 ⟨pb, hpbm, rfl, by rw [hpbid]; exact hpy⟩,
      by rw [hFid, hpbid], ?_, by rw [hFth, hpbth, hbth]⟩
    rw [hbid]
    exact hFkeep pb b.id hpbch hbidy
  · -- W5: children duplicate-free
    intro b' hb'
    obtain ⟨b, hb, heq, _⟩ := (hcorr b').1 hb'
    rw [heq]
    exact hFnd b (hW5 b hb)
  · -- W6: thread lists mirror the registry
    intro t' ht' x hx
    obtain ⟨t, ht, htid, hsub, hy⟩ := hth t' ht'
    obtain ⟨b, hb, hbid, hbth⟩ := hW6 t ht x (hsub x hx)
    have hxy : ¬ x = y := fun he => hy (he ▸ hx)
    exact ⟨FB b, (hcorr (FB b)).2 ⟨b, hb, rfl, by rw [hbid]; exact hxy⟩,
      by rw [hFid, hbid], by rw [hFth, hbth, htid]⟩
  · -- W7: mindmap ids duplicate-free
    have h1 : (mnodesIds s6.mindmap).Sublist (mnodesIds s1.mindmap) := by
      rw [← ptagF_ids, ← ptagF_ids]
      exact hmmSub.map _
    exact hW7.sublist h1
  · -- W8: placement of branch nodes
    intro b' hb' tr htr hid
    obtain ⟨bb, hbb, heq, hbby⟩ := (hcorr b').1 hb'
    have hid2 : tr.2.1 = bb.id := by rw [hid, heq, hFid]
    have h8 := hW8 bb hbb tr (hmmSub.mem htr) hid2
    refine ⟨?_, ?_⟩
    · rw [heq, hFth]
      exact h8.1
    · rw [h8.2, heq, hcanF]
  · -- W10: non-root mindmap nodes are registered branches
    intro tr htr hne
    have h1 := hW10 tr (hmmSub.mem htr) hne
    refine (hids tr.2.1).2 ⟨h1, ?_⟩
    intro he
    by_cases hy : y ∈ branchIds s1
    · refine hmmy hy ?_
      rw [← he]
      rw [← ptagF_ids, List.mem_map]
      exact ⟨tr, htr, rfl⟩
    · exact hy (he ▸ h1)
  · -- W12: root ids are not branches
    intro tr htr hre
    have h1 := hW12 tr (hmmSub.mem htr) hre
    intro h2
    exact h1 ((hids tr.2.1).1 h2).1
  · -- W11: thread ids are not branch ids
    intro b' hb'
    obtain ⟨b, hb, hbid, hbpar, hbth, _⟩ := hcorr2 b' hb'
    rw [hbth]
    intro h2
    exact hW11 b hb ((hids b.thread_id).1 h2).1


/-! ### C3 Part E: the master induction over `delete_branch` -/

theorem lookupBranch_some_mem {s : IState} {y : String} {br : Branch}
    (h : lookupBranch s y = some br) : br ∈ s.branches ∧ br.id = y := by
  have h' : s.branches.find? (fun b => b.id = y) = some br := h
  refine ⟨List.mem_of_find?_eq_some h', ?_⟩
  have := List.find?_some h'
  simpa using this

theorem lookupBranch_none_iff {s : IState} {y : String} :
    lookupBranch s y = none ↔ y ∉ branchIds s := by
  unfold lookupBranch
  rw [List.find?_eq_none]
  constructor
  · intro h hy
    obtain ⟨b, hb, he⟩ := List.mem_map.1 hy
    exact absurd (by simpa using he) (by simpa using h b hb)
  · intro h b hb
    simp only [decide_eq_true_eq]
    intro he
    exact h (List.mem_map.2 ⟨b, hb, he⟩)

theorem mem_lookupBranch_isSome {s : IState} {y : String} (h : y ∈ branchIds s) :
    ∃ br, lookupBranch s y = some br := by
  rcases hl : lookupBranch s y with _ | br
  · exact absurd h (lookupBranch_none_iff.1 hl)
  · exact ⟨br, rfl⟩

/-- The registry edit `deleteDetachParent` performs when the parent is
present. -/
def eraseChildAt (pid y : String) (b : Branch) : Branch :=
  if b.id = pid then { b with children := b.children.erase y } else b

theorem eraseChildAt_id (pid y : String) (b : Branch) :
    (eraseChildAt pid y b).id = b.id := by
  unfold eraseChildAt
  split <;> rfl

theorem eraseChildAt_parent (pid y : String) (b : Branch) :
    (eraseChildAt pid y b).parent_branch = b.parent_branch := by
  unfold eraseChildAt
  split <;> rfl

theorem eraseChildAt_thread (pid y : String) (b : Branch) :
    (eraseChildAt pid y b).thread_id = b.thread_id := by
  unfold eraseChildAt
  split <;> rfl

theorem eraseChildAt_children_sub (pid y : String) (b : Branch) :
    ∀ c ∈ (eraseChildAt pid y b).children, c ∈ b.children := by
  unfold eraseChildAt
  split
  · intro c hc
    exact (b.children.erase_sublist y).mem hc
  · intro c hc
    exact hc

theorem eraseChildAt_keep (pid y : String) (b : Branch) :
    ∀ c ∈ b.children, ¬ c = y → c ∈ (eraseChildAt pid y b).children := by
  unfold eraseChildAt
  split
  · intro c hc hcy
    exact (List.mem_erase_of_ne hcy).2 hc
  · intro c hc _
    exact hc

theorem eraseChildAt_nodup (pid y : String) (b : Branch) :
    b.children.Nodup → (eraseChildAt pid y b).children.Nodup := by
  unfold eraseChildAt
  split
  · intro h
    exact h.erase y
  · intro h
    exact h

theorem branches_detachThread (s : IState) (br : Branch) (bid : String) :
    (deleteDetachThread s br bid).branches = s.branches := by
  unfold deleteDetachThread
  split <;> rfl

theorem branches_removeMindmap (s : IState) (bid : String) :
    (remove_branch_from_mindmap s bid).branches = s.branches := by
  unfold remove_branch_from_mindmap
  split <;> rfl

theorem branches_clearActive (s : IState) (bid : String) :
    (deleteClearActive s bid).branches = s.branches := by
  unfold deleteClearActive
  split <;> rfl

theorem branches_erase (s : IState) (bid : String) :
    (eraseBranch s bid).branches = s.branches.filter (fun b => b.id ≠ bid) := rfl

theorem threads_detachParent (s : IState) (br : Branch) (bid : String) :
    (deleteDetachParent s br bid).threads = s.threads := by
  unfold deleteDetachParent
  split
  · split <;> rfl
  · rfl

theorem threads_removeMindmap (s : IState) (bid : String) :
    (remove_branch_from_mindmap s bid).threads = s.threads := by
  unfold remove_branch_from_mindmap
  split <;> rfl

theorem threads_erase (s : IState) (bid : String) :
    (eraseBranch s bid).threads = s.threads := rfl

theorem threads_clearActive (s : IState) (bid : String) :
    (deleteClearActive s bid).threads = s.threads := by
  unfold deleteClearActive
  split <;> rfl

theorem mindmap_detachParent (s : IState) (br : Branch) (bid : String) :
    (deleteDetachParent s br bid).mindmap = s.mindmap := by
  unfold deleteDetachParent
  split
  · split <;> rfl
  · rfl

theorem mindmap_detachThread (s : IState) (br : Branch) (bid : String) :
    (deleteDetachThread s br bid).mindmap = s.mindmap := by
  unfold deleteDetachThread
  split <;> rfl

theorem mindmap_erase (s : IState) (bid : String) :
    (eraseBranch s bid).mindmap = s.mindmap := rfl

theorem mindmap_clearActive (s : IState) (bid : String) :
    (deleteClearActive s bid).mindmap = s.mindmap := by
  unfold deleteClearActive
  split <;> rfl

theorem branches_detachParent_some {s : IState} {br : Branch} (bid : String)
    {pid : String} (hp : br.parent_branch = some pid) {pb : Branch}
    (hl : lookupBranch s pid = some pb) :
    (deleteDetachParent s br bid).branches =
      s.branches.map (eraseChildAt pid bid) := by
  unfold deleteDetachParent
  rw [hp]
  dsimp only
  rw [hl]
  unfold updateBranch eraseChildAt
  rfl

theorem branches_detachParent_none_parent {s : IState} {br : Branch} (bid : String)
    (hp : br.parent_branch = none) :
    (deleteDetachParent s br bid).branches = s.branches := by
  unfold deleteDetachParent
  rw [hp]

theorem branches_detachParent_no_pb {s : IState} {br : Branch} (bid : String)
    {pid : String} (hp : br.parent_branch = some pid)
    (hl : lookupBranch s pid = none) :
    (deleteDetachParent s br bid).branches = s.branches := by
  unfold deleteDetachParent
  rw [hp]
  dsimp only
  rw [hl]


theorem threads_detachThread_some {s : IState} {br : Branch} (bid : String)
    {t0 : Thread} (hl : lookupThread s br.thread_id = some t0) :
    (deleteDetachThread s br bid).threads = s.threads.map (fun t =>
      if t.id = br.thread_id then
        { t with branchIds := t.branchIds.filter (fun x => x ≠ bid) } else t) := by
  unfold deleteDetachThread
  rw [hl]
  unfold updateThread
  rfl

theorem threads_detachThread_none {s : IState} {br : Branch} (bid : String)
    (hl : lookupThread s br.thread_id = none) :
    (deleteDetachThread s br bid).threads = s.threads := by
  unfold deleteDetachThread
  rw [hl]

theorem lookupThread_none {s : IState} {tid : String}
    (hl : lookupThread s tid = none) : ∀ t ∈ s.threads, ¬ t.id = tid := by
  have h' : s.threads.find? (fun t => t.id = tid) = none := hl
  rw [List.find?_eq_none] at h'
  intro t ht
  simpa using h' t ht

theorem mindmap_remove_none {s : IState} {bid : String}
    (hl : lookupBranch s bid = none) :
    (remove_branch_from_mindmap s bid).mindmap = s.mindmap := by
  unfold remove_branch_from_mindmap
  rw [hl]

theorem mindmap_remove_some {s : IState} {bid : String} {br3 : Branch}
    (hl : lookupBranch s bid = some br3) :
    (remove_branch_from_mindmap s bid).mindmap =
      updateFirstNode s.mindmap br3.thread_id (fun tn =>
        match br3.parent_branch with
        | some pid => (updateFirstInTree tn pid (fun pn =>
            pn.withChildren (pn.children.filter (fun c => c.id ≠ bid)))).1
        | none => tn.withChildren (tn.children.filter (fun c => c.id ≠ bid))) := by
  unfold remove_branch_from_mindmap
  rw [hl]

theorem foldl_delete_ids_sublist (fuel : Nat) : ∀ (cs : List String) (st : IState),
    (branchIds (cs.foldl (fun st c => delete_branch fuel st c) st)).Sublist
      (branchIds st) := by
  intro cs
  induction cs with
  | nil => intro st; exact List.Sublist.refl _
  | cons c rest ihc =>
      intro st
      rw [List.foldl_cons]
      exact (ihc _).trans (delete_branch_ids_sublist fuel st c)

theorem map_id_branch (l : List Branch) : l.map (fun b => b) = l := by
  induction l with
  | nil => rfl
  | cons a rest ih => rw [List.map_cons, ih]


theorem delete_finish_core (s1 s6 : IState) (y : String) (br : Branch)
    (hs6 : s6 = deleteClearActive (eraseBranch (remove_branch_from_mindmap
        (deleteDetachThread (deleteDetachParent s1 br y) br y) y) y) y)
    (hwf1 : DelWF s1)
    (hch : ∀ b ∈ s1.branches, b.id = y → b.children = [])
    (hyrec : ∀ b1 ∈ s1.branches, b1.id = y → b1.thread_id = br.thread_id)
    (FB : Branch → Branch)
    (hFid : ∀ b, (FB b).id = b.id)
    (hFpar : ∀ b, (FB b).parent_branch = b.parent_branch)
    (hFth : ∀ b, (FB b).thread_id = b.thread_id)
    (hFch : ∀ b, ∀ c ∈ (FB b).children, c ∈ b.children)
    (hFkeep : ∀ b, ∀ c ∈ b.children, ¬ c = y → c ∈ (FB b).children)
    (hFnd : ∀ b, b.children.Nodup → (FB b).children.Nodup)
    (hdpEq : (deleteDetachParent s1 br y).branches = s1.branches.map FB)
    (hnoyF : ∀ b ∈ s1.branches, ¬ b.id = y → y ∉ (FB b).children) :
    DelWF s6 ∧ y ∉ branchIds s6 ∧
    (∀ b' ∈ s6.branches, ∃ b ∈ s1.branches, b'.id = b.id ∧
      b'.parent_branch = b.parent_branch ∧ b'.thread_id = b.thread_id ∧
      ∀ c ∈ b'.children, c ∈ b.children) ∧
    s6.mindmap.map MNode.id = s1.mindmap.map MNode.id := by
  have hwfK := hwf1
  obtain ⟨hW1, hW2, hW3, hW4, hW5, hW6, hW7, hW8, hW10, hW12, hW11⟩ := hwfK
  have hW1e : (s1.branches.map Branch.id).Nodup := hW1
  have hb6 : s6.branches = (s1.branches.map FB).filter (fun b => b.id ≠ y) := by
    rw [hs6, branches_clearActive, branches_erase, branches_removeMindmap,
      branches_detachThread, hdpEq]
  have ht2 : (deleteDetachParent s1 br y).threads = s1.threads :=
    threads_detachParent _ _ _
  have ht6 : s6.threads =
      (deleteDetachThread (deleteDetachParent s1 br y) br y).threads := by
    rw [hs6, threads_clearActive, threads_erase, threads_removeMindmap]
  have hm6 : s6.mindmap = (remove_branch_from_mindmap
      (deleteDetachThread (deleteDetachParent s1 br y) br y) y).mindmap := by
    rw [hs6, mindmap_clearActive, mindmap_erase]
  have hm3 : (deleteDetachThread (deleteDetachParent s1 br y) br y).mindmap =
      s1.mindmap := by
    rw [mindmap_detachThread, mindmap_detachParent]
  have hbr3s : (deleteDetachThread (deleteDetachParent s1 br y) br y).branches =
      s1.branches.map FB := by
    rw [branches_detachThread, hdpEq]
  have hyth : ∀ t ∈ s1.threads, y ∈ t.branchIds → t.id = br.thread_id := by
    intro t ht hy
    obtain ⟨b1, hb1, hb1id, hb1th⟩ := hW6 t ht y hy
    rw [← hb1th]
    exact hyrec b1 hb1 hb1id
  have hthH : ∀ t' ∈ s6.threads, ∃ t ∈ s1.threads, t'.id = t.id ∧
      (∀ x ∈ t'.branchIds, x ∈ t.branchIds) ∧ y ∉ t'.branchIds := by
    rcases hlt : lookupThread (deleteDetachParent s1 br y) br.thread_id
      with _ | t0
    · have he : s6.threads = s1.threads := by
        rw [ht6, threads_detachThread_none y hlt, ht2]
      have hnone := lookupThread_none hlt
      rw [ht2] at hnone
      intro t' ht'
      rw [he] at ht'
      refine ⟨t', ht', rfl, fun x hx => hx, ?_⟩
      intro hy
      exact hnone t' ht' (hyth t' ht' hy)
    · have he : s6.threads = s1.threads.map (fun t =>
          if t.id = br.thread_id then
            { t with branchIds := t.branchIds.filter (fun x => x ≠ y) }
          else t) := by
        rw [ht6, threads_detachThread_some y hlt, ht2]
      intro t' ht'
      rw [he] at ht'
      obtain ⟨t, ht, hteq⟩ := List.mem_map.1 ht'
      refine ⟨t, ht, ?_, ?_, ?_⟩
      · rw [← hteq]
        split <;> rfl
      · rw [← hteq]
        split
        · intro x hx
          exact (List.mem_filter.1 hx).1
        · intro x hx
          exact hx
      · rw [← hteq]
        split
        · intro hy
          have := (List.mem_filter.1 hy).2
          simp at this
        · rename_i hne
          intro hy
          exact hne (hyth t ht hy)
  have hgid : ∀ (br3 : Branch) (n : MNode),
      ((fun tn => match br3.parent_branch with
        | some pid => (updateFirstInTree tn pid (fun pn =>
            pn.withChildren (pn.children.filter (fun c => c.id ≠ y)))).1
        | none => tn.withChildren (tn.children.filter (fun c => c.id ≠ y))) n).id
        = n.id := by
    intro br3 n
    rcases br3.parent_branch with _ | pid
    · exact withChildren_id _ _
    · exact updateFirstInTree_id _ _ _ (fun m => withChildren_id _ _)
  have hgsub : ∀ (br3 : Branch) (n : MNode),
      (ptag n.id none ((fun tn => match br3.parent_branch with
        | some pid => (updateFirstInTree tn pid (fun pn =>
            pn.withChildren (pn.children.filter (fun c => c.id ≠ y)))).1
        | none => tn.withChildren (tn.children.filter (fun c => c.id ≠ y))) n)).Sublist
        (ptag n.id none n) := by
    intro br3 n
    rcases br3.parent_branch with _ | pid
    · exact ptag_filter_sublist _ _ _ _
    · exact (updateFirstInTree_sublist (sizeOf n)).1 n le_rfl pid _
        (fun r po m => ptag_filter_sublist r po m _) n.id none
  have hmmSub : (ptagF s6.mindmap).Sublist (ptagF s1.mindmap) := by
    rcases hly : lookupBranch
        (deleteDetachThread (deleteDetachParent s1 br y) br y) y with _ | br3
    · rw [hm6, mindmap_remove_none hly, hm3]
    · rw [hm6, mindmap_remove_some hly, hm3]
      exact updateFirstNode_ptag_sublist _ _ _ (hgid br3) (hgsub br3)
  have hroots6 : s6.mindmap.map MNode.id = s1.mindmap.map MNode.id := by
    rcases hly : lookupBranch
        (deleteDetachThread (deleteDetachParent s1 br y) br y) y with _ | br3
    · rw [hm6, mindmap_remove_none hly, hm3]
    · rw [hm6, mindmap_remove_some hly, hm3]
      exact updateFirstNode_roots _ _ _ (hgid br3)
  have hmmyH : y ∈ branchIds s1 → y ∉ mnodesIds s6.mindmap := by
    intro hy1
    rcases hly : lookupBranch
        (deleteDetachThread (deleteDetachParent s1 br y) br y) y with _ | br3
    · exfalso
      have hmem3 : y ∈ branchIds
          (deleteDetachThread (deleteDetachParent s1 br y) br y) := by
        rw [branchIds_detachThread, branchIds_detachParent]
        exact hy1
      obtain ⟨br0, h0⟩ := mem_lookupBranch_isSome hmem3
      rw [hly] at h0
      cases h0
    · obtain ⟨hbr3mem, hbr3id⟩ := lookupBranch_some_mem hly
      rw [hbr3s] at hbr3mem
      obtain ⟨b1, hb1, hFb1⟩ := List.mem_map.1 hbr3mem
      have hb1id : b1.id = y := by rw [← hFid b1, hFb1, hbr3id]
      have hb1th : br3.thread_id = b1.thread_id := by rw [← hFb1, hFth]
      have hb1par : br3.parent_branch = b1.parent_branch := by rw [← hFb1, hFpar]
      have hTy : ¬ br3.thread_id = y := by
        rw [hb1th]
        intro he
        exact hW11 b1 hb1 (he ▸ hy1)
      have hyF : ∀ tr ∈ ptagF s1.mindmap, tr.2.1 = y →
          tr.1 = br3.thread_id ∧ tr.2.2 = some (canonPar b1) := by
        intro tr htr hty
        have h8 := hW8 b1 hb1 tr htr (by rw [hty, hb1id])
        exact ⟨by rw [hb1th]; exact h8.1, h8.2⟩
      rw [hm6, mindmap_remove_some hly, hm3]
      rcases hp3 : br3.parent_branch with _ | pid3
      · have hb1parn : b1.parent_branch = none := by rw [← hb1par, hp3]
        have hcan : canonPar b1 = br3.thread_id := by
          unfold canonPar
          rw [hb1parn]
          exact hb1th.symm
        refine removeF_effective_none s1.mindmap y br3.thread_id hTy hW7 ?_
        intro tr htr hty
        have h8 := hyF tr htr hty
        exact ⟨h8.1, by rw [h8.2, hcan]⟩
      · have hb1pars : b1.parent_branch = some pid3 := by rw [← hb1par, hp3]
        have hcan : canonPar b1 = pid3 := by
          unfold canonPar
          rw [hb1pars]
        have hpy : ¬ pid3 = y := by
          intro he
          have hlt2 := sfx_parent_lt s1.branches hW2 hW1e b1 hb1 pid3 hb1pars
          rw [hb1id, he] at hlt2
          omega
        refine removeF_effective_some s1.mindmap y br3.thread_id pid3 hTy hpy hW7 ?_
        intro tr htr hty
        have h8 := hyF tr htr hty
        exact ⟨h8.1, by rw [h8.2, hcan]⟩
  obtain ⟨hwf6, hyno6, hcorr6⟩ := DelWF_surgery s1 s6 y hwf1 hch FB hFid hFpar
    hFth hFch hFkeep hFnd hb6 hnoyF hthH hmmSub hmmyH
  exact ⟨hwf6, hyno6, hcorr6, hroots6⟩


theorem delete_branch_master : ∀ (fuel : Nat) (s : IState) (y : String),
    DelWF s → sfxLen (branchIds s) y ≤ fuel →
    DelWF (delete_branch fuel s y) ∧
    y ∉ branchIds (delete_branch fuel s y) ∧
    (∀ b' ∈ (delete_branch fuel s y).branches, ∃ b ∈ s.branches,
      b'.id = b.id ∧ b'.parent_branch = b.parent_branch ∧
      b'.thread_id = b.thread_id ∧ ∀ c ∈ b'.children, c ∈ b.children) ∧
    (delete_branch fuel s y).mindmap.map MNode.id = s.mindmap.map MNode.id := by
  intro fuel
  induction fuel with
  | zero =>
      intro s y hwf hf
      have hy : y ∉ branchIds s := by
        intro hm
        have := sfxLen_pos_of_mem hm
        omega
      exact ⟨hwf, hy, fun b' hb' => ⟨b', hb', rfl, rfl, rfl, fun c hc => hc⟩, rfl⟩
  | succ fuel ih =>
      intro s y hwfS hf
      rcases hlook : lookupBranch s y with _ | br
      · have hy : y ∉ branchIds s := lookupBranch_none_iff.1 hlook
        have hres : delete_branch (fuel + 1) s y = s := by
          unfold delete_branch
          rw [hlook]
        rw [hres]
        exact ⟨hwfS, hy, fun b' hb' => ⟨b', hb', rfl, rfl, rfl, fun c hc => hc⟩, rfl⟩
      · obtain ⟨hbrmem, hbrid⟩ := lookupBranch_some_mem hlook
        have hwfC := hwfS
        obtain ⟨hW1, hW2, hW3, hW4, hW5, hW6, hW7, hW8, hW10, hW12, hW11⟩ := hwfC
        have hW1e : (s.branches.map Branch.id).Nodup := hW1
        have he1 : s.branches.map Branch.id = branchIds s := rfl
        have hbounds : ∀ c ∈ br.children, sfxLen (branchIds s) c ≤ fuel := by
          intro c hc
          by_cases hcm : c ∈ branchIds s
          · obtain ⟨cb, hcbm, hcbid, hcbp⟩ := hW3 br hbrmem c hc
            have hp2 : cb.parent_branch = some y := by rw [hcbp, hbrid]
            have hlt2 := sfx_parent_lt s.branches hW2 hW1e cb hcbm y hp2
            rw [he1] at hlt2
            have hfy : sfxLen (branchIds s) y ≤ fuel + 1 := hf
            rw [← hcbid]
            omega
          · rw [sfxLen_of_not_mem hcm]
            omega
        have hfold : ∀ (cs : List String),
            (∀ c ∈ cs, sfxLen (branchIds s) c ≤ fuel) →
            ∀ (st : IState), DelWF st → (branchIds st).Sublist (branchIds s) →
            (∀ b' ∈ st.branches, ∃ b ∈ s.branches, b'.id = b.id ∧
              b'.parent_branch = b.parent_branch ∧ b'.thread_id = b.thread_id ∧
              ∀ c ∈ b'.children, c ∈ b.children) →
            st.mindmap.map MNode.id = s.mindmap.map MNode.id →
            DelWF (cs.foldl (fun st c => delete_branch fuel st c) st) ∧
            (∀ c ∈ cs,
              c ∉ branchIds (cs.foldl (fun st c => delete_branch fuel st c) st)) ∧
            (branchIds (cs.foldl (fun st c => delete_branch fuel st c) st)).Sublist
              (branchIds s) ∧
            (∀ b' ∈ (cs.foldl (fun st c => delete_branch fuel st c) st).branches,
              ∃ b ∈ s.branches, b'.id = b.id ∧ b'.parent_branch = b.parent_branch ∧
                b'.thread_id = b.thread_id ∧ ∀ c ∈ b'.children, c ∈ b.children) ∧
            (cs.foldl (fun st c => delete_branch fuel st c) st).mindmap.map MNode.id =
              s.mindmap.map MNode.id := by
          intro cs
          induction cs with
          | nil =>
              intro _ st h1 h2 h3 h4
              exact ⟨h1, fun c hc => absurd hc (List.not_mem_nil c), h2, h3, h4⟩
          | cons c rest ihc =>
              intro hbnd st h1 h2 h3 h4
              rw [List.foldl_cons]
              have hcb : sfxLen (branchIds st) c ≤ fuel := by
                by_cases hmem : c ∈ branchIds st
                · exact le_trans (sfxLen_sublist_mono h2 hmem)
                    (hbnd c (List.mem_cons_self _ _))
                · rw [sfxLen_of_not_mem hmem]
                  omega
              obtain ⟨hwf2, hcno, hcorr2, hroots2⟩ := ih st c h1 hcb
              have hsub2 : (branchIds (delete_branch fuel st c)).Sublist
                  (branchIds s) :=
                (delete_branch_ids_sublist fuel st c).trans h2
              have hcorr3 : ∀ b' ∈ (delete_branch fuel st c).branches,
                  ∃ b ∈ s.branches, b'.id = b.id ∧
                    b'.parent_branch = b.parent_branch ∧
                    b'.thread_id = b.thread_id ∧
                    ∀ cc ∈ b'.children, cc ∈ b.children := by
                intro b' hb'
                obtain ⟨bm, hbm, e1, e2, e3, e4⟩ := hcorr2 b' hb'
                obtain ⟨b0, hb0, f1, f2, f3, f4⟩ := h3 bm hbm
                exact ⟨b0, hb0, e1.trans f1, e2.trans f2, e3.trans f3,
                  fun cc hcc => f4 cc (e4 cc hcc)⟩
              have hroots3 : (delete_branch fuel st c).mindmap.map MNode.id =
                  s.mindmap.map MNode.id := hroots2.trans h4
              obtain ⟨hA, hB, hC, hD, hE⟩ := ihc
                (fun c' hc' => hbnd c' (List.mem_cons_of_mem _ hc'))
                _ hwf2 hsub2 hcorr3 hroots3
              refine ⟨hA, ?_, hC, hD, hE⟩
              intro c' hc'
              rcases List.mem_cons.1 hc' with h5 | h5
              · subst h5
                intro hcmem
                exact hcno ((foldl_delete_ids_sublist fuel rest _).mem hcmem)
              · exact hB c' h5
        obtain ⟨hwf1, habs, hsub1, hcorr1, hroots1⟩ := hfold br.children hbounds s
          hwfS (List.Sublist.refl _)
          (fun b' hb' => ⟨b', hb', rfl, rfl, rfl, fun c hc => hc⟩) rfl
        have hwf1K := hwf1
        obtain ⟨hV1, hV2, hV3, hV4, hV5, hV6, hV7, hV8, hV10, hV12, hV11⟩ := hwf1
        have hch1 : ∀ b1 ∈ (br.children.foldl
            (fun st c => delete_branch fuel st c) s).branches,
            b1.id = y → b1.children = [] := by
          intro b1 hb1 hb1y
          obtain ⟨b0, hb0, e1, e2, e3, e4⟩ := hcorr1 b1 hb1
          have hb0br : b0 = br := records_unique hW1e hb0 hbrmem
            (by rw [← e1, hb1y, hbrid])
          rw [List.eq_nil_iff_forall_not_mem]
          intro c hc
          have hcbr : c ∈ br.children := by
            rw [← hb0br]
            exact e4 c hc
          obtain ⟨cb, hcbm, hcbid, _⟩ := hV3 b1 hb1 c hc
          exact habs c hcbr (by rw [← hcbid]; exact List.mem_map.2 ⟨cb, hcbm, rfl⟩)
        have hyrec1 : ∀ b1 ∈ (br.children.foldl
            (fun st c => delete_branch fuel st c) s).branches,
            b1.id = y → b1.thread_id = br.thread_id := by
          intro b1 hb1 he
          obtain ⟨b0, hb0, e1, e2, e3, e4⟩ := hcorr1 b1 hb1
          have hb0br : b0 = br := records_unique hW1e hb0 hbrmem
            (by rw [← e1, he, hbrid])
          rw [e3, hb0br]
        have hres : delete_branch (fuel + 1) s y =
            deleteClearActive (eraseBranch (remove_branch_from_mindmap
              (deleteDetachThread (deleteDetachParent
                (br.children.foldl (fun st c => delete_branch fuel st c) s) br y)
                br y) y) y) y := by
          conv_lhs => unfold delete_branch
          rw [hlook]
        have hpack : ∀ s6 : IState,
            DelWF s6 → y ∉ branchIds s6 →
            (∀ b' ∈ s6.branches, ∃ b ∈ (br.children.foldl
              (fun st c => delete_branch fuel st c) s).branches, b'.id = b.id ∧
              b'.parent_branch = b.parent_branch ∧ b'.thread_id = b.thread_id ∧
              ∀ c ∈ b'.children, c ∈ b.children) →
            s6.mindmap.map MNode.id = (br.children.foldl
              (fun st c => delete_branch fuel st c) s).mindmap.map MNode.id →
            DelWF s6 ∧ y ∉ branchIds s6 ∧
            (∀ b' ∈ s6.branches, ∃ b ∈ s.branches, b'.id = b.id ∧
              b'.parent_branch = b.parent_branch ∧ b'.thread_id = b.thread_id ∧
              ∀ c ∈ b'.children, c ∈ b.children) ∧
            s6.mindmap.map MNode.id = s.mindmap.map MNode.id := by
          intro s6 a1 a2 a3 a4
          refine ⟨a1, a2, ?_, a4.trans hroots1⟩
          intro b' hb'
          obtain ⟨bm, hbm, e1, e2, e3, e4⟩ := a3 b' hb'
          obtain ⟨b0, hb0, f1, f2, f3, f4⟩ := hcorr1 bm hbm
          exact ⟨b0, hb0, e1.trans f1, e2.trans f2, e3.trans f3,
            fun cc hcc => f4 cc (e4 cc hcc)⟩
        rw [hres]
        rcases hpar : br.parent_branch with _ | pid
        · obtain ⟨a1, a2, a3, a4⟩ := delete_finish_core _ _ y br rfl hwf1K hch1
            hyrec1 (fun b => b) (fun b => rfl) (fun b => rfl) (fun b => rfl)
            (fun b c hc => hc) (fun b c hc _ => hc) (fun b h => h)
            (by rw [branches_detachParent_none_parent y hpar, map_id_branch])
            (by
              intro b hb hby hymem
              obtain ⟨yr, hyrm, hyrid, hyrpar⟩ := hV3 b hb y hymem
              obtain ⟨b0, hb0, e1, e2, e3, e4⟩ := hcorr1 yr hyrm
              have hb0br : b0 = br := records_unique hW1e hb0 hbrmem
                (by rw [← e1, hyrid, hbrid])
              rw [e2, hb0br, hpar] at hyrpar
              cases hyrpar)
          exact hpack _ a1 a2 a3 a4
        · rcases hlp : lookupBranch (br.children.foldl
              (fun st c => delete_branch fuel st c) s) pid with _ | pb
          · obtain ⟨a1, a2, a3, a4⟩ := delete_finish_core _ _ y br rfl hwf1K hch1
              hyrec1 (fun b => b) (fun b => rfl) (fun b => rfl) (fun b => rfl)
              (fun b c hc => hc) (fun b c hc _ => hc) (fun b h => h)
              (by rw [branches_detachParent_no_pb y hpar hlp, map_id_branch])
              (by
                intro b hb hby hymem
                obtain ⟨yr, hyrm, hyrid, hyrpar⟩ := hV3 b hb y hymem
                obtain ⟨b0, hb0, e1, e2, e3, e4⟩ := hcorr1 yr hyrm
                have hb0br : b0 = br := records_unique hW1e hb0 hbrmem
                  (by rw [← e1, hyrid, hbrid])
                rw [e2, hb0br, hpar] at hyrpar
                have hbpid : b.id = pid := (Option.some.inj hyrpar).symm
                have hmem2 : pid ∈ branchIds (br.children.foldl
                    (fun st c => delete_branch fuel st c) s) := by
                  rw [← hbpid]
                  exact List.mem_map.2 ⟨b, hb, rfl⟩
                obtain ⟨pb0, hp0⟩ := mem_lookupBranch_isSome hmem2
                rw [hlp] at hp0
                cases hp0)
            exact hpack _ a1 a2 a3 a4
          · obtain ⟨a1, a2, a3, a4⟩ := delete_finish_core _ _ y br rfl hwf1K hch1
              hyrec1 (eraseChildAt pid y) (eraseChildAt_id pid y)
              (eraseChildAt_parent pid y) (eraseChildAt_thread pid y)
              (eraseChildAt_children_sub pid y) (eraseChildAt_keep pid y)
              (eraseChildAt_nodup pid y)
              (branches_detachParent_some y hpar hlp)
              (by
                intro b hb hby
                unfold eraseChildAt
                split
                · intro hymem
                  exact ((List.Nodup.mem_erase_iff (hV5 b hb)).1 hymem).1 rfl
                · rename_i hbpid
                  intro hymem
                  obtain ⟨yr, hyrm, hyrid, hyrpar⟩ := hV3 b hb y hymem
                  obtain ⟨b0, hb0, e1, e2, e3, e4⟩ := hcorr1 yr hyrm
                  have hb0br : b0 = br := records_unique hW1e hb0 hbrmem
                    (by rw [← e1, hyrid, hbrid])
                  rw [e2, hb0br, hpar] at hyrpar
                  exact hbpid (Option.some.inj hyrpar).symm)
            exact hpack _ a1 a2 a3 a4


/-! ### C3 Part F: the cascade statement -/

/-- Descendants of a branch along `children` edges (reflexive). -/
inductive Reach (s : IState) (x : String) : String → Prop
  | refl : Reach s x x
  | step {p c : String} : Reach s x p →
      (∃ b ∈ s.branches, b.id = p ∧ c ∈ b.children) → Reach s x c

theorem Reach_mem {s : IState} {x : String} (hx : x ∈ branchIds s)
    (hW3 : ∀ b ∈ s.branches, ∀ c ∈ b.children,
      ∃ cb ∈ s.branches, cb.id = c ∧ cb.parent_branch = some b.id) :
    ∀ {y : String}, Reach s x y → y ∈ branchIds s := by
  intro y hr
  induction hr with
  | refl => exact hx
  | step h1 h2 ihh =>
      obtain ⟨bp, hbp, hbpid, hcmem⟩ := h2
      obtain ⟨cb, hcbm, hcbid, _⟩ := hW3 bp hbp _ hcmem
      rw [← hcbid]
      exact List.mem_map.2 ⟨cb, hcbm, rfl⟩

theorem ptagF_none_root (mm : List MNode) :
    ∀ tr ∈ ptagF mm, tr.2.2 = none → tr.2.1 ∈ mm.map MNode.id := by
  induction mm with
  | nil => intro tr htr; cases htr
  | cons n ns ih =>
      intro tr htr hnone
      rw [ptagF_cons, List.mem_append] at htr
      rcases htr with h1 | h1
      · rcases n with ⟨i, nm, cs⟩
        rw [ptag_node] at h1
        rcases List.mem_cons.1 h1 with h2 | h2
        · rw [h2, List.map_cons]
          exact List.mem_cons_self _ _
        · exfalso
          rcases ptagL_parent _ (some i) cs tr h2 with h3 | ⟨j, h3, _⟩
          · rw [hnone] at h3
            cases h3
          · rw [hnone] at h3
            cases h3
      · rw [List.map_cons]
        exact List.mem_cons_of_mem _ (ih tr h1 hnone)

theorem root_pair_mem : ∀ (mm : List MNode) (n : MNode), n ∈ mm →
    ((n.id, n.id, none) : String × String × Option String) ∈ ptagF mm := by
  intro mm
  induction mm with
  | nil => intro n hn; cases hn
  | cons m ms ih =>
      intro n hn
      rw [ptagF_cons, List.mem_append]
      rcases List.mem_cons.1 hn with h1 | h1
      · left
        subst h1
        rcases n with ⟨i, nm, cs⟩
        rw [ptag_node]
        exact List.mem_cons_self _ _
      · right
        exact ih n h1

/-- C3: deletion cascades completely.  From a well-formed state, after
`delete_branch` on a registered branch `X` with enough fuel (the code
passes the registry size), no remaining branch has `X` as parent, `X` and
every former descendant are gone from the registry, from every thread's
branch list and from the mindmap, no remaining branch keeps `X` in its
`children`, and the call literally recurses over the children before
detaching and removing `X` itself (depth-first order). -/
theorem C3_delete_cascade (s : IState) (X : String) (fuel : Nat)
    (hwf : DelWF s) (hX : X ∈ branchIds s) (hfuel : s.branches.length ≤ fuel) :
    (∀ b ∈ (delete_branch fuel s X).branches, b.parent_branch ≠ some X) ∧
    (∀ y, Reach s X y → y ∉ branchIds (delete_branch fuel s X)) ∧
    (∀ y, Reach s X y → ∀ t ∈ (delete_branch fuel s X).threads, y ∉ t.branchIds) ∧
    (∀ y, Reach s X y → y ∉ mnodesIds (delete_branch fuel s X).mindmap) ∧
    (∀ b ∈ (delete_branch fuel s X).branches, X ∉ b.children) ∧
    (∀ (br : Branch) (fuel2 : Nat), lookupBranch s X = some br →
      delete_branch (fuel2 + 1) s X =
        deleteClearActive (eraseBranch (remove_branch_from_mindmap
          (deleteDetachThread (deleteDetachParent
            (br.children.foldl (fun st c => delete_branch fuel2 st c) s) br X)
            br X) X) X) X) := by
  have hwfC := hwf
  obtain ⟨hW1, hW2, hW3, hW4, hW5, hW6, hW7, hW8, hW10, hW12, hW11⟩ := hwfC
  have hW1e : (s.branches.map Branch.id).Nodup := hW1
  have hsfx : sfxLen (branchIds s) X ≤ fuel :=
    (sfxLen_le_length _ _).trans (by
      have : (branchIds s).length = s.branches.length := by
        unfold branchIds
        exact List.length_map _ _
      rw [this]
      exact hfuel)
  obtain ⟨hwf6, hXno, hcorr, hroots⟩ := delete_branch_master fuel s X hwf hsfx
  have hwf6C := hwf6
  obtain ⟨hU1, hU2, hU3, hU4, hU5, hU6, hU7, hU8, hU10, hU12, hU11⟩ := hwf6C
  have hB : ∀ y, Reach s X y → y ∉ branchIds (delete_branch fuel s X) := by
    intro y hr
    induction hr with
    | refl => exact hXno
    | step h1 h2 ihh =>
        intro hcmem
        obtain ⟨b', hb', hbid'⟩ := List.mem_map.1 hcmem
        obtain ⟨b0, hb0, e1, e2, e3, e4⟩ := hcorr b' hb'
        obtain ⟨bp, hbp, hbpid, hcmem2⟩ := h2
        obtain ⟨cb, hcbm, hcbid, hcbpar⟩ := hW3 bp hbp _ hcmem2
        have hb0cb : b0 = cb := records_unique hW1e hb0 hcbm
          (by rw [← e1, hbid', hcbid])
        have hp' : b'.parent_branch = some bp.id := by
          rw [e2, hb0cb, hcbpar]
        rw [hbpid] at hp'
        obtain ⟨pb, hpbm, hpbid, _, _⟩ := parentOk_elim (hU4 b' hb') hp'
        exact ihh (by rw [← hpbid]; exact List.mem_map.2 ⟨pb, hpbm, rfl⟩)
  refine ⟨?_, hB, ?_, ?_, ?_, ?_⟩
  · intro b hb hpx
    obtain ⟨pb, hpbm, hpbid, _, _⟩ := parentOk_elim (hU4 b hb) hpx
    exact hXno (List.mem_map.2 ⟨pb, hpbm, hpbid⟩)
  · intro y hr t ht hy
    obtain ⟨b, hb, hbid, _⟩ := hU6 t ht y hy
    exact hB y hr (by rw [← hbid]; exact List.mem_map.2 ⟨b, hb, rfl⟩)
  · intro y hr hy
    obtain ⟨tr, htr, hty⟩ := (mem_mnodesIds_iff _ y).1 hy
    rcases hcase : tr.2.2 with _ | pp
    · have hroot := ptagF_none_root _ tr htr hcase
      rw [hty, hroots] at hroot
      obtain ⟨n, hn, hnid⟩ := List.mem_map.1 hroot
      have hpair := root_pair_mem s.mindmap n hn
      have := hW12 _ hpair rfl
      rw [hnid] at this
      exact this (Reach_mem hX hW3 hr)
    · have := hU10 tr htr (by rw [hcase]; intro h; cases h)
      rw [hty] at this
      exact hB y hr this
  · intro b hb hXc
    obtain ⟨cb, hcbm, hcbid, _⟩ := hU3 b hb X hXc
    exact hXno (List.mem_map.2 ⟨cb, hcbm, hcbid⟩)
  · intro br fuel2 hlook
    conv_lhs => unfold delete_branch
    rw [hlook]


/-- A well-formed session: `b1` (child of the `thread_1` root) has child
`b2`; both are listed in their thread and placed in the mindmap. -/
def c3state : IState :=
  { initState with
    threads := [
      { id := "thread_1", name := vStr "Emotional Root Causes",
        branchIds := ["b1", "b2"], msgCount := 1, combined := false,
        source_concepts := none },
      { id := "thread_2", name := vStr "Unconventional Associations",
        branchIds := [], msgCount := 1, combined := false,
        source_concepts := none },
      { id := "thread_3", name := vStr "Imaginary Customers' Feedback",
        branchIds := [], msgCount := 1, combined := false,
        source_concepts := none }],
    branches := [cBranch "b1" "thread_1" none ["b2"],
                 cBranch "b2" "thread_1" (some "b1") []],
    mindmap := [MNode.node "thread_1" (vStr "Emotional Root Causes")
                  [MNode.node "b1" (vStr "Hb1")
                    [MNode.node "b2" (vStr "Hb2") []]],
                MNode.node "thread_2" (vStr "Unconventional Associations") [],
                MNode.node "thread_3" (vStr "Imaginary Customers' Feedback") []],
    branch_counter := 2 }

/-- Witness for C3: deleting `b1` in the concrete well-formed state also
removes its descendant `b2` from the registry, the thread lists and the
mindmap. -/
theorem C3_witness :
    DelWF c3state ∧ "b1" ∈ branchIds c3state ∧ c3state.branches.length ≤ 2 ∧
    "b2" ∉ branchIds (delete_branch 2 c3state "b1") ∧
    "b2" ∉ mnodesIds (delete_branch 2 c3state "b1").mindmap ∧
    ∀ t ∈ (delete_branch 2 c3state "b1").threads, "b2" ∉ t.branchIds := by
  have h := C3_delete_cascade c3state "b1" 2 (by decide) (by decide) (by decide)
  have hedge : ∃ b ∈ c3state.branches, b.id = "b1" ∧ "b2" ∈ b.children := by
    decide
  have hreach : Reach c3state "b1" "b2" := Reach.step Reach.refl hedge
  exact ⟨by decide, by decide, by decide,
    h.2.1 "b2" hreach, h.2.2.2.1 "b2" hreach, h.2.2.1 "b2" hreach⟩

end Ideation
